import Mathlib

/-! # Call-graph engine of `callgraph.c`

A shallow embedding of the call-graph engine in `src/callgraph.c`: the growable
string array (`dynArray`), the entity store (the `uthash` table of
`functionDecl_t`, kept in insertion order), call-site ingestion
(`ensureDeclPresent`, `addCallSite`), the merge loop of `main`, and the two
traversals (`findCallPaths`, `printCallGraph`).

Conventions of the embedding:

* a `const char *` is a `String`; `strcmp(a, b) == 0` is string equality;
* a `dynArray` keeps `len`, `capacity` and the initialised slots of its buffer
  (`data`); its contents are the first `len` slots;
* the hash table is the list of its entries in insertion order (the order of
  `hh.next`); `HASH_FIND` returns the first entry with the key; a write through
  the returned pointer is `updateDecl`;
* `exit(code)` is the outcome `Outcome.exit code`; recursion is bounded by a
  fuel argument, and running out of it is the separate outcome
  `Outcome.fuelOut`.
-/

namespace Callgraph

/-! ## Data model -/

/-- Number of slots of the storage built into every `dynArray` (line 40). -/
def BUILTIN_STORAGE_SIZE : Nat := 30

/-- Hard cap on the number of call paths of one query (line 48). -/
def MAX_CALLPATH : Nat := 300

/-- The growable array of strings of lines 41-46.  `data` lists the initialised
slots of the current buffer, in index order. -/
structure dynArray where
  len : Nat
  capacity : Nat
  data : List String
deriving DecidableEq, Repr

/-- The output array of `findCallPaths` (lines 49-52): `paths` lists the
initialised slots of the fixed array of `MAX_CALLPATH` paths. -/
structure callpaths_t where
  len : Nat
  paths : List dynArray
deriving DecidableEq, Repr

/-- One function entity (lines 54-62).  `tu` stands for the translation-unit
handle; the hash handle `hh` is the position in the store list. -/
structure functionDecl_t where
  usr : String
  displayName : String
  calls : dynArray
  callers : dynArray
  tu : Nat
  seen : Nat
deriving DecidableEq, Repr

/-- What the adapter reports about a (non-null) cursor: its USR, display name
and spelling location. -/
structure CXCursor where
  usr : String
  displayName : String
  filename : String
  lineNumber : Nat
deriving DecidableEq, Repr

/-- How a call of a C function ends. -/
inductive Outcome (α : Type) where
  | ret : α → Outcome α
  | exit : Nat → Outcome α
  | fuelOut : Outcome α
deriving DecidableEq, Repr

/-! ## Growable array (lines 86-113) -/

/-- The assignment `buffer[i] = x` on the list of initialised slots. -/
def setSlot {α : Type} (buffer : List α) (i : Nat) (x : α) : List α :=
  buffer.take i ++ x :: buffer.drop (i + 1)

/-- The strings held by an array: slots `0 .. len-1`. -/
def dynArray.toList (array : dynArray) : List String :=
  array.data.take array.len

/-- Lines 86-90: point `data` at the built-in storage, none of it written. -/
def initDynArray : dynArray :=
  { len := 0, capacity := BUILTIN_STORAGE_SIZE, data := [] }

/-- Lines 92-104: double the buffer when full (copying `len` slots), then write
the new element at index `len`. -/
def arrayAppend (array : dynArray) (newElement : String) : dynArray :=
  let array :=
    if array.len = array.capacity then
      { array with capacity := array.capacity * 2, data := array.data.take array.len }
    else array
  { array with data := setSlot array.data array.len newElement, len := array.len + 1 }

/-- Lines 106-113: append unless some slot below `len` already holds an equal
string. -/
def deduplicatingInsert (array : dynArray) (newElement : String) : dynArray :=
  if (array.data.take array.len).any (fun s => s == newElement) then array
  else arrayAppend array newElement

/-! ## Entity store -/

/-- The macro `HASH_FIND`: the entry whose key equals `usr`, if any. -/
def HASH_FIND (callgraph : List functionDecl_t) (usr : String) : Option functionDecl_t :=
  callgraph.find? (fun d => d.usr == usr)

/-- The macro `HASH_ADD_KEYPTR`: the entry goes to the end of the table. -/
def HASH_ADD_KEYPTR (callgraph : List functionDecl_t) (decl : functionDecl_t) :
    List functionDecl_t :=
  callgraph ++ [decl]

/-- A write through the pointer that `HASH_FIND callgraph usr` returned. -/
def updateDecl (callgraph : List functionDecl_t) (usr : String)
    (f : functionDecl_t → functionDecl_t) : List functionDecl_t :=
  match callgraph with
  | [] => []
  | d :: rest => if d.usr == usr then f d :: rest else d :: updateDecl rest usr f

/-- Lines 115-154: look the cursor's USR up and create the entity when it is
new; returns the table and the entity. -/
def ensureDeclPresent (cursor : CXCursor) (tu : Nat) (callgraph : List functionDecl_t) :
    List functionDecl_t × functionDecl_t :=
  match HASH_FIND callgraph cursor.usr with
  | some decl => (callgraph, decl)
  | none =>
    let decl : functionDecl_t :=
      { usr := cursor.usr
        displayName := cursor.displayName ++ ":" ++ cursor.filename ++ ":" ++
          toString cursor.lineNumber
        calls := initDynArray
        callers := initDynArray
        tu := tu
        seen := 0 }
    (HASH_ADD_KEYPTR callgraph decl, decl)

/-- Lines 156-164; a null cursor is `none`. -/
def addCallSite (callgraph : List functionDecl_t) (caller callee : Option CXCursor)
    (tu : Nat) : List functionDecl_t :=
  match caller, callee with
  | some caller, some callee =>
    let (callgraph, callerDecl) := ensureDeclPresent caller tu callgraph
    let (callgraph, calleeDecl) := ensureDeclPresent callee tu callgraph
    let callgraph := updateDecl callgraph callerDecl.usr
      (fun d => { d with calls := deduplicatingInsert d.calls calleeDecl.usr })
    updateDecl callgraph calleeDecl.usr
      (fun d => { d with callers := deduplicatingInsert d.callers callerDecl.usr })
  | _, _ => callgraph

/-- One call expression met by a worker: the enclosing function, the
referenced function and the translation unit. -/
structure CallSite where
  caller : Option CXCursor
  callee : Option CXCursor
  tu : Nat
deriving DecidableEq, Repr

/-- The store a worker builds: `info->callgraph = NULL` (line 274), then one
`addCallSite` per call expression, in visiting order. -/
def workerStore (sites : List CallSite) : List functionDecl_t :=
  sites.foldl (fun callgraph s => addCallSite callgraph s.caller s.callee s.tu) []

/-! ## Merge loop of `main` (lines 384-406) -/

/-- Body of the inner loop (lines 388-404) for one entity of a worker. -/
def mergeDecl (callgraph : List functionDecl_t) (decl : functionDecl_t) :
    List functionDecl_t :=
  match HASH_FIND callgraph decl.usr with
  | some _ =>
    let callgraph := decl.callers.toList.foldl
      (fun g usr => updateDecl g decl.usr
        (fun other => { other with callers := deduplicatingInsert other.callers usr }))
      callgraph
    decl.calls.toList.foldl
      (fun g usr => updateDecl g decl.usr
        (fun other => { other with calls := deduplicatingInsert other.calls usr }))
      callgraph
  | none => HASH_ADD_KEYPTR callgraph decl

/-- The inner loop (line 387): every entity of one worker, in table order. -/
def mergeWorker (callgraph : List functionDecl_t) (local_store : List functionDecl_t) :
    List functionDecl_t :=
  local_store.foldl mergeDecl callgraph

/-- Lines 384-406: start from worker 0 and merge workers 1, 2, ... in order. -/
def mergeResults (first : List functionDecl_t) (others : List (List functionDecl_t)) :
    List functionDecl_t :=
  others.foldl mergeWorker first

/-! ## Path finder (lines 187-236) -/

/-- Lines 187-191. -/
def clearSeen (callgraph : List functionDecl_t) : List functionDecl_t :=
  callgraph.map (fun decl => { decl with seen := 0 })

/-- The three objects `findCallpathsHelper` writes to. -/
structure PathState where
  callgraph : List functionDecl_t
  pathSoFar : dynArray
  callpathsOut : callpaths_t
deriving DecidableEq, Repr

/-- The loop of lines 223-226 over the callers, with `call` the recursive
call. -/
def forCallers (call : PathState → String → Outcome PathState) (preRecursionLength : Nat) :
    List String → PathState → Outcome PathState
  | [], s => .ret s
  | c :: rest, s =>
    match call { s with pathSoFar := { s.pathSoFar with len := preRecursionLength } } c with
    | .ret s' => forCallers call preRecursionLength rest s'
    | .exit code => .exit code
    | .fuelOut => .fuelOut

/-- Lines 214-219: a fresh array filled with the walk from its last element
down to its first. -/
def reversedPath (pathSoFar : dynArray) : dynArray :=
  pathSoFar.toList.reverse.foldl arrayAppend initDynArray

/-- Lines 198-228.  `fuel` bounds the recursion depth. -/
def findCallpathsHelper : Nat → List functionDecl_t → String → dynArray → callpaths_t →
    Outcome PathState
  | 0, _, _, _, _ => .fuelOut
  | fuel + 1, callgraph, functionUsr, pathSoFar, callpathsOut =>
    match HASH_FIND callgraph functionUsr with
    | none => .exit 100
    | some decl =>
      if decl.seen ≠ 0 then .ret ⟨callgraph, pathSoFar, callpathsOut⟩
      else
        let callgraph := updateDecl callgraph functionUsr (fun d => { d with seen := 1 })
        let pathSoFar := arrayAppend pathSoFar functionUsr
        if decl.callers.len = 0 then
          if callpathsOut.len ≥ MAX_CALLPATH then .exit 1
          else
            .ret ⟨callgraph, pathSoFar,
              { len := callpathsOut.len + 1
                paths := setSlot callpathsOut.paths callpathsOut.len (reversedPath pathSoFar) }⟩
        else
          forCallers
            (fun s c => findCallpathsHelper fuel s.callgraph c s.pathSoFar s.callpathsOut)
            pathSoFar.len decl.callers.toList ⟨callgraph, pathSoFar, callpathsOut⟩

/-- Lines 230-236.  Every nested call but the innermost marks an entity not yet
seen, so the helper gets one unit of fuel more than the number of entities. -/
def findCallPaths (callgraph : List functionDecl_t) (functionUsr : String)
    (callpathsOut : callpaths_t) : Outcome PathState :=
  findCallpathsHelper (callgraph.length + 1) (clearSeen callgraph) functionUsr initDynArray
    { callpathsOut with len := 0 }

/-- The paths a caller reads from the output array: slots `0 .. len-1`. -/
def callpaths_t.toList (callpaths : callpaths_t) : List (List String) :=
  (callpaths.paths.take callpaths.len).map dynArray.toList

/-! ## Graph printer (lines 238-270) -/

/-- The libc function `strstr` as a test: `needle` occurs in `haystack`. -/
def strstr (haystack needle : String) : Bool :=
  haystack.toList.tails.any (fun t => needle.toList.isPrefixOf t)

/-- The objects `printCallGraphRecursive` writes to: the table and `stdout`. -/
structure PrintState where
  callgraph : List functionDecl_t
  stdout : String
deriving DecidableEq, Repr

/-- The loop of lines 258-264 over the callees, with `call` the recursive
call. -/
def forCalls (call : PrintState → String → Outcome PrintState) :
    List String → PrintState → Outcome PrintState
  | [], s => .ret s
  | c :: rest, s =>
    match call s c with
    | .ret s' => forCalls call rest s'
    | .exit code => .exit code
    | .fuelOut => .fuelOut

/-- Lines 238-265.  `projectRoot` is `none` for the `NULL` that the recursion
passes under `showAll`; `fuel` bounds the recursion depth. -/
def printCallGraphRecursive : Nat → List functionDecl_t → String → Nat → Option String →
    Bool → String → Outcome PrintState
  | 0, _, _, _, _, _, _ => .fuelOut
  | fuel + 1, callgraph, functionUsr, indentationLevel, projectRoot, showAll, stdout =>
    match HASH_FIND callgraph functionUsr with
    | none => .exit 100
    | some decl =>
      let display : Bool := showAll ||
        (match projectRoot with
         | some root => strstr decl.displayName root
         | none => false)
      let stdout :=
        if display then
          let stdout := stdout ++ String.mk (List.replicate (indentationLevel * 2) ' ')
          if decl.seen ≠ 0 then stdout ++ decl.displayName ++ " (recursive)\n"
          else stdout ++ decl.displayName ++ "\n"
        else stdout
      if decl.seen ≠ 0 then .ret ⟨callgraph, stdout⟩
      else
        let callgraph := updateDecl callgraph functionUsr (fun d => { d with seen := 1 })
        forCalls
          (fun s c =>
            if showAll then
              printCallGraphRecursive fuel s.callgraph c (indentationLevel + 1) none true s.stdout
            else
              printCallGraphRecursive fuel s.callgraph c (indentationLevel + display.toNat)
                projectRoot showAll s.stdout)
          decl.calls.toList ⟨callgraph, stdout⟩

/-- Lines 267-270.  Every nested call but the innermost expands an entity not
yet seen, so the recursion gets one unit of fuel more than the number of
entities. -/
def printCallGraph (callgraph : List functionDecl_t) (rootUsr : String) (projectRoot : String)
    (showAll : Bool) (stdout : String) : Outcome PrintState :=
  printCallGraphRecursive (callgraph.length + 1) (clearSeen callgraph) rootUsr 0
    (some projectRoot) showAll stdout

/-! ## Vocabulary of the properties -/

/-- An entity with its visited marker cleared: everything a traversal must not
change. -/
def forgetSeen (d : functionDecl_t) : functionDecl_t := { d with seen := 0 }

/-- The callers list of the entity with key `k` (empty when there is none). -/
def callersOf (g : List functionDecl_t) (k : String) : List String :=
  match HASH_FIND g k with
  | some d => d.callers.toList
  | none => []

/-- The calls list of the entity with key `k` (empty when there is none). -/
def callsOf (g : List functionDecl_t) (k : String) : List String :=
  match HASH_FIND g k with
  | some d => d.calls.toList
  | none => []

/-- The entity with key `k` exists and its visited marker is set. -/
def IsSeen (g : List functionDecl_t) (k : String) : Prop :=
  ∃ d, HASH_FIND g k = some d ∧ d.seen ≠ 0

/-- A root: an entity of the store whose callers list is empty. -/
def IsRoot (g : List functionDecl_t) (k : String) : Prop :=
  ∃ d, HASH_FIND g k = some d ∧ d.callers.len = 0

/-- Symbol `b` is reached from `a` by following callers edges (through
entities of the store; zero steps allowed). -/
def CallerReach (g : List functionDecl_t) (a b : String) : Prop :=
  Relation.ReflTransGen (fun x y => y ∈ callersOf g x) a b

/-- Symbol `b` is reached from `a` by following calls edges. -/
def CallReach (g : List functionDecl_t) (a b : String) : Prop :=
  Relation.ReflTransGen (fun x y => y ∈ callsOf g x) a b

/-- The closure invariant: every symbol in a calls or callers list is a key. -/
def Closed (g : List functionDecl_t) : Prop :=
  ∀ d ∈ g, (∀ x ∈ d.calls.toList, (HASH_FIND g x).isSome) ∧
    (∀ x ∈ d.callers.toList, (HASH_FIND g x).isSome)

/-- Number of entities whose visited marker is clear. -/
def unseenCount (g : List functionDecl_t) : Nat :=
  g.countP (fun d => d.seen == 0)

/-- What every returning call of the helper guarantees about the table it
leaves: same entities up to the markers, and no marker cleared. -/
def FrameOK (g : List functionDecl_t) (r : Outcome PathState) : Prop :=
  ∀ s, r = .ret s →
    s.callgraph.map forgetSeen = g.map forgetSeen ∧ unseenCount s.callgraph ≤ unseenCount g ∧
      ∀ v, IsSeen g v → IsSeen s.callgraph v


/-- A genuine root-first call chain of `g` ending at `T`: it starts at a root,
ends at `T`, every element is a caller of the next one, and no symbol occurs
twice. -/
def GoodPath (g : List functionDecl_t) (T : String) (p : List String) : Prop :=
  (∃ r, p.head? = some r ∧ IsRoot g r) ∧ p.getLast? = some T ∧
    List.Chain' (fun a b => a ∈ callersOf g b) p ∧ p.Nodup

/-- The state of a query for target `T` on the table `g0` (markers clear at the
start) while the walk `path` is open: `g` is the current table and `cp` the
output array. -/
structure PathInv (g0 : List functionDecl_t) (T : String) (g : List functionDecl_t)
    (path : List String) (cp : callpaths_t) : Prop where
  same : g.map forgetSeen = g0.map forgetSeen
  closed : ∀ v, IsSeen g v → v ∉ path → ∀ c ∈ callersOf g0 v, IsSeen g c
  reach : ∀ v, IsSeen g v → CallerReach g0 T v
  heads : ∃ hs : List String, cp.toList.map List.head? = hs.map some ∧ hs.Nodup ∧
    ∀ r, r ∈ hs ↔ IsSeen g r ∧ IsRoot g0 r
  lenOK : cp.toList.length = cp.len
  cap : cp.len ≤ MAX_CALLPATH
  good : ∀ p ∈ cp.toList, GoodPath g0 T p

/-- The open walk `path` can be extended by `u`. -/
structure WalkPre (g0 : List functionDecl_t) (T : String) (g : List functionDecl_t)
    (path : List String) (u : String) : Prop where
  pathSeen : ∀ v ∈ path, IsSeen g v
  chain : List.Chain' (fun a b => b ∈ callersOf g0 a) (path ++ [u])
  head : (path ++ [u]).head? = some T
  nodup : path.Nodup
  reachU : CallerReach g0 T u

/-- What an exit of the path finder tells: code 100 comes with a reachable
symbol that has no entity, code 1 with more than `MAX_CALLPATH` distinct
reachable roots. -/
def ExitSpec (g0 : List functionDecl_t) (T : String) (code : Nat) : Prop :=
  (code = 100 ∧ ∃ v, CallerReach g0 T v ∧ HASH_FIND g0 v = none) ∨
  (code = 1 ∧ ∃ roots : List String, roots.Nodup ∧ MAX_CALLPATH < roots.length ∧
    ∀ r ∈ roots, CallerReach g0 T r ∧ IsRoot g0 r)

/-- Postcondition of one call of the helper at `u` with open walk `path`,
started in table `g` with walk buffer `p`. -/
def HelperPost (g0 : List functionDecl_t) (T : String) (g : List functionDecl_t)
    (p : dynArray) (path : List String) (u : String) (r : Outcome PathState) : Prop :=
  match r with
  | .ret s =>
    PathInv g0 T s.callgraph path s.callpathsOut ∧ IsSeen s.callgraph u ∧
      (∀ v, IsSeen g v → IsSeen s.callgraph v) ∧
      s.pathSoFar.data.take p.len = p.data.take p.len
  | .exit code => ExitSpec g0 T code
  | .fuelOut => True

/-- Postcondition of the loop over the callers `cs` of the last element of the
open walk `path1`. -/
def LoopPost (g0 : List functionDecl_t) (T : String) (g : List functionDecl_t)
    (path1 : List String) (cs : List String) (r : Outcome PathState) : Prop :=
  match r with
  | .ret s =>
    PathInv g0 T s.callgraph path1 s.callpathsOut ∧ (∀ c ∈ cs, IsSeen s.callgraph c) ∧
      (∀ v, IsSeen g v → IsSeen s.callgraph v) ∧
      s.pathSoFar.data.take path1.length = path1
  | .exit code => ExitSpec g0 T code
  | .fuelOut => True

/-- What one query for `T` on the table `g` guarantees, whatever its outcome;
the recursion budget is never the reason a query stops. -/
def QueryPost (g : List functionDecl_t) (T : String) (r : Outcome PathState) : Prop :=
  match r with
  | .ret s =>
    PathInv g T s.callgraph [] s.callpathsOut ∧
      ∀ v, CallerReach g T v → IsSeen s.callgraph v
  | .exit code => ExitSpec g T code
  | .fuelOut => False

/-- The paths a query hands back: the contents of the output array when the
call returns, none when the process exits instead. -/
def returnedPaths (r : Outcome PathState) : List (List String) :=
  match r with
  | .ret s => s.callpathsOut.toList
  | _ => []

/-! ## Sample projects -/

/-- The cursor of a function called `name`, declared at `demo.c:1`; the name
serves as USR. -/
def cursorOf (name : String) : Option CXCursor :=
  some { usr := name, displayName := name, filename := "demo.c", lineNumber := 1 }

/-- A call expression in the body of `caller` that refers to `callee`. -/
def site (caller callee : String) : CallSite :=
  { caller := cursorOf caller, callee := cursorOf callee, tu := 0 }

/-- The project of the end-to-end scenario: `main` calls `foo`, `foo` calls `bar`. -/
def chainStore : List functionDecl_t :=
  workerStore [site "main" "foo", site "foo" "bar"]

/-- The diamond: `B` and `C` call `A`, `D` calls `B` and `C`; the callers list
of `A` is `[B, C]`. -/
def diamondStore : List functionDecl_t :=
  workerStore [site "B" "A", site "C" "A", site "D" "B", site "D" "C"]

/-- The same diamond with the callers list of `A` in the order `[C, B]`. -/
def diamondStoreCB : List functionDecl_t :=
  workerStore [site "C" "A", site "B" "A", site "D" "B", site "D" "C"]

/-- The diamond `diamondStore` entered in another order: the table holds `D`,
`C`, `B`, `A` in this order, while the callers list of `A` is `[B, C]`. -/
def diamondStoreDC : List functionDecl_t :=
  workerStore [site "D" "C", site "D" "B", site "B" "A", site "C" "A"]

/-- Mutual recursion without a root: `A` calls `B` and `B` calls `A`. -/
def mutualStore : List functionDecl_t :=
  workerStore [site "A" "B", site "B" "A"]

/-- The names `f0`, `f1`, ..., `f(n-1)`. -/
def chainNames (n : Nat) : List String :=
  (List.range n).map (fun i => "f" ++ toString i)

/-- A straight chain of `n + 1` functions: `f0` calls `f1`, ..., `f(n-1)` calls `fn`. -/
def longChainStore (n : Nat) : List functionDecl_t :=
  workerStore ((List.range n).map (fun i => site ("f" ++ toString i) ("f" ++ toString (i + 1))))

instance instDecidableClosed (g : List functionDecl_t) : Decidable (Closed g) := by
  unfold Closed
  infer_instance

/-- Apply `f` to the value a call returns. -/
def Outcome.map {α β : Type} (f : α → β) : Outcome α → Outcome β
  | .ret a => .ret (f a)
  | .exit code => .exit code
  | .fuelOut => .fuelOut

/-- The observable result of a query: the returned paths, or the exit code. -/
def queryResult (r : Outcome PathState) : Outcome (List (List String)) :=
  r.map (fun s => s.callpathsOut.toList)

/-- The chain of the tree case: `A` calls `B`, `B` calls `C`. -/
def abcStore : List functionDecl_t :=
  workerStore [site "A" "B", site "B" "C"]


/-- What every returning call of the printer guarantees about the table it
leaves: same entities up to the markers, and no marker cleared. -/
def PrintFrameOK (g : List functionDecl_t) (r : Outcome PrintState) : Prop :=
  ∀ s, r = .ret s →
    s.callgraph.map forgetSeen = g.map forgetSeen ∧ unseenCount s.callgraph ≤ unseenCount g ∧
      ∀ v, IsSeen g v → IsSeen s.callgraph v

/-- The state of a print rooted at `R` on the table `g0` while the entities of
`stack` are being expanded. -/
structure PrintInv (g0 : List functionDecl_t) (R : String) (g : List functionDecl_t)
    (stack : List String) : Prop where
  same : g.map forgetSeen = g0.map forgetSeen
  closed : ∀ v, IsSeen g v → v ∉ stack → ∀ c ∈ callsOf g0 v, IsSeen g c
  reach : ∀ v, IsSeen g v → CallReach g0 R v

/-- What an exit of the printer tells: the code is 100 and some symbol reachable
from the root along calls edges has no entity. -/
def PrintExit (g0 : List functionDecl_t) (R : String) (code : Nat) : Prop :=
  code = 100 ∧ ∃ v, CallReach g0 R v ∧ HASH_FIND g0 v = none

/-- Postcondition of one call of the printer at `u`. -/
def PrintPost (g0 : List functionDecl_t) (R : String) (g : List functionDecl_t)
    (stack : List String) (u : String) (r : Outcome PrintState) : Prop :=
  match r with
  | .ret s =>
    PrintInv g0 R s.callgraph stack ∧ IsSeen s.callgraph u ∧
      ∀ v, IsSeen g v → IsSeen s.callgraph v
  | .exit code => PrintExit g0 R code
  | .fuelOut => True

/-- Postcondition of the loop of the printer over the callees `cs`. -/
def PrintLoopPost (g0 : List functionDecl_t) (R : String) (g : List functionDecl_t)
    (stack : List String) (cs : List String) (r : Outcome PrintState) : Prop :=
  match r with
  | .ret s =>
    PrintInv g0 R s.callgraph stack ∧ (∀ c ∈ cs, IsSeen s.callgraph c) ∧
      ∀ v, IsSeen g v → IsSeen s.callgraph v
  | .exit code => PrintExit g0 R code
  | .fuelOut => True

/-- What one print rooted at `R` on the table `g` guarantees, whatever its
outcome; the recursion budget is never the reason a print stops. -/
def PrintQueryPost (g : List functionDecl_t) (R : String) (r : Outcome PrintState) : Prop :=
  match r with
  | .ret s => ∀ v, CallReach g R v → IsSeen s.callgraph v
  | .exit code => PrintExit g R code
  | .fuelOut => False

/-- A table that breaks the closure invariant: the calls list and the callers
list of its only entity `A` name `ghost`, which has no entity. -/
def danglingStore : List functionDecl_t :=
  [{ usr := "A", displayName := "A:demo.c:1", calls := arrayAppend initDynArray "ghost",
     callers := arrayAppend initDynArray "ghost", tu := 0, seen := 0 }]

/-! ## Vocabulary of the merge -/

/-- The global entity `other` after the callers and the calls of the worker's
entity `decl` were inserted into its lists (lines 392-400). -/
def absorb (decl other : functionDecl_t) : functionDecl_t :=
  { other with
    callers := decl.callers.toList.foldl deduplicatingInsert other.callers
    calls := decl.calls.toList.foldl deduplicatingInsert other.calls }

/-- The entity under a key after one worker table was merged, from the entity
in the global table and the one in the worker's table. -/
def mergeEntry : Option functionDecl_t → Option functionDecl_t → Option functionDecl_t
  | some other, some decl => some (absorb decl other)
  | some other, none => some other
  | none, some decl => some decl
  | none, none => none

/-- The keys of a table, in table order. -/
def storeKeys (g : List functionDecl_t) : List String :=
  g.map functionDecl_t.usr

/-- A table as the ingestion builds it: one entity per key, and no symbol
twice in a calls or callers list. -/
def StoreWF (g : List functionDecl_t) : Prop :=
  (storeKeys g).Nodup ∧ ∀ d ∈ g, d.calls.toList.Nodup ∧ d.callers.toList.Nodup

instance instDecidableStoreWF (g : List functionDecl_t) : Decidable (StoreWF g) := by
  unfold StoreWF
  infer_instance

/-- The entity that the lowest-indexed worker containing key `k` holds. -/
def firstHolder (workers : List (List functionDecl_t)) (k : String) : Option functionDecl_t :=
  workers.findSome? (fun w => HASH_FIND w k)

/-- No symbol occurs twice in the calls list or in the callers list of any key. -/
def ListsNodup (g : List functionDecl_t) : Prop :=
  ∀ k, (callsOf g k).Nodup ∧ (callersOf g k).Nodup

/-- The invariant of a table under construction, key by key: one entity per
key, no symbol twice in a list, every listed symbol is a key, and `b` is in the
calls of `a` exactly when `a` is in the callers of `b`. -/
structure WorkerInv (g : List functionDecl_t) : Prop where
  keys : (storeKeys g).Nodup
  lists : ListsNodup g
  closedCalls : ∀ k y, y ∈ callsOf g k → y ∈ storeKeys g
  closedCallers : ∀ k y, y ∈ callersOf g k → y ∈ storeKeys g
  sym : ∀ a b, b ∈ callsOf g a ↔ a ∈ callersOf g b

/-- The names `r`, `rr`, `rrr`, ...: pairwise different symbols. -/
def fanName (i : Nat) : String :=
  String.mk (List.replicate (i + 1) 'r')

/-- A fan: the `n` functions `fanName 0`, ..., `fanName (n-1)` all call `t`, and
nothing calls them. -/
def fanStore (n : Nat) : List functionDecl_t :=
  { usr := "t", displayName := "t:demo.c:1", calls := initDynArray,
    callers := ((List.range n).map fanName).foldl arrayAppend initDynArray,
    tu := 0, seen := 0 } ::
  (List.range n).map (fun i =>
    { usr := fanName i, displayName := fanName i ++ ":demo.c:1",
      calls := arrayAppend initDynArray "t", callers := initDynArray, tu := 0, seen := 0 })

/-! ## The path finder with a log of the entities it enters -/

/-- The state of the path finder together with a ghost log: the symbols of the
entities entered past the seen check, in order. -/
structure LoggedState where
  state : PathState
  entered : List String
deriving DecidableEq, Repr

/-- The loop `forCallers`, carrying the log. -/
def forCallersLog (call : LoggedState → String → Outcome LoggedState)
    (preRecursionLength : Nat) : List String → LoggedState → Outcome LoggedState
  | [], s => .ret s
  | c :: rest, s =>
    match call { s with state := { s.state with
        pathSoFar := { s.state.pathSoFar with len := preRecursionLength } } } c with
    | .ret s' => forCallersLog call preRecursionLength rest s'
    | .exit code => .exit code
    | .fuelOut => .fuelOut

/-- The function `findCallpathsHelper` with one ghost statement added: right
after `decl->seen = 1` the symbol is appended to the log.  Dropping the log
gives `findCallpathsHelper` back (`findCallpathsHelperLog_erase`). -/
def findCallpathsHelperLog : Nat → List functionDecl_t → String → dynArray → callpaths_t →
    List String → Outcome LoggedState
  | 0, _, _, _, _, _ => .fuelOut
  | fuel + 1, callgraph, functionUsr, pathSoFar, callpathsOut, entered =>
    match HASH_FIND callgraph functionUsr with
    | none => .exit 100
    | some decl =>
      if decl.seen ≠ 0 then .ret ⟨⟨callgraph, pathSoFar, callpathsOut⟩, entered⟩
      else
        let callgraph := updateDecl callgraph functionUsr (fun d => { d with seen := 1 })
        let entered := entered ++ [functionUsr]
        let pathSoFar := arrayAppend pathSoFar functionUsr
        if decl.callers.len = 0 then
          if callpathsOut.len ≥ MAX_CALLPATH then .exit 1
          else
            .ret ⟨⟨callgraph, pathSoFar,
              { len := callpathsOut.len + 1
                paths := setSlot callpathsOut.paths callpathsOut.len (reversedPath pathSoFar) }⟩,
              entered⟩
        else
          forCallersLog
            (fun s c => findCallpathsHelperLog fuel s.state.callgraph c s.state.pathSoFar
              s.state.callpathsOut s.entered)
            pathSoFar.len decl.callers.toList ⟨⟨callgraph, pathSoFar, callpathsOut⟩, entered⟩

/-- What a returning logged call guarantees about the log: it grew by a
duplicate-free list of symbols that were unmarked before and are marked after. -/
def LogOK (g : List functionDecl_t) (entered : List String) (r : Outcome LoggedState) : Prop :=
  ∀ s, r = .ret s → ∃ new : List String, s.entered = entered ++ new ∧ new.Nodup ∧
    ∀ x ∈ new, ¬ IsSeen g x ∧ IsSeen s.state.callgraph x

/-- The representation invariant of a growable array: the `len` elements are
initialised slots, and no slot lies beyond the capacity of the buffer. -/
def dynArray.WF (a : dynArray) : Prop :=
  a.len ≤ a.data.length ∧ a.data.length ≤ a.capacity ∧ 0 < a.capacity

/-! ## Ingestion coordinator and worker (lines 272-326, 365-382) -/

/-- Line 366. -/
def maxThreads : Nat := 10

/-- The number of values of an `int` or an `unsigned`.  A value of either
type is kept as its 32-bit pattern, a number below `2 ^ 32`: the conversions
between the two types leave the pattern as it is, and sums and products are
reduced modulo `2 ^ 32` (for `int` this is the two's complement wrap). -/
def wordSize : Nat := 2 ^ 32

/-- Line 369: the number of commands given to every worker.  The division and
the sum are on `unsigned`; for `nCommands` below `2 ^ 32` the sum is at most
`429496730` and is the same number as an `int`. -/
def commandsPerThread (nCommands : Nat) : Nat :=
  nCommands / maxThreads + 1

/-- One entry of a worker's list of processed files (lines 64-67). -/
structure processedFile_t where
  tu : Nat
  filename : String
deriving DecidableEq, Repr

/-- The record shared by the coordinator and one worker (lines 69-77), without
the handle of the command list.  The three `int` fields hold 32-bit patterns.
`processedFiles` lists the slots of the array the worker allocates; a slot
that was never written is `none`. -/
structure parseInfo_t where
  nTotalCommands : Nat
  startCommandIdx : Nat
  nCommands : Nat
  nProcessedFiles : Nat
  processedFiles : List (Option processedFile_t)
  callgraph : List functionDecl_t
deriving DecidableEq, Repr

/-- Lines 372-376: the record of the worker launched as number `nThreads`.
The start index is the `int` product of line 376. -/
def shardInfo (nCommands nThreads : Nat) : parseInfo_t :=
  { nTotalCommands := nCommands
    startCommandIdx := (nThreads * commandsPerThread nCommands) % wordSize
    nCommands := commandsPerThread nCommands
    nProcessedFiles := 0
    processedFiles := []
    callgraph := [] }

/-- The spawn loop of lines 370-379, from the iteration with counter
`nThreads` on; `results` are the records of the workers launched so far and
`fuel` bounds the number of iterations.  The loop test compares the `int`
product `nThreads * commandsPerThread`, converted to `unsigned`, with the
`unsigned` number of commands. -/
def spawnLoop (nCommands : Nat) : Nat → Nat → List parseInfo_t → Outcome (List parseInfo_t)
  | 0, _, _ => .fuelOut
  | fuel + 1, nThreads, results =>
    if (nThreads * commandsPerThread nCommands) % wordSize < nCommands then
      if nThreads ≥ maxThreads then .exit 100
      else spawnLoop nCommands fuel (nThreads + 1) (results ++ [shardInfo nCommands nThreads])
    else .ret results

/-- Lines 365-379: the workers the coordinator launches for `nCommands`
commands.  The loop leaves at the latest in the iteration with counter
`maxThreads`, after `maxThreads + 1` tests. -/
def spawnWorkers (nCommands : Nat) : Outcome (List parseInfo_t) :=
  spawnLoop nCommands (maxThreads + 1) 0 []

/-- The values of `i` in the loop of lines 280-281: the `unsigned` counter
starts at `startCommandIdx` and runs while `i < end` and `i < nTotalCommands`,
where `end` is the `int` sum of line 280 and both bounds are converted to
`unsigned` for the comparison. -/
def commandIndices (info : parseInfo_t) : List Nat :=
  List.range' (info.startCommandIdx % wordSize)
    (min ((info.startCommandIdx + info.nCommands) % wordSize)
        (info.nTotalCommands % wordSize) - info.startCommandIdx % wordSize)

/-- What the adapter delivers for a command that parses: the unit handle and
the call expressions met while visiting the unit, each with the enclosing
function and the referenced function. -/
structure ParsedUnit where
  tu : Nat
  calls : List (Option CXCursor × Option CXCursor)
deriving DecidableEq, Repr

/-- One compilation command as the adapters present it: its file name and the
result of parsing it (`none` for an error code). -/
structure CompileCommand where
  filename : String
  parsed : Option ParsedUnit
deriving DecidableEq, Repr

/-- One pass through the loop body of lines 281-322 for the command with index
`i`, followed by the increment `i++, nProcessedFiles++`, which `continue`
reaches as well. -/
def parseStep (commands : List CompileCommand) (info : parseInfo_t) (i : Nat) : parseInfo_t :=
  match (commands.get? i).bind (fun command => command.parsed.map (fun u => (command, u))) with
  | none => { info with nProcessedFiles := info.nProcessedFiles + 1 }
  | some (command, u) =>
    { info with
      callgraph := u.calls.foldl (fun g c => addCallSite g c.1 c.2 u.tu) info.callgraph
      processedFiles := setSlot info.processedFiles info.nProcessedFiles
        (some { tu := u.tu, filename := command.filename })
      nProcessedFiles := info.nProcessedFiles + 1 }

/-- Lines 272-326: the worker. -/
def parse (commands : List CompileCommand) (info : parseInfo_t) : parseInfo_t :=
  (commandIndices info).foldl (parseStep commands)
    { info with
      callgraph := []
      nProcessedFiles := 0
      processedFiles := List.replicate info.nCommands none }

/-- The slot a command leaves in the list of processed files: an entry when it
parsed, an unwritten slot when it did not. -/
def slotOf (commands : List CompileCommand) (i : Nat) : Option processedFile_t :=
  (commands.get? i).bind (fun command =>
    command.parsed.map (fun u => { tu := u.tu, filename := command.filename }))

/-- A project of ten commands `f0.c`, ..., `f9.c` with empty units, of which
the first fails to parse. -/
def sampleCommands : List CompileCommand :=
  (List.range 10).map (fun i =>
    { filename := "f" ++ toString i ++ ".c"
      parsed := if i = 0 then none else some { tu := i, calls := [] } })

/-- Edge symmetry: for all entities `A` and `B` of the table, `B` is in the
calls of `A` exactly when `A` is in the callers of `B`. -/
def EdgeSym (g : List functionDecl_t) : Prop :=
  ∀ A ∈ g, ∀ B ∈ g, B.usr ∈ A.calls.toList ↔ A.usr ∈ B.callers.toList

/-- Everything an entity persists: all its fields but the visited marker. -/
def persisted (d : functionDecl_t) : String × String × dynArray × dynArray × Nat :=
  (d.usr, d.displayName, d.calls, d.callers, d.tu)

/-- A function that calls itself and nothing else. -/
def selfStore : List functionDecl_t :=
  workerStore [site "loop" "loop"]

/-! ## The graph printer with a log of the nodes it reaches -/

/-- One node reached by the printer: the symbol and display name of the
entity, the display names of its proper ancestors on the traversal path (root
first), and whether its marker was already set. -/
structure Visit where
  usr : String
  name : String
  ancestors : List String
  repeated : Bool
deriving DecidableEq, Repr

/-- The state of the printer together with the ghost log of the nodes reached. -/
structure LoggedPrint where
  state : PrintState
  visits : List Visit
deriving DecidableEq, Repr

/-- The loop `forCalls`, carrying the log. -/
def forCallsLog (call : LoggedPrint → String → Outcome LoggedPrint) :
    List String → LoggedPrint → Outcome LoggedPrint
  | [], s => .ret s
  | c :: rest, s =>
    match call s c with
    | .ret s' => forCallsLog call rest s'
    | .exit code => .exit code
    | .fuelOut => .fuelOut

/-- The function `printCallGraphRecursive` with ghost code added: the display
names of the ancestors are passed down, and every node reached is appended to
the log.  Dropping the log gives `printCallGraphRecursive` back
(`printCallGraphRecursiveLog_erase`). -/
def printCallGraphRecursiveLog : Nat → List functionDecl_t → String → Nat → Option String →
    Bool → String → List String → List Visit → Outcome LoggedPrint
  | 0, _, _, _, _, _, _, _, _ => .fuelOut
  | fuel + 1, callgraph, functionUsr, indentationLevel, projectRoot, showAll, stdout,
      ancestors, visits =>
    match HASH_FIND callgraph functionUsr with
    | none => .exit 100
    | some decl =>
      let display : Bool := showAll ||
        (match projectRoot with
         | some root => strstr decl.displayName root
         | none => false)
      let stdout :=
        if display then
          let stdout := stdout ++ String.mk (List.replicate (indentationLevel * 2) ' ')
          if decl.seen ≠ 0 then stdout ++ decl.displayName ++ " (recursive)\n"
          else stdout ++ decl.displayName ++ "\n"
        else stdout
      let visits := visits ++
        [{ usr := functionUsr, name := decl.displayName, ancestors := ancestors,
           repeated := decide (decl.seen ≠ 0) }]
      if decl.seen ≠ 0 then .ret ⟨⟨callgraph, stdout⟩, visits⟩
      else
        let callgraph := updateDecl callgraph functionUsr (fun d => { d with seen := 1 })
        forCallsLog
          (fun s c =>
            if showAll then
              printCallGraphRecursiveLog fuel s.state.callgraph c (indentationLevel + 1) none true
                s.state.stdout (ancestors ++ [decl.displayName]) s.visits
            else
              printCallGraphRecursiveLog fuel s.state.callgraph c
                (indentationLevel + display.toNat) projectRoot showAll s.state.stdout
                (ancestors ++ [decl.displayName]) s.visits)
          decl.calls.toList ⟨⟨callgraph, stdout⟩, visits⟩

/-- The function `printCallGraph` with the log. -/
def printCallGraphLog (callgraph : List functionDecl_t) (rootUsr : String)
    (projectRoot : String) (showAll : Bool) (stdout : String) : Outcome LoggedPrint :=
  printCallGraphRecursiveLog (callgraph.length + 1) (clearSeen callgraph) rootUsr 0
    (some projectRoot) showAll stdout [] []

/-- The display rule in the words of the spec: a node is displayed when
`showAll` is true or its display name contains the filter prefix. -/
def displayed (showAll : Bool) (filterPrefix : Option String) (name : String) : Bool :=
  showAll ||
    (match filterPrefix with
     | some p => strstr name p
     | none => false)

/-- The line of a reached node in the words of the spec: nothing when the node
is not displayed; otherwise two spaces for every displayed proper ancestor,
the display name, and the marker ` (recursive)` when the node was reached
before. -/
def lineOf (showAll : Bool) (filterPrefix : Option String) (v : Visit) : String :=
  if displayed showAll filterPrefix v.name then
    String.mk (List.replicate
        (2 * (v.ancestors.filter (displayed showAll filterPrefix)).length) ' ') ++
      v.name ++ (if v.repeated then " (recursive)\n" else "\n")
  else ""

/-- The lines of the reached nodes, in order, appended to `out`. -/
def renderFrom (showAll : Bool) (filterPrefix : Option String) (out : String)
    (vs : List Visit) : String :=
  vs.foldl (fun acc v => acc ++ lineOf showAll filterPrefix v) out

/-- What a returning logged call guarantees about the output: the log grew by
the nodes reached, and the output grew by their lines. -/
def RenderOK (showAll : Bool) (p : Option String) (out : String) (visits : List Visit)
    (r : Outcome LoggedPrint) : Prop :=
  ∀ s, r = .ret s → ∃ new : List Visit, s.visits = visits ++ new ∧
    s.state.stdout = renderFrom showAll p out new

/-- The symbols a log shows as expanded: the nodes reached with the marker
clear, in the order they were reached. -/
def expansions (vs : List Visit) : List String :=
  (vs.filter (fun v => !v.repeated)).map Visit.usr

/-- The sum of the calls-list lengths of the expanded symbols of a log. -/
def callsTotal (g : List functionDecl_t) (vs : List Visit) : Nat :=
  ((expansions vs).map (fun x => (callsOf g x).length)).sum

/-- In a log, a node reached with the marker set is followed by no descendant
of its own: the node after it is not deeper. -/
def NoDescendantsAfterRepeat (vs : List Visit) : Prop :=
  List.Chain' (fun v w => v.repeated = true → w.ancestors.length ≤ v.ancestors.length) vs

/-- What the log `new` of a loop over the callees `cs` below the ancestors
`anc` records, with `g` the table before and `g2` the table after. -/
structure LoopLog (g : List functionDecl_t) (anc : List String) (cs : List String)
    (g2 : List functionDecl_t) (new : List Visit) : Prop where
  nodup : (expansions new).Nodup
  marked : ∀ x, x ∈ expansions new ↔ (¬ IsSeen g x ∧ IsSeen g2 x)
  count : new.length = cs.length + callsTotal g new
  deep : ∀ v ∈ new, anc.length ≤ v.ancestors.length
  head : ∀ v ∈ new.head?, v.ancestors = anc
  chain : NoDescendantsAfterRepeat new
  names : ∀ v ∈ new, ∃ d, HASH_FIND g v.usr = some d ∧ v.name = d.displayName
  parent : ∀ v ∈ new, (v.ancestors = anc ∧ v.usr ∈ cs) ∨
    ∃ w ∈ new, w.repeated = false ∧ v.ancestors = w.ancestors ++ [w.name] ∧
      v.usr ∈ callsOf g w.usr

/-- What a returning logged call or loop guarantees about the log. -/
def PrintLogOK (g : List functionDecl_t) (anc : List String) (cs : List String)
    (visits : List Visit) (r : Outcome LoggedPrint) : Prop :=
  ∀ s, r = .ret s → ∃ new : List Visit, s.visits = visits ++ new ∧
    LoopLog g anc cs s.state.callgraph new

/-- The lines of a list, one after the other. -/
def concatLines (ls : List String) : String :=
  ls.foldr (fun l acc => l ++ acc) ""

/-- The project of the filter example: `app_main` calls `lib_util`, which
calls `app_cb`. -/
def filterStore : List functionDecl_t :=
  workerStore [site "app_main" "lib_util", site "lib_util" "app_cb"]
/-! ## Growable array: basic facts -/

theorem toList_initDynArray : initDynArray.toList = [] := rfl

theorem take_setSlot {α : Type} (buffer : List α) (i : Nat) (x : α) :
    (setSlot buffer i x).take (i + 1) = buffer.take i ++ [x] := by
  unfold setSlot
  rcases Nat.lt_or_ge i buffer.length with h | h
  · have hl : (buffer.take i).length = i := by simp; omega
    rw [List.take_append_eq_append_take, hl]
    simp
  · rw [List.take_of_length_le h, List.drop_of_length_le (by omega)]
    apply List.take_of_length_le
    simp; omega

theorem take_setSlot_of_le {α : Type} (buffer : List α) (i j : Nat) (x : α)
    (hj : j ≤ i) (hi : i ≤ buffer.length) :
    (setSlot buffer i x).take j = buffer.take j := by
  unfold setSlot
  rw [List.take_append_of_le_length (by simp; omega), List.take_take]
  congr 1
  omega

theorem length_setSlot {α : Type} (buffer : List α) (i : Nat) (x : α)
    (hi : i ≤ buffer.length) : i + 1 ≤ (setSlot buffer i x).length := by
  unfold setSlot
  simp only [List.length_append, List.length_take, List.length_cons, List.length_drop]
  omega

theorem len_arrayAppend (a : dynArray) (x : String) : (arrayAppend a x).len = a.len + 1 := by
  unfold arrayAppend
  split <;> rfl

theorem toList_arrayAppend (a : dynArray) (x : String) :
    (arrayAppend a x).toList = a.toList ++ [x] := by
  unfold arrayAppend dynArray.toList
  split
  · simp only [take_setSlot, List.take_take, Nat.min_self]
  · simp only [take_setSlot]

theorem data_arrayAppend_take (a : dynArray) (x : String) (j : Nat) (hj : j ≤ a.len)
    (hwf : a.len ≤ a.data.length) : (arrayAppend a x).data.take j = a.data.take j := by
  unfold arrayAppend
  split
  · simp only
    rw [take_setSlot_of_le _ _ _ _ hj (by simp; omega), List.take_take]
    congr 1
    omega
  · simp only
    rw [take_setSlot_of_le _ _ _ _ hj hwf]

theorem wf_arrayAppend (a : dynArray) (x : String) (hwf : a.len ≤ a.data.length) :
    (arrayAppend a x).len ≤ (arrayAppend a x).data.length := by
  unfold arrayAppend
  split
  · exact length_setSlot _ _ _ (by simp; omega)
  · exact length_setSlot _ _ _ hwf

theorem toList_foldl_arrayAppend (l : List String) (a : dynArray) :
    (l.foldl arrayAppend a).toList = a.toList ++ l := by
  induction l generalizing a with
  | nil => simp
  | cons x xs ih => simp [ih, toList_arrayAppend]

theorem toList_reversedPath (p : dynArray) : (reversedPath p).toList = p.toList.reverse := by
  unfold reversedPath
  rw [toList_foldl_arrayAppend, toList_initDynArray, List.nil_append]

/-! ## Entity store: basic facts -/

theorem HASH_FIND_usr {g : List functionDecl_t} {k : String} {d : functionDecl_t}
    (h : HASH_FIND g k = some d) : d.usr = k := by
  have := List.find?_some h
  simpa using this

theorem HASH_FIND_mem {g : List functionDecl_t} {k : String} {d : functionDecl_t}
    (h : HASH_FIND g k = some d) : d ∈ g :=
  List.mem_of_find?_eq_some h

theorem HASH_FIND_isSome_iff (g : List functionDecl_t) (k : String) :
    (HASH_FIND g k).isSome ↔ ∃ d ∈ g, d.usr = k := by
  unfold HASH_FIND
  simp [List.find?_isSome]

theorem HASH_FIND_updateDecl (g : List functionDecl_t) (k k2 : String)
    (f : functionDecl_t → functionDecl_t) (hf : ∀ d, (f d).usr = d.usr) :
    HASH_FIND (updateDecl g k f) k2 =
      if k2 = k then (HASH_FIND g k2).map f else HASH_FIND g k2 := by
  induction g with
  | nil => simp [updateDecl, HASH_FIND]
  | cons d rest ih =>
    unfold updateDecl
    unfold HASH_FIND at ih ⊢
    by_cases hd : d.usr = k
    · have hb : (d.usr == k) = true := by simpa using hd
      rw [hb, if_pos rfl, List.find?_cons, List.find?_cons, hf]
      by_cases hk : k2 = k
      · subst hk
        simp [hd]
      · have : (d.usr == k2) = false := by
          simp only [beq_eq_false_iff_ne, ne_eq]
          exact fun h => hk (h ▸ hd)
        simp [this, hk]
    · have hb : (d.usr == k) = false := by simpa using hd
      rw [hb, if_neg (by simp), List.find?_cons, List.find?_cons]
      by_cases hk : d.usr = k2
      · have : ¬ k2 = k := fun h => hd (hk ▸ h)
        simp [hk, this]
      · have hb2 : (d.usr == k2) = false := by simpa using hk
        simp only [hb2]
        exact ih

theorem length_updateDecl (g : List functionDecl_t) (k : String)
    (f : functionDecl_t → functionDecl_t) : (updateDecl g k f).length = g.length := by
  induction g with
  | nil => rfl
  | cons d rest ih =>
    unfold updateDecl
    split <;> simp [ih]

theorem map_forgetSeen_updateDecl (g : List functionDecl_t) (k : String)
    (f : functionDecl_t → functionDecl_t) (hf : ∀ d, forgetSeen (f d) = forgetSeen d) :
    (updateDecl g k f).map forgetSeen = g.map forgetSeen := by
  induction g with
  | nil => rfl
  | cons d rest ih =>
    unfold updateDecl
    split <;> simp [ih, hf]

theorem map_forgetSeen_clearSeen (g : List functionDecl_t) :
    (clearSeen g).map forgetSeen = g.map forgetSeen := by
  unfold clearSeen
  simp [forgetSeen, Function.comp_def]

theorem HASH_FIND_map_forgetSeen (g : List functionDecl_t) (k : String) :
    HASH_FIND (g.map forgetSeen) k = (HASH_FIND g k).map forgetSeen := by
  induction g with
  | nil => rfl
  | cons d rest ih =>
    unfold HASH_FIND at ih ⊢
    rw [List.map_cons, List.find?_cons, List.find?_cons]
    have : (forgetSeen d).usr = d.usr := rfl
    rw [this]
    split
    · rfl
    · exact ih

/-- Stores that agree up to the visited markers hold the same entities under
the same keys, up to the markers. -/
theorem HASH_FIND_congr {g g2 : List functionDecl_t}
    (h : g.map forgetSeen = g2.map forgetSeen) (k : String) :
    (HASH_FIND g k).map forgetSeen = (HASH_FIND g2 k).map forgetSeen := by
  rw [← HASH_FIND_map_forgetSeen, ← HASH_FIND_map_forgetSeen, h]

theorem callersOf_congr {g g2 : List functionDecl_t}
    (h : g.map forgetSeen = g2.map forgetSeen) (k : String) :
    callersOf g k = callersOf g2 k := by
  have := HASH_FIND_congr h k
  unfold callersOf
  cases h1 : HASH_FIND g k <;> cases h2 : HASH_FIND g2 k <;> simp [h1, h2] at this ⊢
  have := congrArg functionDecl_t.callers this
  simpa [forgetSeen] using congrArg dynArray.toList this

theorem callsOf_congr {g g2 : List functionDecl_t}
    (h : g.map forgetSeen = g2.map forgetSeen) (k : String) :
    callsOf g k = callsOf g2 k := by
  have := HASH_FIND_congr h k
  unfold callsOf
  cases h1 : HASH_FIND g k <;> cases h2 : HASH_FIND g2 k <;> simp [h1, h2] at this ⊢
  have := congrArg functionDecl_t.calls this
  simpa [forgetSeen] using congrArg dynArray.toList this

theorem IsRoot_congr {g g2 : List functionDecl_t}
    (h : g.map forgetSeen = g2.map forgetSeen) (k : String) :
    IsRoot g k → IsRoot g2 k := by
  rintro ⟨d, hd, hr⟩
  have := HASH_FIND_congr h k
  cases h2 : HASH_FIND g2 k with
  | none => simp [hd, h2] at this
  | some d2 =>
    simp [hd, h2] at this
    refine ⟨d2, h2, ?_⟩
    have := congrArg (fun d => d.callers.len) this
    simp [forgetSeen] at this
    omega

theorem isSome_congr {g g2 : List functionDecl_t}
    (h : g.map forgetSeen = g2.map forgetSeen) (k : String) :
    (HASH_FIND g k).isSome = (HASH_FIND g2 k).isSome := by
  have := congrArg Option.isSome (HASH_FIND_congr h k)
  simpa using this

/-! ## Path finder: frame and termination -/

theorem unseenCount_le_length (g : List functionDecl_t) : unseenCount g ≤ g.length :=
  List.countP_le_length _

theorem length_clearSeen (g : List functionDecl_t) : (clearSeen g).length = g.length := by
  simp [clearSeen]

theorem unseenCount_mark (g : List functionDecl_t) (k : String) (d : functionDecl_t)
    (h : HASH_FIND g k = some d) (hs : d.seen = 0) :
    unseenCount (updateDecl g k (fun d => { d with seen := 1 })) + 1 = unseenCount g := by
  induction g with
  | nil => simp [HASH_FIND] at h
  | cons e rest ih =>
    unfold HASH_FIND at h ih
    rw [List.find?_cons] at h
    unfold updateDecl
    by_cases he : e.usr = k
    · have hb : (e.usr == k) = true := by simpa using he
      rw [hb] at h
      simp only [Option.some.injEq] at h
      subst h
      simp [hb, unseenCount, List.countP_cons, hs]
    · have hb : (e.usr == k) = false := by simpa using he
      rw [hb] at h
      simp only [hb, Bool.false_eq_true, if_false]
      have := ih h
      unfold unseenCount at this ⊢
      rw [List.countP_cons, List.countP_cons]
      omega

theorem forCallers_frame (call : PathState → String → Outcome PathState) (pre : Nat)
    (hcall : ∀ s c, FrameOK s.callgraph (call s c)) :
    ∀ cs s, FrameOK s.callgraph (forCallers call pre cs s) := by
  intro cs
  induction cs with
  | nil =>
    intro s s' h
    simp only [forCallers, Outcome.ret.injEq] at h
    subst h
    exact ⟨rfl, le_refl _, fun v hv => hv⟩
  | cons c rest ih =>
    intro s s' h
    unfold forCallers at h
    have hc := hcall { s with pathSoFar := { s.pathSoFar with len := pre } } c
    cases hr : call { s with pathSoFar := { s.pathSoFar with len := pre } } c with
    | ret s1 =>
      rw [hr] at h
      simp only at h
      obtain ⟨h1, h2, h5⟩ := hc s1 hr
      obtain ⟨h3, h4, h6⟩ := ih s1 s' h
      exact ⟨h3.trans h1, le_trans h4 h2, fun v hv => h6 v (h5 v hv)⟩
    | exit code => rw [hr] at h; simp at h
    | fuelOut => rw [hr] at h; simp at h

theorem forCallers_fuel (call : PathState → String → Outcome PathState) (pre fuel : Nat)
    (hframe : ∀ s c, FrameOK s.callgraph (call s c))
    (hcall : ∀ s c, unseenCount s.callgraph < fuel → call s c ≠ .fuelOut) :
    ∀ cs s, unseenCount s.callgraph < fuel → forCallers call pre cs s ≠ .fuelOut := by
  intro cs
  induction cs with
  | nil => intro s _; simp [forCallers]
  | cons c rest ih =>
    intro s hs
    unfold forCallers
    have hc := hcall { s with pathSoFar := { s.pathSoFar with len := pre } } c hs
    have hf := hframe { s with pathSoFar := { s.pathSoFar with len := pre } } c
    cases hr : call { s with pathSoFar := { s.pathSoFar with len := pre } } c with
    | ret s1 =>
      simp only
      exact ih s1 (lt_of_le_of_lt (hf s1 hr).2.1 hs)
    | exit code => simp
    | fuelOut => exact absurd hr hc

theorem IsSeen_mark (g : List functionDecl_t) (u v : String) (d : functionDecl_t)
    (hd : HASH_FIND g u = some d) :
    IsSeen (updateDecl g u (fun d => { d with seen := 1 })) v ↔ v = u ∨ IsSeen g v := by
  unfold IsSeen
  rw [HASH_FIND_updateDecl g u v (fun d => { d with seen := 1 }) (fun _ => rfl)]
  by_cases hv : v = u
  · subst hv
    simp [hd]
  · simp [hv]

theorem findCallpathsHelper_frame : ∀ (fuel : Nat) (g : List functionDecl_t) (u : String)
    (p : dynArray) (cp : callpaths_t), FrameOK g (findCallpathsHelper fuel g u p cp) := by
  intro fuel
  induction fuel with
  | zero => intro g u p cp s h; simp [findCallpathsHelper] at h
  | succ fuel ih =>
    intro g u p cp s h
    unfold findCallpathsHelper at h
    cases hd : HASH_FIND g u with
    | none => rw [hd] at h; simp at h
    | some decl =>
      rw [hd] at h
      simp only at h
      by_cases hseen : decl.seen = 0
      · rw [if_neg (by simpa using hseen)] at h
        have hmark := unseenCount_mark g u decl hd hseen
        have hsame := map_forgetSeen_updateDecl g u (fun d => { d with seen := 1 })
          (fun d => rfl)
        have hseen_iff := fun v => IsSeen_mark g u v decl hd
        by_cases hroot : decl.callers.len = 0
        · rw [if_pos hroot] at h
          split at h
          · simp at h
          · simp only [Outcome.ret.injEq] at h
            subst h
            exact ⟨hsame, by simp only; omega, fun v hv => (hseen_iff v).2 (Or.inr hv)⟩
        · rw [if_neg hroot] at h
          have := forCallers_frame
            (fun s c => findCallpathsHelper fuel s.callgraph c s.pathSoFar s.callpathsOut)
            (arrayAppend p u).len (fun s c => ih s.callgraph c s.pathSoFar s.callpathsOut)
            decl.callers.toList _ s h
          exact ⟨this.1.trans hsame, by have := this.2.1; simp only at this; omega,
            fun v hv => this.2.2 v ((hseen_iff v).2 (Or.inr hv))⟩
      · rw [if_pos hseen] at h
        simp only [Outcome.ret.injEq] at h
        subst h
        exact ⟨rfl, le_refl _, fun v hv => hv⟩

theorem findCallpathsHelper_fuel : ∀ (fuel : Nat) (g : List functionDecl_t) (u : String)
    (p : dynArray) (cp : callpaths_t), unseenCount g < fuel →
    findCallpathsHelper fuel g u p cp ≠ .fuelOut := by
  intro fuel
  induction fuel with
  | zero => intro g u p cp h; omega
  | succ fuel ih =>
    intro g u p cp hlt
    unfold findCallpathsHelper
    cases hd : HASH_FIND g u with
    | none => simp
    | some decl =>
      simp only
      by_cases hseen : decl.seen = 0
      · rw [if_neg (by simpa using hseen)]
        have hmark := unseenCount_mark g u decl hd hseen
        by_cases hroot : decl.callers.len = 0
        · rw [if_pos hroot]
          split <;> simp
        · rw [if_neg hroot]
          apply forCallers_fuel _ _ fuel
            (fun s c => findCallpathsHelper_frame fuel s.callgraph c s.pathSoFar s.callpathsOut)
            (fun s c hs => ih s.callgraph c s.pathSoFar s.callpathsOut hs)
          simp only
          omega
      · rw [if_pos hseen]
        simp

/-! ## Path finder: the invariant of the walk -/

theorem toList_setSlot_paths (cp : callpaths_t) (x : dynArray) :
    callpaths_t.toList { len := cp.len + 1, paths := setSlot cp.paths cp.len x } =
      cp.toList ++ [x.toList] := by
  unfold callpaths_t.toList
  simp only [take_setSlot, List.map_append, List.map_cons, List.map_nil]

theorem length_toList_le (cp : callpaths_t) : cp.toList.length ≤ cp.len := by
  unfold callpaths_t.toList
  simp

theorem forCallers_inv (g0 : List functionDecl_t) (T : String)
    (call : PathState → String → Outcome PathState) (path1 : List String)
    (hcall : ∀ s c, PathInv g0 T s.callgraph path1 s.callpathsOut →
      WalkPre g0 T s.callgraph path1 c → s.pathSoFar.toList = path1 →
      s.pathSoFar.len ≤ s.pathSoFar.data.length →
      HelperPost g0 T s.callgraph s.pathSoFar path1 c (call s c))
    (hnd : path1.Nodup) :
    ∀ cs s, PathInv g0 T s.callgraph path1 s.callpathsOut →
      (∀ v ∈ path1, IsSeen s.callgraph v) →
      (∀ c ∈ cs, List.Chain' (fun a b => b ∈ callersOf g0 a) (path1 ++ [c]) ∧
        (path1 ++ [c]).head? = some T ∧ CallerReach g0 T c) →
      s.pathSoFar.data.take path1.length = path1 →
      LoopPost g0 T s.callgraph path1 cs (forCallers call path1.length cs s) := by
  intro cs
  induction cs with
  | nil =>
    intro s hinv _ _ hp
    simp only [forCallers, LoopPost]
    exact ⟨hinv, by simp, fun v h => h, hp⟩
  | cons c rest ih =>
    intro s hinv hps hcs hp
    unfold forCallers
    have hlen : path1.length ≤ s.pathSoFar.data.length := by
      have := congrArg List.length hp
      simp only [List.length_take] at this
      omega
    have hc := hcall { s with pathSoFar := { s.pathSoFar with len := path1.length } } c hinv
      ⟨hps, (hcs c (List.mem_cons_self _ _)).1, (hcs c (List.mem_cons_self _ _)).2.1, hnd,
        (hcs c (List.mem_cons_self _ _)).2.2⟩ hp hlen
    cases hr : call { s with pathSoFar := { s.pathSoFar with len := path1.length } } c with
    | ret s1 =>
      rw [hr] at hc
      simp only [HelperPost] at hc
      obtain ⟨hinv1, hseenc, hmono, hpre⟩ := hc
      have hrest := ih s1 hinv1 (fun v hv => hmono v (hps v hv))
        (fun c2 h2 => hcs c2 (List.mem_cons_of_mem _ h2)) (hpre.trans hp)
      simp only
      cases hr2 : forCallers call path1.length rest s1 with
      | ret s2 =>
        rw [hr2] at hrest
        simp only [LoopPost] at hrest ⊢
        obtain ⟨hinv2, hall, hmono2, hp2⟩ := hrest
        refine ⟨hinv2, ?_, fun v h => hmono2 v (hmono v h), hp2⟩
        intro c2 h2
        rcases List.mem_cons.1 h2 with h | h
        · subst h; exact hmono2 _ hseenc
        · exact hall c2 h
      | exit code => rw [hr2] at hrest; exact hrest
      | fuelOut => trivial
    | exit code => rw [hr] at hc; exact hc
    | fuelOut => trivial

theorem findCallpathsHelper_inv (g0 : List functionDecl_t) (T : String) :
    ∀ (fuel : Nat) (g : List functionDecl_t) (u : String) (p : dynArray) (cp : callpaths_t)
      (path : List String), PathInv g0 T g path cp → WalkPre g0 T g path u →
      p.toList = path → p.len ≤ p.data.length →
      HelperPost g0 T g p path u (findCallpathsHelper fuel g u p cp) := by
  intro fuel
  induction fuel with
  | zero => intro g u p cp path _ _ _ _; simp [findCallpathsHelper, HelperPost]
  | succ fuel ih =>
    intro g u p cp path hinv hw hp hwf
    unfold findCallpathsHelper
    cases hd : HASH_FIND g u with
    | none =>
      simp only [HelperPost]
      refine Or.inl ⟨rfl, u, hw.reachU, ?_⟩
      have := isSome_congr hinv.same u
      rw [hd] at this
      cases h0 : HASH_FIND g0 u with
      | none => rfl
      | some d0 => rw [h0] at this; simp at this
    | some decl =>
      simp only
      by_cases hseen : decl.seen = 0
      · rw [if_neg (by simpa using hseen)]
        have hsame1 := map_forgetSeen_updateDecl g u (fun d => { d with seen := 1 })
          (fun d => rfl)
        have hseen_iff := fun v => IsSeen_mark g u v decl hd
        have hu_unseen : ¬ IsSeen g u := by
          rintro ⟨d, h1, h2⟩
          rw [hd] at h1
          simp only [Option.some.injEq] at h1
          subst h1
          exact h2 hseen
        have hu_notin : u ∉ path := fun h => hu_unseen (hw.pathSeen u h)
        have hplen : p.len = path.length := by
          have := congrArg List.length hp
          simp only [dynArray.toList, List.length_take] at this
          omega
        have hcallers : callersOf g0 u = decl.callers.toList := by
          rw [← callersOf_congr hinv.same u]
          simp [callersOf, hd]
        have hnd1 : (path ++ [u]).Nodup := by
          rw [List.nodup_append]
          exact ⟨hw.nodup, List.nodup_singleton u, by
            intro x hx hx2
            rw [List.mem_singleton] at hx2
            exact hu_notin (hx2 ▸ hx)⟩
        by_cases hroot : decl.callers.len = 0
        · rw [if_pos hroot]
          have hroot0 : IsRoot g0 u := IsRoot_congr hinv.same u ⟨decl, hd, hroot⟩
          have hnil : callersOf g0 u = [] := by
            rw [hcallers]
            simp [dynArray.toList, hroot]
          obtain ⟨hs, hmap, hnd, hiff⟩ := hinv.heads
          have hu_hs : u ∉ hs := fun h => hu_unseen ((hiff u).1 h).1
          have hlen_hs : hs.length = cp.len := by
            have := congrArg List.length hmap
            simp only [List.length_map] at this
            rw [← this, hinv.lenOK]
          by_cases hcap : cp.len ≥ MAX_CALLPATH
          · rw [if_pos hcap]
            simp only [HelperPost]
            refine Or.inr ⟨rfl, u :: hs, List.nodup_cons.2 ⟨hu_hs, hnd⟩, ?_, ?_⟩
            · simp only [List.length_cons]
              omega
            · intro r hr
              rcases List.mem_cons.1 hr with h | h
              · subst h; exact ⟨hw.reachU, hroot0⟩
              · exact ⟨hinv.reach r ((hiff r).1 h).1, ((hiff r).1 h).2⟩
          · rw [if_neg hcap]
            simp only [HelperPost]
            have hout := toList_setSlot_paths cp (reversedPath (arrayAppend p u))
            rw [toList_reversedPath, toList_arrayAppend, hp] at hout
            refine ⟨⟨hsame1.trans hinv.same, ?_, ?_, ?_, ?_, ?_, ?_⟩, ?_, ?_, ?_⟩
            · intro v hv hvp c hc
              rcases (hseen_iff v).1 hv with h | h
              · subst h; rw [hnil] at hc; simp at hc
              · exact (hseen_iff c).2 (Or.inr (hinv.closed v h hvp c hc))
            · intro v hv
              rcases (hseen_iff v).1 hv with h | h
              · subst h; exact hw.reachU
              · exact hinv.reach v h
            · refine ⟨hs ++ [u], ?_, ?_, ?_⟩
              · rw [hout]
                simp [hmap]
              · rw [List.nodup_append]
                exact ⟨hnd, List.nodup_singleton u, by
                  intro x hx hx2
                  rw [List.mem_singleton] at hx2
                  exact hu_hs (hx2 ▸ hx)⟩
              · intro r
                rw [List.mem_append, List.mem_singleton, hseen_iff r]
                constructor
                · rintro (h | h)
                  · exact ⟨Or.inr ((hiff r).1 h).1, ((hiff r).1 h).2⟩
                  · subst h; exact ⟨Or.inl rfl, hroot0⟩
                · rintro ⟨h | h, hr⟩
                  · exact Or.inr h
                  · exact Or.inl ((hiff r).2 ⟨h, hr⟩)
            · rw [hout]
              simp only [List.length_append, List.length_singleton]
              rw [hinv.lenOK]
            · simp only
              omega
            · intro q hq
              rw [hout, List.mem_append, List.mem_singleton] at hq
              rcases hq with h | h
              · exact hinv.good q h
              · subst h
                refine ⟨⟨u, by simp, hroot0⟩, ?_, ?_, List.nodup_reverse.2 hnd1⟩
                · rw [List.getLast?_reverse]; exact hw.head
                · rw [List.chain'_reverse]; exact hw.chain
            · exact (hseen_iff u).2 (Or.inl rfl)
            · intro v hv; exact (hseen_iff v).2 (Or.inr hv)
            · exact data_arrayAppend_take p u p.len (le_refl _) hwf
        · rw [if_neg hroot]
          have hl1 : (arrayAppend p u).len = (path ++ [u]).length := by
            rw [len_arrayAppend, hplen]; simp
          rw [hl1]
          have hp1 : (arrayAppend p u).data.take (path ++ [u]).length = path ++ [u] := by
            rw [← hl1]
            have := toList_arrayAppend p u
            rw [hp] at this
            exact this
          have hnotroot : ¬ IsRoot g0 u := by
            intro h
            obtain ⟨d, h1, h2⟩ := IsRoot_congr hinv.same.symm u h
            rw [hd] at h1
            simp only [Option.some.injEq] at h1
            subst h1
            exact hroot h2
          have hloop := forCallers_inv g0 T
            (fun s c => findCallpathsHelper fuel s.callgraph c s.pathSoFar s.callpathsOut)
            (path ++ [u])
            (fun s c h1 h2 h3 h4 => ih s.callgraph c s.pathSoFar s.callpathsOut (path ++ [u])
              h1 h2 h3 h4)
            hnd1 decl.callers.toList
            ⟨updateDecl g u (fun d => { d with seen := 1 }), arrayAppend p u, cp⟩
            ⟨hsame1.trans hinv.same, ?_, ?_, ?_, hinv.lenOK, hinv.cap, hinv.good⟩ ?_ ?_ hp1
          · cases hr : forCallers
                (fun s c => findCallpathsHelper fuel s.callgraph c s.pathSoFar s.callpathsOut)
                (path ++ [u]).length decl.callers.toList
                ⟨updateDecl g u (fun d => { d with seen := 1 }), arrayAppend p u, cp⟩ with
            | ret s =>
              rw [hr] at hloop
              simp only [LoopPost, HelperPost] at hloop ⊢
              obtain ⟨hinv2, hall, hmono, hp2⟩ := hloop
              refine ⟨⟨hinv2.same, ?_, hinv2.reach, hinv2.heads, hinv2.lenOK, hinv2.cap,
                hinv2.good⟩, hmono u ((hseen_iff u).2 (Or.inl rfl)),
                fun v hv => hmono v ((hseen_iff v).2 (Or.inr hv)), ?_⟩
              · intro v hv hvp c hc
                by_cases hvu : v = u
                · subst hvu
                  rw [hcallers] at hc
                  exact hall c hc
                · refine hinv2.closed v hv ?_ c hc
                  simp only [List.mem_append, List.mem_singleton, not_or]
                  exact ⟨hvp, hvu⟩
              · have := congrArg (List.take p.len) hp2
                rw [List.take_take] at this
                simp only [List.length_append, List.length_singleton] at this
                rw [Nat.min_eq_left (by omega)] at this
                rw [this, List.take_left' hplen.symm, ← hp]
                rfl
            | exit code => rw [hr] at hloop; exact hloop
            | fuelOut => trivial
          · intro v hv hvp c hc
            simp only [List.mem_append, List.mem_singleton, not_or] at hvp
            rcases (hseen_iff v).1 hv with h | h
            · exact absurd h hvp.2
            · exact (hseen_iff c).2 (Or.inr (hinv.closed v h hvp.1 c hc))
          · intro v hv
            rcases (hseen_iff v).1 hv with h | h
            · subst h; exact hw.reachU
            · exact hinv.reach v h
          · obtain ⟨hs, hmap, hnd, hiff⟩ := hinv.heads
            refine ⟨hs, hmap, hnd, fun r => ?_⟩
            rw [hseen_iff r]
            constructor
            · intro h; exact ⟨Or.inr ((hiff r).1 h).1, ((hiff r).1 h).2⟩
            · rintro ⟨h | h, hr⟩
              · subst h; exact absurd hr hnotroot
              · exact (hiff r).2 ⟨h, hr⟩
          · intro v hv
            rw [List.mem_append, List.mem_singleton] at hv
            rcases hv with h | h
            · exact (hseen_iff v).2 (Or.inr (hw.pathSeen v h))
            · exact (hseen_iff v).2 (Or.inl h)
          · intro c hc
            refine ⟨List.Chain'.append hw.chain (List.chain'_singleton c) ?_, ?_, ?_⟩
            · intro x hx y hy
              simp only [List.getLast?_append, List.getLast?_singleton, Option.or,
                Option.mem_def, Option.some.injEq, List.head?_cons] at hx hy
              subst hx hy
              rw [hcallers]; exact hc
            · rw [List.head?_append_of_ne_nil _ (by simp)]
              exact hw.head
            · exact Relation.ReflTransGen.tail hw.reachU (by rw [hcallers]; exact hc)
      · rw [if_pos hseen]
        simp only [HelperPost]
        exact ⟨hinv, ⟨decl, hd, hseen⟩, fun v h => h, trivial⟩

/-! ## Path finder: one whole query -/

theorem not_IsSeen_clearSeen (g : List functionDecl_t) (v : String) :
    ¬ IsSeen (clearSeen g) v := by
  rintro ⟨d, hd, hs⟩
  have := HASH_FIND_mem hd
  simp only [clearSeen, List.mem_map] at this
  obtain ⟨e, _, he⟩ := this
  subst he
  exact hs rfl

theorem callersOf_clearSeen (g : List functionDecl_t) :
    callersOf (clearSeen g) = callersOf g :=
  funext (callersOf_congr (map_forgetSeen_clearSeen g))

theorem callsOf_clearSeen (g : List functionDecl_t) :
    callsOf (clearSeen g) = callsOf g :=
  funext (callsOf_congr (map_forgetSeen_clearSeen g))

theorem CallerReach_clearSeen (g : List functionDecl_t) (a b : String) :
    CallerReach (clearSeen g) a b ↔ CallerReach g a b := by
  unfold CallerReach
  rw [callersOf_clearSeen]

theorem IsRoot_clearSeen (g : List functionDecl_t) (k : String) :
    IsRoot (clearSeen g) k ↔ IsRoot g k :=
  ⟨IsRoot_congr (map_forgetSeen_clearSeen g) k, IsRoot_congr (map_forgetSeen_clearSeen g).symm k⟩

theorem HASH_FIND_clearSeen_eq_none (g : List functionDecl_t) (k : String) :
    HASH_FIND (clearSeen g) k = none ↔ HASH_FIND g k = none := by
  have := isSome_congr (map_forgetSeen_clearSeen g) k
  cases h1 : HASH_FIND (clearSeen g) k <;> cases h2 : HASH_FIND g k <;> simp [h1, h2] at this ⊢

theorem ExitSpec_clearSeen (g : List functionDecl_t) (T : String) (code : Nat) :
    ExitSpec (clearSeen g) T code → ExitSpec g T code := by
  rintro (⟨hc, v, hv, hn⟩ | ⟨hc, roots, hnd, hlen, hr⟩)
  · exact Or.inl ⟨hc, v, (CallerReach_clearSeen g T v).1 hv, (HASH_FIND_clearSeen_eq_none g v).1 hn⟩
  · exact Or.inr ⟨hc, roots, hnd, hlen, fun r h =>
      ⟨(CallerReach_clearSeen g T r).1 (hr r h).1, (IsRoot_clearSeen g r).1 (hr r h).2⟩⟩

theorem GoodPath_clearSeen (g : List functionDecl_t) (T : String) (p : List String) :
    GoodPath (clearSeen g) T p → GoodPath g T p := by
  unfold GoodPath
  rw [callersOf_clearSeen]
  rintro ⟨⟨r, h1, h2⟩, h3⟩
  exact ⟨⟨r, h1, (IsRoot_clearSeen g r).1 h2⟩, h3⟩

theorem PathInv_clearSeen (g : List functionDecl_t) (T : String) (g2 : List functionDecl_t)
    (path : List String) (cp : callpaths_t) :
    PathInv (clearSeen g) T g2 path cp → PathInv g T g2 path cp := by
  intro h
  obtain ⟨hs, h1, h2, h3⟩ := h.heads
  refine ⟨h.same.trans (map_forgetSeen_clearSeen g), ?_, ?_, ⟨hs, h1, h2, ?_⟩, h.lenOK, h.cap, ?_⟩
  · have := h.closed
    rw [callersOf_clearSeen] at this
    exact this
  · intro v hv; exact (CallerReach_clearSeen g T v).1 (h.reach v hv)
  · intro r; rw [h3 r, IsRoot_clearSeen]
  · intro p hp; exact GoodPath_clearSeen g T p (h.good p hp)

/-- Once a query has returned, every symbol reachable from the target is
marked: the marked set contains the target and is closed under callers. -/
theorem seen_of_reach (g0 : List functionDecl_t) (T : String) (g : List functionDecl_t)
    (cp : callpaths_t) (hinv : PathInv g0 T g [] cp) (hT : IsSeen g T) :
    ∀ v, CallerReach g0 T v → IsSeen g v := by
  intro v hv
  induction hv with
  | refl => exact hT
  | tail _ hbc ih => exact hinv.closed _ ih (by simp) _ hbc

theorem findCallPaths_post (g : List functionDecl_t) (T : String) (cp0 : callpaths_t) :
    QueryPost g T (findCallPaths g T cp0) := by
  have hfuel := findCallpathsHelper_fuel (g.length + 1) (clearSeen g) T initDynArray
    { cp0 with len := 0 }
    (by have := unseenCount_le_length (clearSeen g); rw [length_clearSeen] at this; omega)
  have hinv0 : PathInv (clearSeen g) T (clearSeen g) [] { cp0 with len := 0 } := by
    refine ⟨rfl, ?_, ?_, ⟨[], ?_, List.nodup_nil, ?_⟩, ?_, ?_, ?_⟩
    · intro v hv; exact absurd hv (not_IsSeen_clearSeen g v)
    · intro v hv; exact absurd hv (not_IsSeen_clearSeen g v)
    · simp [callpaths_t.toList]
    · intro r
      simp only [List.not_mem_nil, false_iff, not_and]
      intro hv; exact absurd hv (not_IsSeen_clearSeen g r)
    · simp [callpaths_t.toList]
    · simp
    · simp [callpaths_t.toList]
  have hw0 : WalkPre (clearSeen g) T (clearSeen g) [] T :=
    ⟨by simp, by simp, by simp, List.nodup_nil, Relation.ReflTransGen.refl⟩
  have hpost := findCallpathsHelper_inv (clearSeen g) T (g.length + 1) (clearSeen g) T
    initDynArray { cp0 with len := 0 } [] hinv0 hw0 rfl (by simp [initDynArray])
  unfold findCallPaths
  cases hr : findCallpathsHelper (g.length + 1) (clearSeen g) T initDynArray
      { cp0 with len := 0 } with
  | ret s =>
    rw [hr] at hpost
    simp only [HelperPost, QueryPost] at hpost ⊢
    obtain ⟨hinv, hseenT, _, _⟩ := hpost
    refine ⟨PathInv_clearSeen g T _ _ _ hinv, fun v hv => ?_⟩
    exact seen_of_reach (clearSeen g) T _ _ hinv hseenT v ((CallerReach_clearSeen g T v).2 hv)
  | exit code =>
    rw [hr] at hpost
    exact ExitSpec_clearSeen g T code hpost
  | fuelOut => exact absurd hr hfuel

/-! ## Path finder: consequences for a whole query -/

theorem reach_present (g : List functionDecl_t) (T : String) (hclosed : Closed g)
    (hT : (HASH_FIND g T).isSome) : ∀ v, CallerReach g T v → (HASH_FIND g v).isSome := by
  intro v hv
  induction hv with
  | refl => exact hT
  | @tail b c _ hbc ih =>
    unfold callersOf at hbc
    cases hb : HASH_FIND g b with
    | none => rw [hb] at hbc; simp at hbc
    | some d =>
      rw [hb] at hbc
      exact (hclosed d (HASH_FIND_mem hb)).2 c hbc

theorem roots_length_le (g : List functionDecl_t) (l : List String) (hnd : l.Nodup)
    (hl : ∀ r ∈ l, (HASH_FIND g r).isSome) : l.length ≤ g.length := by
  have hsub : l ⊆ g.map functionDecl_t.usr := by
    intro r hr
    obtain ⟨d, hd, hu⟩ := (HASH_FIND_isSome_iff g r).1 (hl r hr)
    exact List.mem_map.2 ⟨d, hd, hu⟩
  have := (hnd.subperm hsub).length_le
  simpa using this

theorem IsRoot_isSome {g : List functionDecl_t} {r : String} (h : IsRoot g r) :
    (HASH_FIND g r).isSome := by
  obtain ⟨d, hd, _⟩ := h
  simp [hd]

theorem IsSeen_isSome {g : List functionDecl_t} {r : String} (h : IsSeen g r) :
    (HASH_FIND g r).isSome := by
  obtain ⟨d, hd, _⟩ := h
  simp [hd]

/-- The heads of the returned paths enumerate, without repetition, the roots
reachable from the target. -/
theorem findCallPaths_ret_heads (g : List functionDecl_t) (T : String) (cp0 : callpaths_t)
    (s : PathState) (h : findCallPaths g T cp0 = .ret s) :
    ∃ roots : List String, s.callpathsOut.toList.map List.head? = roots.map some ∧
      roots.Nodup ∧ roots.length ≤ MAX_CALLPATH ∧
      ∀ r, r ∈ roots ↔ CallerReach g T r ∧ IsRoot g r := by
  have hpost := findCallPaths_post g T cp0
  rw [h] at hpost
  obtain ⟨hinv, hall⟩ := hpost
  obtain ⟨hs, h1, h2, h3⟩ := hinv.heads
  refine ⟨hs, h1, h2, ?_, fun r => ?_⟩
  · have := congrArg List.length h1
    simp only [List.length_map] at this
    rw [← this, hinv.lenOK]
    exact hinv.cap
  · rw [h3 r]
    exact ⟨fun ⟨a, b⟩ => ⟨hinv.reach r a, b⟩, fun ⟨a, b⟩ => ⟨hall r a, b⟩⟩

theorem findCallPaths_ret_good (g : List functionDecl_t) (T : String) (cp0 : callpaths_t)
    (s : PathState) (h : findCallPaths g T cp0 = .ret s) :
    ∀ p ∈ s.callpathsOut.toList, GoodPath g T p := by
  have hpost := findCallPaths_post g T cp0
  rw [h] at hpost
  exact hpost.1.good

theorem findCallPaths_ret_present (g : List functionDecl_t) (T : String) (cp0 : callpaths_t)
    (s : PathState) (h : findCallPaths g T cp0 = .ret s) :
    ∀ v, CallerReach g T v → (HASH_FIND g v).isSome := by
  have hpost := findCallPaths_post g T cp0
  rw [h] at hpost
  intro v hv
  rw [← isSome_congr hpost.1.same v]
  exact IsSeen_isSome (hpost.2 v hv)

theorem findCallPaths_exit (g : List functionDecl_t) (T : String) (cp0 : callpaths_t)
    (code : Nat) (h : findCallPaths g T cp0 = .exit code) : ExitSpec g T code := by
  have hpost := findCallPaths_post g T cp0
  rw [h] at hpost
  exact hpost

theorem findCallPaths_ne_fuelOut (g : List functionDecl_t) (T : String) (cp0 : callpaths_t) :
    findCallPaths g T cp0 ≠ .fuelOut := by
  intro h
  have hpost := findCallPaths_post g T cp0
  rw [h] at hpost
  exact hpost

/-- Exit code 100 of the path finder, on runs that do not stop on the cap. -/
theorem findCallPaths_exit100_iff (g : List functionDecl_t) (T : String) (cp0 : callpaths_t)
    (hcap : findCallPaths g T cp0 ≠ .exit 1) :
    findCallPaths g T cp0 = .exit 100 ↔ ∃ v, CallerReach g T v ∧ HASH_FIND g v = none := by
  constructor
  · intro h
    rcases findCallPaths_exit g T cp0 100 h with ⟨_, v, hv, hn⟩ | ⟨h1, _⟩
    · exact ⟨v, hv, hn⟩
    · simp at h1
  · rintro ⟨v, hv, hn⟩
    cases hr : findCallPaths g T cp0 with
    | ret s =>
      have := findCallPaths_ret_present g T cp0 s hr v hv
      rw [hn] at this
      simp at this
    | exit code =>
      rcases findCallPaths_exit g T cp0 code hr with ⟨h1, _⟩ | ⟨h1, _⟩
      · rw [h1]
      · subst h1; exact absurd hr hcap
    | fuelOut => exact absurd hr (findCallPaths_ne_fuelOut g T cp0)

theorem findCallPaths_closed_ne_exit100 (g : List functionDecl_t) (T : String)
    (cp0 : callpaths_t) (hclosed : Closed g) (hT : (HASH_FIND g T).isSome) :
    findCallPaths g T cp0 ≠ .exit 100 := by
  intro h
  rcases findCallPaths_exit g T cp0 100 h with ⟨_, v, hv, hn⟩ | ⟨h1, _⟩
  · have := reach_present g T hclosed hT v hv
    rw [hn] at this
    simp at this
  · simp at h1

/-- Exit code 1 of the path finder on a closed store. -/
theorem findCallPaths_exit1_iff (g : List functionDecl_t) (T : String) (cp0 : callpaths_t)
    (hclosed : Closed g) (hT : (HASH_FIND g T).isSome) :
    findCallPaths g T cp0 = .exit 1 ↔
      ∃ roots : List String, roots.Nodup ∧ MAX_CALLPATH < roots.length ∧
        ∀ r ∈ roots, CallerReach g T r ∧ IsRoot g r := by
  constructor
  · intro h
    rcases findCallPaths_exit g T cp0 1 h with ⟨h1, _⟩ | ⟨_, h2⟩
    · simp at h1
    · exact h2
  · rintro ⟨roots, hnd, hlen, hr⟩
    cases hres : findCallPaths g T cp0 with
    | ret s =>
      obtain ⟨hs, _, _, h3, h4⟩ := findCallPaths_ret_heads g T cp0 s hres
      have hsub : roots ⊆ hs := fun r h => (h4 r).2 (hr r h)
      have := (hnd.subperm hsub).length_le
      omega
    | exit code =>
      rcases findCallPaths_exit g T cp0 code hres with ⟨h1, _⟩ | ⟨h1, _⟩
      · subst h1; exact absurd hres (findCallPaths_closed_ne_exit100 g T cp0 hclosed hT)
      · rw [h1]
    | fuelOut => exact absurd hres (findCallPaths_ne_fuelOut g T cp0)

/-- With exactly `MAX_CALLPATH` reachable roots a query on a closed store
returns that many paths. -/
theorem findCallPaths_at_cap (g : List functionDecl_t) (T : String) (cp0 : callpaths_t)
    (hclosed : Closed g) (hT : (HASH_FIND g T).isSome) (roots : List String)
    (hnd : roots.Nodup) (hiff : ∀ r, r ∈ roots ↔ CallerReach g T r ∧ IsRoot g r)
    (hlen : roots.length = MAX_CALLPATH) :
    ∃ s, findCallPaths g T cp0 = .ret s ∧ s.callpathsOut.toList.length = MAX_CALLPATH := by
  cases hres : findCallPaths g T cp0 with
  | ret s =>
    refine ⟨s, rfl, ?_⟩
    obtain ⟨hs, h1, h2, _, h4⟩ := findCallPaths_ret_heads g T cp0 s hres
    have hperm : hs.Perm roots :=
      (List.perm_ext_iff_of_nodup h2 hnd).2 (fun a => (h4 a).trans (hiff a).symm)
    have := congrArg List.length h1
    simp only [List.length_map] at this
    rw [this, hperm.length_eq, hlen]
  | exit code =>
    rcases findCallPaths_exit g T cp0 code hres with ⟨h1, _⟩ | ⟨_, roots2, hnd2, hlen2, hr2⟩
    · subst h1; exact absurd hres (findCallPaths_closed_ne_exit100 g T cp0 hclosed hT)
    · have hsub : roots2 ⊆ roots := fun r h => (hiff r).2 (hr2 r h)
      have := (hnd2.subperm hsub).length_le
      omega
  | fuelOut => exact absurd hres (findCallPaths_ne_fuelOut g T cp0)


/-! ## Claims on the path finder -/

/-- Claim C1: on a store satisfying the closure invariant, for a target that is
a key, and when no duplicate-free list of roots reachable from the target has
more than 300 entries, `findCallPaths` returns, and the first elements of the
returned paths are pairwise distinct and are exactly the entities with an empty
callers list that are reachable from the target along callers edges (every path
is non-empty: its head is `some` root). -/
theorem C1_findCallPaths_one_path_per_root (g : List functionDecl_t) (T : String)
    (cp0 : callpaths_t) (hclosed : Closed g) (hT : (HASH_FIND g T).isSome)
    (hcap : ∀ l : List String, l.Nodup → (∀ r ∈ l, CallerReach g T r ∧ IsRoot g r) →
      l.length ≤ MAX_CALLPATH) :
    ∃ s, findCallPaths g T cp0 = .ret s ∧
      ∃ roots : List String, s.callpathsOut.toList.map List.head? = roots.map some ∧
        roots.Nodup ∧ ∀ r, r ∈ roots ↔ CallerReach g T r ∧ IsRoot g r := by
  cases hres : findCallPaths g T cp0 with
  | ret s =>
    obtain ⟨roots, h1, h2, _, h4⟩ := findCallPaths_ret_heads g T cp0 s hres
    exact ⟨s, rfl, roots, h1, h2, h4⟩
  | exit code =>
    rcases findCallPaths_exit g T cp0 code hres with ⟨h1, _⟩ | ⟨_, roots, hnd, hlen, hr⟩
    · subst h1; exact absurd hres (findCallPaths_closed_ne_exit100 g T cp0 hclosed hT)
    · have := hcap roots hnd hr
      omega
  | fuelOut => exact absurd hres (findCallPaths_ne_fuelOut g T cp0)

theorem C1_findCallPaths_one_path_per_root_witness :
    Closed diamondStore ∧ (HASH_FIND diamondStore "A").isSome = true ∧
      ∃ s, findCallPaths diamondStore "A" ⟨0, []⟩ = .ret s ∧
        ∃ roots : List String, s.callpathsOut.toList.map List.head? = roots.map some ∧
          roots.Nodup ∧ ∀ r, r ∈ roots ↔ CallerReach diamondStore "A" r ∧ IsRoot diamondStore r :=
  ⟨by decide, by decide,
    C1_findCallPaths_one_path_per_root diamondStore "A" ⟨0, []⟩ (by decide) (by decide)
      (fun l hnd hl =>
        le_trans (roots_length_le diamondStore l hnd (fun r hr => IsRoot_isSome (hl r hr).2))
          (by decide))⟩

/-- Claim C2: every path returned by `findCallPaths` is a genuine root-first
call chain ending at the target: it is non-empty, its first element has an
empty callers list, its last element is the target, every element is a caller
of the next one, and no symbol occurs twice.  Neither closure nor the length
of the path matters. -/
theorem C2_findCallPaths_paths_genuine (g : List functionDecl_t) (T : String)
    (cp0 : callpaths_t) (p : List String)
    (hp : p ∈ returnedPaths (findCallPaths g T cp0)) :
    p ≠ [] ∧ (∃ r, p.head? = some r ∧ IsRoot g r) ∧ p.getLast? = some T ∧
      (∀ i (hi : i + 1 < p.length), p[i] ∈ callersOf g p[i + 1]) ∧ p.Nodup := by
  cases hres : findCallPaths g T cp0 with
  | ret s =>
    rw [hres] at hp
    obtain ⟨⟨r, h1, h2⟩, h3, h4, h5⟩ := findCallPaths_ret_good g T cp0 s hres p hp
    refine ⟨?_, ⟨r, h1, h2⟩, h3, ?_, h5⟩
    · intro h; rw [h] at h1; simp at h1
    · intro i hi
      exact (List.chain'_iff_get.1 h4) i (by omega)
  | exit code => rw [hres] at hp; simp [returnedPaths] at hp
  | fuelOut => rw [hres] at hp; simp [returnedPaths] at hp

theorem C2_findCallPaths_paths_genuine_witness :
    chainNames 32 ∈ returnedPaths (findCallPaths (longChainStore 31) "f31" ⟨0, []⟩) ∧
      BUILTIN_STORAGE_SIZE < (chainNames 32).length ∧
      (chainNames 32 ≠ [] ∧ (∃ r, (chainNames 32).head? = some r ∧ IsRoot (longChainStore 31) r) ∧
        (chainNames 32).getLast? = some "f31" ∧
        (∀ i (hi : i + 1 < (chainNames 32).length),
          (chainNames 32)[i] ∈ callersOf (longChainStore 31) (chainNames 32)[i + 1]) ∧
        (chainNames 32).Nodup) :=
  ⟨by decide, by decide,
    C2_findCallPaths_paths_genuine (longChainStore 31) "f31" ⟨0, []⟩ (chainNames 32) (by decide)⟩

/-! ## Path finder: the recursion budget does not matter -/

theorem forCallers_congr (call call2 : PathState → String → Outcome PathState) (pre : Nat)
    (h : ∀ s c, call s c ≠ .fuelOut → call2 s c = call s c) :
    ∀ cs s, forCallers call pre cs s ≠ .fuelOut →
      forCallers call2 pre cs s = forCallers call pre cs s := by
  intro cs
  induction cs with
  | nil => intro s _; rfl
  | cons c rest ih =>
    intro s hne
    unfold forCallers at hne ⊢
    cases hr : call { s with pathSoFar := { s.pathSoFar with len := pre } } c with
    | ret s1 =>
      rw [hr] at hne
      rw [h _ _ (by rw [hr]; simp), hr]
      exact ih s1 hne
    | exit code => rw [h _ _ (by rw [hr]; simp), hr]
    | fuelOut => rw [hr] at hne; simp at hne

theorem findCallpathsHelper_fuel_succ : ∀ (fuel : Nat) (g : List functionDecl_t) (u : String)
    (p : dynArray) (cp : callpaths_t), findCallpathsHelper fuel g u p cp ≠ .fuelOut →
    findCallpathsHelper (fuel + 1) g u p cp = findCallpathsHelper fuel g u p cp := by
  intro fuel
  induction fuel with
  | zero => intro g u p cp h; simp [findCallpathsHelper] at h
  | succ fuel ih =>
    intro g u p cp hne
    rw [findCallpathsHelper] at hne ⊢
    rw [findCallpathsHelper]
    cases hd : HASH_FIND g u with
    | none => rfl
    | some decl =>
      rw [hd] at hne
      simp only at hne ⊢
      split
      · rfl
      · rename_i hseen
        rw [if_neg hseen] at hne
        split
        · rfl
        · rename_i hroot
          rw [if_neg hroot] at hne
          exact forCallers_congr _ _ _
            (fun s c hc => ih s.callgraph c s.pathSoFar s.callpathsOut hc) _ _ hne

theorem findCallpathsHelper_fuel_le (fuel fuel2 : Nat) (hle : fuel ≤ fuel2)
    (g : List functionDecl_t) (u : String) (p : dynArray) (cp : callpaths_t)
    (hne : findCallpathsHelper fuel g u p cp ≠ .fuelOut) :
    findCallpathsHelper fuel2 g u p cp = findCallpathsHelper fuel g u p cp := by
  induction fuel2 with
  | zero =>
    have : fuel = 0 := by omega
    subst this; rfl
  | succ n ih =>
    rcases Nat.lt_or_ge n fuel with h | h
    · have : fuel = n + 1 := by omega
      subst this; rfl
    · have h1 := ih h
      rw [findCallpathsHelper_fuel_succ n g u p cp (by rw [h1]; exact hne), h1]

/-- A call on an entity whose marker is set returns at once and changes
nothing. -/
theorem findCallpathsHelper_of_seen (fuel : Nat) (g : List functionDecl_t) (u : String)
    (p : dynArray) (cp : callpaths_t) (h : IsSeen g u) :
    findCallpathsHelper (fuel + 1) g u p cp = .ret ⟨g, p, cp⟩ := by
  obtain ⟨d, hd, hs⟩ := h
  rw [findCallpathsHelper, hd]
  simp only
  rw [if_pos hs]

/-- A call that returns leaves the marker of its entity set. -/
theorem findCallpathsHelper_marks (fuel : Nat) (g : List functionDecl_t) (u : String)
    (p : dynArray) (cp : callpaths_t) (s : PathState)
    (h : findCallpathsHelper fuel g u p cp = .ret s) : IsSeen s.callgraph u := by
  cases fuel with
  | zero => simp [findCallpathsHelper] at h
  | succ fuel =>
    rw [findCallpathsHelper] at h
    cases hd : HASH_FIND g u with
    | none => rw [hd] at h; simp at h
    | some decl =>
      rw [hd] at h
      simp only at h
      have hseen_iff := fun v => IsSeen_mark g u v decl hd
      by_cases hseen : decl.seen = 0
      · rw [if_neg (by simpa using hseen)] at h
        by_cases hroot : decl.callers.len = 0
        · rw [if_pos hroot] at h
          split at h
          · simp at h
          · simp only [Outcome.ret.injEq] at h
            subst h
            exact (hseen_iff u).2 (Or.inl rfl)
        · rw [if_neg hroot] at h
          have := forCallers_frame
            (fun s c => findCallpathsHelper fuel s.callgraph c s.pathSoFar s.callpathsOut)
            (arrayAppend p u).len
            (fun s c => findCallpathsHelper_frame fuel s.callgraph c s.pathSoFar s.callpathsOut)
            decl.callers.toList _ s h
          exact this.2.2 u ((hseen_iff u).2 (Or.inl rfl))
      · rw [if_pos hseen] at h
        simp only [Outcome.ret.injEq] at h
        subst h
        exact ⟨decl, hd, hseen⟩

/-! ## Path finder on a chain -/

theorem chain_pred {R : String → String → Prop} :
    ∀ l : List String, List.Chain' R l → ∀ v ∈ l, l.head? = some v ∨ ∃ a ∈ l, R a v := by
  intro l
  induction l with
  | nil => intro _ v hv; simp at hv
  | cons x rest ih =>
    intro hc v hv
    rcases List.mem_cons.1 hv with h | h
    · left; simp [h]
    · right
      cases rest with
      | nil => simp at h
      | cons y rest2 =>
        rw [List.chain'_cons] at hc
        rcases ih hc.2 v h with h2 | ⟨a, ha, hr⟩
        · simp only [List.head?_cons, Option.some.injEq] at h2
          subst h2
          exact ⟨x, List.mem_cons_self _ _, hc.1⟩
        · exact ⟨a, List.mem_cons_of_mem _ ha, hr⟩

theorem chain_reach (g : List functionDecl_t) :
    ∀ (l : List String) (x y : String), List.Chain' (fun a b => callersOf g b = [a]) l →
      l.head? = some x → l.getLast? = some y → CallerReach g y x := by
  intro l
  induction l with
  | nil => intro x y _ h; simp at h
  | cons a rest ih =>
    intro x y hc hx hy
    simp only [List.head?_cons, Option.some.injEq] at hx
    subst hx
    cases rest with
    | nil =>
      simp only [List.getLast?_singleton, Option.some.injEq] at hy
      subst hy
      exact Relation.ReflTransGen.refl
    | cons b rest2 =>
      rw [List.chain'_cons] at hc
      rw [List.getLast?_cons_cons] at hy
      have := ih b y hc.2 (by simp) hy
      exact Relation.ReflTransGen.tail this (by rw [hc.1]; simp)

theorem IsRoot_callersOf {g : List functionDecl_t} {r : String} (h : IsRoot g r) :
    callersOf g r = [] := by
  obtain ⟨d, hd, hl⟩ := h
  simp [callersOf, hd, dynArray.toList, hl]

theorem chain_unique (g : List functionDecl_t) (z : String) (hz : callersOf g z = []) :
    ∀ (l1 l2 : List String) (a : String),
      List.Chain' (fun x y => y ∈ callersOf g x) (a :: l1) →
      List.Chain' (fun x y => callersOf g x = [y]) (a :: l2) →
      (a :: l1).getLast? = some z → (a :: l2).getLast? = some z → l1 = l2 := by
  intro l1
  induction l1 with
  | nil =>
    intro l2 a _ h2 hz1 _
    simp only [List.getLast?_singleton, Option.some.injEq] at hz1
    subst hz1
    cases l2 with
    | nil => rfl
    | cons b l2 =>
      rw [List.chain'_cons] at h2
      rw [hz] at h2
      simp at h2
  | cons b l1 ih =>
    intro l2 a h1 h2 hz1 hz2
    rw [List.chain'_cons] at h1
    cases l2 with
    | nil =>
      simp only [List.getLast?_singleton, Option.some.injEq] at hz2
      subst hz2
      rw [hz] at h1
      simp at h1
    | cons b2 l2 =>
      rw [List.chain'_cons] at h2
      have hb : b = b2 := by
        have := h1.1
        rw [h2.1] at this
        simpa using this
      subst hb
      rw [List.getLast?_cons_cons] at hz1 hz2
      rw [ih l2 b h1.2 h2.2 hz1 hz2]

theorem eq_singleton_of_nodup {l : List String} {a : String} (hnd : l.Nodup)
    (h : ∀ r, r ∈ l ↔ r = a) : l = [a] := by
  cases l with
  | nil => have := (h a).2 rfl; simp at this
  | cons x rest =>
    have hx : x = a := (h x).1 (List.mem_cons_self _ _)
    subst hx
    cases rest with
    | nil => rfl
    | cons y rest2 =>
      have hy : y = x := (h y).1 (by simp)
      subst hy
      simp at hnd

/-- On a chain `fs = [f0, ..., fn]` whose head is a root and in which every
other element has its predecessor as only caller, the query for `fn` returns
the single path `fs`. -/
theorem findCallPaths_chain (g : List functionDecl_t) (fs : List String) (f0 fn : String)
    (cp0 : callpaths_t) (hroot : IsRoot g f0) (hhead : fs.head? = some f0)
    (hlast : fs.getLast? = some fn)
    (hchain : List.Chain' (fun a b => callersOf g b = [a]) fs) :
    ∃ s, findCallPaths g fn cp0 = .ret s ∧ s.callpathsOut.toList = [fs] := by
  have hfn : fn ∈ fs := List.mem_of_getLast?_eq_some hlast
  have hpred := chain_pred fs hchain
  have hin : ∀ v, CallerReach g fn v → v ∈ fs := by
    intro v hv
    induction hv with
    | refl => exact hfn
    | @tail b c _ hbc ih =>
      rcases hpred b ih with h | ⟨a, ha, hr⟩
      · rw [hhead] at h
        simp only [Option.some.injEq] at h
        subst h
        rw [IsRoot_callersOf hroot] at hbc
        simp at hbc
      · rw [hr] at hbc
        simp only [List.mem_singleton] at hbc
        subst hbc
        exact ha
  have hpresent : ∀ v ∈ fs, (HASH_FIND g v).isSome := by
    intro v hv
    rcases hpred v hv with h | ⟨a, _, hr⟩
    · rw [hhead] at h
      simp only [Option.some.injEq] at h
      subst h
      exact IsRoot_isSome hroot
    · unfold callersOf at hr
      cases hd : HASH_FIND g v with
      | none => rw [hd] at hr; simp at hr
      | some d => simp
  have honly : ∀ r, CallerReach g fn r ∧ IsRoot g r ↔ r = f0 := by
    intro r
    constructor
    · rintro ⟨h1, h2⟩
      rcases hpred r (hin r h1) with h | ⟨a, _, hr⟩
      · rw [hhead] at h
        simpa using h.symm
      · rw [IsRoot_callersOf h2] at hr
        simp at hr
    · intro h
      subst h
      exact ⟨chain_reach g fs r fn hchain hhead hlast, hroot⟩
  cases hres : findCallPaths g fn cp0 with
  | ret s =>
    refine ⟨s, rfl, ?_⟩
    obtain ⟨roots, h1, h2, _, h4⟩ := findCallPaths_ret_heads g fn cp0 s hres
    have hroots : roots = [f0] :=
      eq_singleton_of_nodup h2 (fun r => (h4 r).trans (honly r))
    subst hroots
    have hgood := findCallPaths_ret_good g fn cp0 s hres
    cases hout : s.callpathsOut.toList with
    | nil => rw [hout] at h1; simp at h1
    | cons p rest =>
      rw [hout] at h1 hgood
      simp only [List.map_cons, List.map_nil, List.cons.injEq, List.map_eq_nil_iff] at h1
      rw [h1.2]
      obtain ⟨_, hl, hc, _⟩ := hgood p (List.mem_cons_self _ _)
      have hrev : p.reverse = fs.reverse := by
        have hc1 : List.Chain' (fun x y => y ∈ callersOf g x) p.reverse :=
          List.chain'_reverse.2 hc
        have hc2 : List.Chain' (fun x y => callersOf g x = [y]) fs.reverse :=
          List.chain'_reverse.2 hchain
        have hp1 : p.reverse.head? = some fn := by rw [List.head?_reverse]; exact hl
        have hp2 : fs.reverse.head? = some fn := by rw [List.head?_reverse]; exact hlast
        have hq1 : p.reverse.getLast? = some f0 := by rw [List.getLast?_reverse]; exact h1.1
        have hq2 : fs.reverse.getLast? = some f0 := by rw [List.getLast?_reverse]; exact hhead
        cases hpr : p.reverse with
        | nil => rw [hpr] at hp1; simp at hp1
        | cons a l1 =>
          cases hfr : fs.reverse with
          | nil => rw [hfr] at hp2; simp at hp2
          | cons a2 l2 =>
            rw [hpr] at hc1 hp1 hq1
            rw [hfr] at hc2 hp2 hq2
            simp only [List.head?_cons, Option.some.injEq] at hp1 hp2
            subst hp1 hp2
            rw [chain_unique g f0 (IsRoot_callersOf hroot) l1 l2 _ hc1 hc2 hq1 hq2]
      have := congrArg List.reverse hrev
      simpa using this
  | exit code =>
    rcases findCallPaths_exit g fn cp0 code hres with ⟨_, v, hv, hn⟩ | ⟨_, roots, hnd, hlen, hr⟩
    · have := hpresent v (hin v hv)
      rw [hn] at this
      simp at this
    · have hsub : roots ⊆ [f0] := by
        intro r h
        simp only [List.mem_singleton]
        exact (honly r).1 (hr r h)
      have := (hnd.subperm hsub).length_le
      simp only [List.length_singleton, MAX_CALLPATH] at this hlen
      omega
  | fuelOut => exact absurd hres (findCallPaths_ne_fuelOut g fn cp0)

/-- Claim C3 (tree case): on every chain `fs = [f0, ..., fn]` in which `f0` has
no callers and every other element has its predecessor as only caller, the
query for `f0` returns exactly the one path `[f0]` and the query for `fn`
returns exactly the one path `[f0, ..., fn]`. -/
theorem C3_findCallPaths_chain (g : List functionDecl_t) (fs : List String) (f0 fn : String)
    (cp0 : callpaths_t) (hroot : IsRoot g f0) (hhead : fs.head? = some f0)
    (hlast : fs.getLast? = some fn)
    (hchain : List.Chain' (fun a b => callersOf g b = [a]) fs) :
    (∃ s, findCallPaths g f0 cp0 = .ret s ∧ s.callpathsOut.toList = [[f0]]) ∧
      (∃ s, findCallPaths g fn cp0 = .ret s ∧ s.callpathsOut.toList = [fs]) :=
  ⟨findCallPaths_chain g [f0] f0 f0 cp0 hroot rfl rfl (List.chain'_singleton f0),
    findCallPaths_chain g fs f0 fn cp0 hroot hhead hlast hchain⟩

theorem C3_findCallPaths_chain_witness :
    (IsRoot chainStore "main" ∧ ["main", "foo", "bar"].head? = some "main" ∧
      ["main", "foo", "bar"].getLast? = some "bar" ∧
      List.Chain' (fun a b => callersOf chainStore b = [a]) ["main", "foo", "bar"]) ∧
    ((∃ s, findCallPaths chainStore "main" ⟨0, []⟩ = .ret s ∧
        s.callpathsOut.toList = [["main"]]) ∧
      (∃ s, findCallPaths chainStore "bar" ⟨0, []⟩ = .ret s ∧
        s.callpathsOut.toList = [["main", "foo", "bar"]])) :=
  ⟨⟨⟨_, rfl, rfl⟩, rfl, rfl,
      List.chain'_cons.2 ⟨by decide, List.chain'_cons.2 ⟨by decide, List.chain'_singleton _⟩⟩⟩,
    C3_findCallPaths_chain chainStore ["main", "foo", "bar"] "main" "bar" ⟨0, []⟩
      ⟨_, rfl, rfl⟩ rfl rfl
      (List.chain'_cons.2 ⟨by decide, List.chain'_cons.2 ⟨by decide, List.chain'_singleton _⟩⟩)⟩

/-- The spec's instance of the tree case, evaluated: with `A` the root, `B`
called by `A` only and `C` called by `B` only, the query for `A` yields `[A]`
and the query for `C` yields `[A, B, C]`. -/
theorem findCallPaths_abc :
    queryResult (findCallPaths abcStore "A" ⟨0, []⟩) = .ret [["A"]] ∧
      queryResult (findCallPaths abcStore "C" ⟨0, []⟩) = .ret [["A", "B", "C"]] := by
  decide

/-- The diamond evaluated on two tables built by `addCallSite`: `B` and `C`
call `A`, `D` calls `B` and `C`, and `D` is the only entity without callers.
The query for `A` returns `[[D, B, A]]` when the callers list of `A` is
`[B, C]` and `[[D, C, A]]` when it is `[C, B]`. -/
theorem findCallPaths_diamond_tables :
    (callersOf diamondStore "A" = ["B", "C"] ∧ callersOf diamondStore "B" = ["D"] ∧
      callersOf diamondStore "C" = ["D"] ∧
      (diamondStore.filter (fun d => d.callers.len == 0)).map functionDecl_t.usr = ["D"] ∧
      queryResult (findCallPaths diamondStore "A" ⟨0, []⟩) = .ret [["D", "B", "A"]]) ∧
    (callersOf diamondStoreCB "A" = ["C", "B"] ∧ callersOf diamondStoreCB "B" = ["D"] ∧
      callersOf diamondStoreCB "C" = ["D"] ∧
      (diamondStoreCB.filter (fun d => d.callers.len == 0)).map functionDecl_t.usr = ["D"] ∧
      queryResult (findCallPaths diamondStoreCB "A" ⟨0, []⟩) = .ret [["D", "C", "A"]]) := by
  decide

/-! ## Every entity is entered at most once -/

theorem forCallersLog_erase (callLog : LoggedState → String → Outcome LoggedState)
    (call : PathState → String → Outcome PathState) (pre : Nat)
    (h : ∀ s c, (callLog s c).map LoggedState.state = call s.state c) :
    ∀ cs s, (forCallersLog callLog pre cs s).map LoggedState.state =
      forCallers call pre cs s.state := by
  intro cs
  induction cs with
  | nil => intro s; rfl
  | cons c rest ih =>
    intro s
    unfold forCallersLog forCallers
    have hc := h { s with state := { s.state with
      pathSoFar := { s.state.pathSoFar with len := pre } } } c
    simp only at hc
    rw [← hc]
    cases callLog { s with state := { s.state with
      pathSoFar := { s.state.pathSoFar with len := pre } } } c with
    | ret s1 => simp only [Outcome.map]; exact ih s1
    | exit code => rfl
    | fuelOut => rfl

/-- Dropping the log from the logged helper gives the helper. -/
theorem findCallpathsHelperLog_erase : ∀ (fuel : Nat) (g : List functionDecl_t) (u : String)
    (p : dynArray) (cp : callpaths_t) (entered : List String),
    (findCallpathsHelperLog fuel g u p cp entered).map LoggedState.state =
      findCallpathsHelper fuel g u p cp := by
  intro fuel
  induction fuel with
  | zero => intro g u p cp entered; rfl
  | succ fuel ih =>
    intro g u p cp entered
    unfold findCallpathsHelperLog findCallpathsHelper
    cases HASH_FIND g u with
    | none => rfl
    | some decl =>
      simp only
      split
      · rfl
      · split
        · split <;> rfl
        · exact forCallersLog_erase _ _ _
            (fun s c => ih s.state.callgraph c s.state.pathSoFar s.state.callpathsOut s.entered)
            _ _

theorem Outcome.map_eq_ret {α β : Type} {f : α → β} {r : Outcome α} {a : α}
    (h : r = .ret a) : r.map f = .ret (f a) := by
  subst h; rfl

theorem forCallersLog_log (callLog : LoggedState → String → Outcome LoggedState)
    (call : PathState → String → Outcome PathState) (pre : Nat)
    (herase : ∀ s c, (callLog s c).map LoggedState.state = call s.state c)
    (hframe : ∀ s c, FrameOK s.callgraph (call s c))
    (hlog : ∀ s c, LogOK s.state.callgraph s.entered (callLog s c)) :
    ∀ cs s, LogOK s.state.callgraph s.entered (forCallersLog callLog pre cs s) := by
  intro cs
  induction cs with
  | nil =>
    intro s s' h
    simp only [forCallersLog, Outcome.ret.injEq] at h
    subst h
    exact ⟨[], by simp, List.nodup_nil, by simp⟩
  | cons c rest ih =>
    intro s s' h
    unfold forCallersLog at h
    cases hr : callLog { s with state := { s.state with
        pathSoFar := { s.state.pathSoFar with len := pre } } } c with
    | ret s1 =>
      rw [hr] at h
      simp only at h
      obtain ⟨new1, hn1, hnd1, hx1⟩ := hlog _ c s1 hr
      obtain ⟨new2, hn2, hnd2, hx2⟩ := ih s1 s' h
      have hmono : ∀ v, IsSeen s1.state.callgraph v → IsSeen s'.state.callgraph v := by
        have he := forCallersLog_erase callLog call pre herase rest s1
        rw [Outcome.map_eq_ret h] at he
        exact (forCallers_frame call pre hframe rest s1.state _ he.symm).2.2
      refine ⟨new1 ++ new2, ?_, ?_, ?_⟩
      · rw [hn2, hn1]
        simp
      · rw [List.nodup_append]
        refine ⟨hnd1, hnd2, ?_⟩
        intro x h1 h2
        exact (hx2 x h2).1 (hx1 x h1).2
      · intro x hx
        rcases List.mem_append.1 hx with h1 | h2
        · exact ⟨(hx1 x h1).1, hmono x (hx1 x h1).2⟩
        · refine ⟨?_, (hx2 x h2).2⟩
          intro hs
          have he := herase { s with state := { s.state with
            pathSoFar := { s.state.pathSoFar with len := pre } } } c
          rw [Outcome.map_eq_ret hr] at he
          exact (hx2 x h2).1 ((hframe _ c _ he.symm).2.2 x hs)
    | exit code => rw [hr] at h; simp at h
    | fuelOut => rw [hr] at h; simp at h

theorem findCallpathsHelperLog_log : ∀ (fuel : Nat) (g : List functionDecl_t) (u : String)
    (p : dynArray) (cp : callpaths_t) (entered : List String),
    LogOK g entered (findCallpathsHelperLog fuel g u p cp entered) := by
  intro fuel
  induction fuel with
  | zero => intro g u p cp entered s h; simp [findCallpathsHelperLog] at h
  | succ fuel ih =>
    intro g u p cp entered s h
    unfold findCallpathsHelperLog at h
    cases hd : HASH_FIND g u with
    | none => rw [hd] at h; simp at h
    | some decl =>
      rw [hd] at h
      simp only at h
      by_cases hseen : decl.seen = 0
      · rw [if_neg (by simpa using hseen)] at h
        have hseen_iff := fun v => IsSeen_mark g u v decl hd
        have hu_unseen : ¬ IsSeen g u := by
          rintro ⟨d, h1, h2⟩
          rw [hd] at h1
          simp only [Option.some.injEq] at h1
          subst h1
          exact h2 hseen
        by_cases hroot : decl.callers.len = 0
        · rw [if_pos hroot] at h
          split at h
          · simp at h
          · simp only [Outcome.ret.injEq] at h
            subst h
            refine ⟨[u], rfl, List.nodup_singleton u, ?_⟩
            intro x hx
            rw [List.mem_singleton] at hx
            subst hx
            exact ⟨hu_unseen, (hseen_iff x).2 (Or.inl rfl)⟩
        · rw [if_neg hroot] at h
          obtain ⟨new, hn, hnd, hx⟩ := forCallersLog_log
            (fun s c => findCallpathsHelperLog fuel s.state.callgraph c s.state.pathSoFar
              s.state.callpathsOut s.entered)
            (fun s c => findCallpathsHelper fuel s.callgraph c s.pathSoFar s.callpathsOut)
            (arrayAppend p u).len
            (fun s c => findCallpathsHelperLog_erase fuel _ _ _ _ _)
            (fun s c => findCallpathsHelper_frame fuel _ _ _ _)
            (fun s c => ih _ _ _ _ _)
            decl.callers.toList _ s h
          have he := forCallersLog_erase
            (fun s c => findCallpathsHelperLog fuel s.state.callgraph c s.state.pathSoFar
              s.state.callpathsOut s.entered)
            (fun s c => findCallpathsHelper fuel s.callgraph c s.pathSoFar s.callpathsOut)
            (arrayAppend p u).len
            (fun s c => findCallpathsHelperLog_erase fuel _ _ _ _ _)
            decl.callers.toList
            ⟨⟨updateDecl g u (fun d => { d with seen := 1 }), arrayAppend p u, cp⟩,
              entered ++ [u]⟩
          rw [Outcome.map_eq_ret h] at he
          have hmono := (forCallers_frame _ _
            (fun s c => findCallpathsHelper_frame fuel s.callgraph c s.pathSoFar s.callpathsOut)
            decl.callers.toList _ _ he.symm).2.2
          refine ⟨u :: new, ?_, ?_, ?_⟩
          · rw [hn]; simp
          · rw [List.nodup_cons]
            refine ⟨?_, hnd⟩
            intro hmem
            exact (hx u hmem).1 ((hseen_iff u).2 (Or.inl rfl))
          · intro x hxm
            rcases List.mem_cons.1 hxm with h1 | h1
            · subst h1
              exact ⟨hu_unseen, hmono x ((hseen_iff x).2 (Or.inl rfl))⟩
            · exact ⟨fun hs => (hx x h1).1 ((hseen_iff x).2 (Or.inr hs)), (hx x h1).2⟩
      · rw [if_pos hseen] at h
        simp only [Outcome.ret.injEq] at h
        subst h
        exact ⟨[], by simp, List.nodup_nil, by simp⟩

/-- In one query no entity is entered past the seen check twice: the log of a
run started with an empty log is duplicate-free. -/
theorem entered_nodup (fuel : Nat) (g : List functionDecl_t) (T : String) (p : dynArray)
    (cp : callpaths_t) (s : LoggedState)
    (h : findCallpathsHelperLog fuel g T p cp [] = .ret s) : s.entered.Nodup := by
  obtain ⟨new, hn, hnd, _⟩ := findCallpathsHelperLog_log fuel g T p cp [] s h
  rw [hn]
  simpa using hnd

/-- Claim C5 (cycle termination): a query never stops for lack of recursion
budget, and any larger budget gives the same outcome; on a closed store with
the target present it returns or stops on the path cap.  The reason is the
visit-once policy: with a ghost log of the entities entered past the seen
check (dropping the log gives the query back), the log of a returning query
has no symbol twice; a call on a marked entity returns at once changing
nothing, and a returning call leaves its entity marked and clears no marker.
On the store where `A` calls `B` and `B` calls `A` the query for `A` returns
zero paths. -/
theorem C5_findCallPaths_terminates (g : List functionDecl_t) (T : String) (cp0 : callpaths_t)
    (fuel : Nat) (hfuel : g.length + 1 ≤ fuel) :
    findCallPaths g T cp0 ≠ .fuelOut ∧
    findCallpathsHelper fuel (clearSeen g) T initDynArray { cp0 with len := 0 } =
      findCallPaths g T cp0 ∧
    (Closed g → (HASH_FIND g T).isSome →
      (∃ s, findCallPaths g T cp0 = .ret s) ∨ findCallPaths g T cp0 = .exit 1) ∧
    ((findCallpathsHelperLog fuel (clearSeen g) T initDynArray { cp0 with len := 0 } []).map
        LoggedState.state = findCallPaths g T cp0 ∧
      ∀ s, findCallpathsHelperLog fuel (clearSeen g) T initDynArray { cp0 with len := 0 } [] =
        .ret s → s.entered.Nodup) ∧
    (∀ (n : Nat) (g2 : List functionDecl_t) (u : String) (p : dynArray) (cp : callpaths_t),
      IsSeen g2 u → findCallpathsHelper (n + 1) g2 u p cp = .ret ⟨g2, p, cp⟩) ∧
    (∀ (n : Nat) (g2 : List functionDecl_t) (u : String) (p : dynArray) (cp : callpaths_t)
      (s : PathState), findCallpathsHelper n g2 u p cp = .ret s →
      IsSeen s.callgraph u ∧ ∀ v, IsSeen g2 v → IsSeen s.callgraph v) ∧
    queryResult (findCallPaths mutualStore "A" ⟨0, []⟩) = .ret [] := by
  have hle := findCallpathsHelper_fuel_le (g.length + 1) fuel hfuel (clearSeen g) T initDynArray
    { cp0 with len := 0 } (findCallPaths_ne_fuelOut g T cp0)
  refine ⟨findCallPaths_ne_fuelOut g T cp0, hle, ?_, ⟨?_, ?_⟩, ?_, ?_, by decide⟩
  · intro hclosed hT
    cases hres : findCallPaths g T cp0 with
    | ret s => exact Or.inl ⟨s, rfl⟩
    | exit code =>
      rcases findCallPaths_exit g T cp0 code hres with ⟨h1, _⟩ | ⟨h1, _⟩
      · subst h1; exact absurd hres (findCallPaths_closed_ne_exit100 g T cp0 hclosed hT)
      · subst h1; exact Or.inr rfl
    | fuelOut => exact absurd hres (findCallPaths_ne_fuelOut g T cp0)
  · rw [findCallpathsHelperLog_erase]
    exact hle
  · intro s h
    exact entered_nodup fuel _ T _ _ s h
  · intro n g2 u p cp h
    exact findCallpathsHelper_of_seen n g2 u p cp h
  · intro n g2 u p cp s h
    exact ⟨findCallpathsHelper_marks n g2 u p cp s h,
      (findCallpathsHelper_frame n g2 u p cp s h).2.2⟩

theorem C5_findCallPaths_terminates_witness :
    mutualStore.length + 1 ≤ 7 ∧
    findCallPaths mutualStore "A" ⟨0, []⟩ ≠ .fuelOut ∧
    findCallpathsHelper 7 (clearSeen mutualStore) "A" initDynArray
        { (⟨0, []⟩ : callpaths_t) with len := 0 } =
      findCallPaths mutualStore "A" ⟨0, []⟩ ∧
    (findCallpathsHelperLog 7 (clearSeen mutualStore) "A" initDynArray
        { (⟨0, []⟩ : callpaths_t) with len := 0 } []).map LoggedState.entered =
      .ret ["A", "B"] :=
  ⟨by decide,
    (C5_findCallPaths_terminates mutualStore "A" ⟨0, []⟩ 7 (by decide)).1,
    (C5_findCallPaths_terminates mutualStore "A" ⟨0, []⟩ 7 (by decide)).2.1,
    by decide⟩

/-- Claim C6 (path-count cap): on a closed store with the target present, the
query ends in exit code 1 exactly when more than `MAX_CALLPATH = 300` distinct
roots are reachable from the target; a query that returns has a path for every
reachable root (no truncation); and with exactly 300 reachable roots it
returns 300 paths. -/
theorem C6_findCallPaths_cap (g : List functionDecl_t) (T : String) (cp0 : callpaths_t)
    (hclosed : Closed g) (hT : (HASH_FIND g T).isSome) :
    (findCallPaths g T cp0 = .exit 1 ↔
      ∃ roots : List String, roots.Nodup ∧ MAX_CALLPATH < roots.length ∧
        ∀ r ∈ roots, CallerReach g T r ∧ IsRoot g r) ∧
    (∀ s, findCallPaths g T cp0 = .ret s → ∀ r, CallerReach g T r → IsRoot g r →
      ∃ p ∈ s.callpathsOut.toList, p.head? = some r) ∧
    (∀ roots : List String, roots.Nodup → (∀ r, r ∈ roots ↔ CallerReach g T r ∧ IsRoot g r) →
      roots.length = MAX_CALLPATH →
      ∃ s, findCallPaths g T cp0 = .ret s ∧ s.callpathsOut.toList.length = MAX_CALLPATH) := by
  refine ⟨findCallPaths_exit1_iff g T cp0 hclosed hT, ?_, ?_⟩
  · intro s hres r hr1 hr2
    obtain ⟨roots, h1, _, _, h4⟩ := findCallPaths_ret_heads g T cp0 s hres
    have hmem : some r ∈ s.callpathsOut.toList.map List.head? := by
      rw [h1]
      exact List.mem_map.2 ⟨r, (h4 r).2 ⟨hr1, hr2⟩, rfl⟩
    obtain ⟨p, hp, hh⟩ := List.mem_map.1 hmem
    exact ⟨p, hp, hh⟩
  · intro roots hnd hiff hlen
    exact findCallPaths_at_cap g T cp0 hclosed hT roots hnd hiff hlen

theorem C6_findCallPaths_cap_witness :
    Closed diamondStoreCB ∧ (HASH_FIND diamondStoreCB "A").isSome = true ∧
    (findCallPaths diamondStoreCB "A" ⟨0, []⟩ = .exit 1 ↔
      ∃ roots : List String, roots.Nodup ∧ MAX_CALLPATH < roots.length ∧
        ∀ r ∈ roots, CallerReach diamondStoreCB "A" r ∧ IsRoot diamondStoreCB r) :=
  ⟨by decide, by decide,
    (C6_findCallPaths_cap diamondStoreCB "A" ⟨0, []⟩ (by decide) (by decide)).1⟩

/-! ## Graph printer: frame, termination and the invariant of the walk -/

theorem forCalls_frame (call : PrintState → String → Outcome PrintState)
    (hcall : ∀ s c, PrintFrameOK s.callgraph (call s c)) :
    ∀ cs s, PrintFrameOK s.callgraph (forCalls call cs s) := by
  intro cs
  induction cs with
  | nil =>
    intro s s' h
    simp only [forCalls, Outcome.ret.injEq] at h
    subst h
    exact ⟨rfl, le_refl _, fun v hv => hv⟩
  | cons c rest ih =>
    intro s s' h
    unfold forCalls at h
    have hc := hcall s c
    cases hr : call s c with
    | ret s1 =>
      rw [hr] at h
      simp only at h
      obtain ⟨h1, h2, h5⟩ := hc s1 hr
      obtain ⟨h3, h4, h6⟩ := ih s1 s' h
      exact ⟨h3.trans h1, le_trans h4 h2, fun v hv => h6 v (h5 v hv)⟩
    | exit code => rw [hr] at h; simp at h
    | fuelOut => rw [hr] at h; simp at h

theorem forCalls_fuel (call : PrintState → String → Outcome PrintState) (fuel : Nat)
    (hframe : ∀ s c, PrintFrameOK s.callgraph (call s c))
    (hcall : ∀ s c, unseenCount s.callgraph < fuel → call s c ≠ .fuelOut) :
    ∀ cs s, unseenCount s.callgraph < fuel → forCalls call cs s ≠ .fuelOut := by
  intro cs
  induction cs with
  | nil => intro s _; simp [forCalls]
  | cons c rest ih =>
    intro s hs
    unfold forCalls
    have hc := hcall s c hs
    have hf := hframe s c
    cases hr : call s c with
    | ret s1 =>
      simp only
      exact ih s1 (lt_of_le_of_lt (hf s1 hr).2.1 hs)
    | exit code => simp
    | fuelOut => exact absurd hr hc

theorem printCallGraphRecursive_frame : ∀ (fuel : Nat) (g : List functionDecl_t) (u : String)
    (indent : Nat) (root : Option String) (showAll : Bool) (out : String),
    PrintFrameOK g (printCallGraphRecursive fuel g u indent root showAll out) := by
  intro fuel
  induction fuel with
  | zero => intro g u indent root showAll out s h; simp [printCallGraphRecursive] at h
  | succ fuel ih =>
    intro g u indent root showAll out s h
    unfold printCallGraphRecursive at h
    cases hd : HASH_FIND g u with
    | none => rw [hd] at h; simp at h
    | some decl =>
      rw [hd] at h
      simp only at h
      by_cases hseen : decl.seen = 0
      · rw [if_neg (by simpa using hseen)] at h
        have hmark := unseenCount_mark g u decl hd hseen
        have hsame := map_forgetSeen_updateDecl g u (fun d => { d with seen := 1 })
          (fun d => rfl)
        have hseen_iff := fun v => IsSeen_mark g u v decl hd
        have := forCalls_frame _
          (fun s c => by
            show PrintFrameOK s.callgraph (if showAll = true then _ else _)
            split
            · exact ih s.callgraph c _ _ _ _
            · exact ih s.callgraph c _ _ _ _)
          decl.calls.toList _ s h
        exact ⟨this.1.trans hsame, by have := this.2.1; simp only at this; omega,
          fun v hv => this.2.2 v ((hseen_iff v).2 (Or.inr hv))⟩
      · rw [if_pos hseen] at h
        simp only [Outcome.ret.injEq] at h
        subst h
        exact ⟨rfl, le_refl _, fun v hv => hv⟩

theorem printCallGraphRecursive_fuel : ∀ (fuel : Nat) (g : List functionDecl_t) (u : String)
    (indent : Nat) (root : Option String) (showAll : Bool) (out : String),
    unseenCount g < fuel →
    printCallGraphRecursive fuel g u indent root showAll out ≠ .fuelOut := by
  intro fuel
  induction fuel with
  | zero => intro g u indent root showAll out h; omega
  | succ fuel ih =>
    intro g u indent root showAll out hlt
    unfold printCallGraphRecursive
    cases hd : HASH_FIND g u with
    | none => simp
    | some decl =>
      simp only
      by_cases hseen : decl.seen = 0
      · rw [if_neg (by simpa using hseen)]
        have hmark := unseenCount_mark g u decl hd hseen
        apply forCalls_fuel _ fuel
        · intro s c
          show PrintFrameOK s.callgraph (if showAll = true then _ else _)
          split
          · exact printCallGraphRecursive_frame fuel s.callgraph c _ _ _ _
          · exact printCallGraphRecursive_frame fuel s.callgraph c _ _ _ _
        · intro s c hs
          show (if showAll = true then _ else _) ≠ Outcome.fuelOut
          split
          · exact ih s.callgraph c _ _ _ _ hs
          · exact ih s.callgraph c _ _ _ _ hs
        · simp only
          omega
      · rw [if_pos hseen]
        simp

theorem forCalls_inv (g0 : List functionDecl_t) (R : String)
    (call : PrintState → String → Outcome PrintState) (stack : List String)
    (hcall : ∀ s c, PrintInv g0 R s.callgraph stack → CallReach g0 R c →
      PrintPost g0 R s.callgraph stack c (call s c)) :
    ∀ cs s, PrintInv g0 R s.callgraph stack → (∀ c ∈ cs, CallReach g0 R c) →
      PrintLoopPost g0 R s.callgraph stack cs (forCalls call cs s) := by
  intro cs
  induction cs with
  | nil =>
    intro s hinv _
    simp only [forCalls, PrintLoopPost]
    exact ⟨hinv, by simp, fun v h => h⟩
  | cons c rest ih =>
    intro s hinv hcs
    unfold forCalls
    have hc := hcall s c hinv (hcs c (List.mem_cons_self _ _))
    cases hr : call s c with
    | ret s1 =>
      rw [hr] at hc
      simp only [PrintPost] at hc
      obtain ⟨hinv1, hseenc, hmono⟩ := hc
      have hrest := ih s1 hinv1 (fun c2 h2 => hcs c2 (List.mem_cons_of_mem _ h2))
      simp only
      cases hr2 : forCalls call rest s1 with
      | ret s2 =>
        rw [hr2] at hrest
        simp only [PrintLoopPost] at hrest ⊢
        obtain ⟨hinv2, hall, hmono2⟩ := hrest
        refine ⟨hinv2, ?_, fun v h => hmono2 v (hmono v h)⟩
        intro c2 h2
        rcases List.mem_cons.1 h2 with h | h
        · subst h; exact hmono2 _ hseenc
        · exact hall c2 h
      | exit code => rw [hr2] at hrest; exact hrest
      | fuelOut => trivial
    | exit code => rw [hr] at hc; exact hc
    | fuelOut => trivial

theorem printPost_of_loopPost (g0 : List functionDecl_t) (R : String)
    (g : List functionDecl_t) (u : String) (stack : List String) (decl : functionDecl_t)
    (hd : HASH_FIND g u = some decl) (hinv : PrintInv g0 R g stack)
    (r : Outcome PrintState)
    (h : PrintLoopPost g0 R (updateDecl g u (fun d => { d with seen := 1 })) (u :: stack)
      decl.calls.toList r) :
    PrintPost g0 R g stack u r := by
  have hseen_iff := fun v => IsSeen_mark g u v decl hd
  have hcalls : callsOf g0 u = decl.calls.toList := by
    rw [← callsOf_congr hinv.same u]
    simp [callsOf, hd]
  cases r with
  | ret s =>
    simp only [PrintLoopPost, PrintPost] at h ⊢
    obtain ⟨hinv2, hall, hmono⟩ := h
    refine ⟨⟨hinv2.same, ?_, hinv2.reach⟩, hmono u ((hseen_iff u).2 (Or.inl rfl)),
      fun v hv => hmono v ((hseen_iff v).2 (Or.inr hv))⟩
    intro v hv hvp c hc
    by_cases hvu : v = u
    · subst hvu
      rw [hcalls] at hc
      exact hall c hc
    · refine hinv2.closed v hv ?_ c hc
      simp only [List.mem_cons, not_or]
      exact ⟨hvu, hvp⟩
  | exit code => exact h
  | fuelOut => trivial

theorem printCallGraphRecursive_inv (g0 : List functionDecl_t) (R : String) :
    ∀ (fuel : Nat) (g : List functionDecl_t) (u : String) (indent : Nat)
      (root : Option String) (showAll : Bool) (out : String) (stack : List String),
      PrintInv g0 R g stack → CallReach g0 R u →
      PrintPost g0 R g stack u (printCallGraphRecursive fuel g u indent root showAll out) := by
  intro fuel
  induction fuel with
  | zero => intro g u indent root showAll out stack _ _; simp [printCallGraphRecursive, PrintPost]
  | succ fuel ih =>
    intro g u indent root showAll out stack hinv hu
    unfold printCallGraphRecursive
    cases hd : HASH_FIND g u with
    | none =>
      simp only [PrintPost]
      refine ⟨rfl, u, hu, ?_⟩
      have := isSome_congr hinv.same u
      rw [hd] at this
      cases h0 : HASH_FIND g0 u with
      | none => rfl
      | some d0 => rw [h0] at this; simp at this
    | some decl =>
      simp only
      by_cases hseen : decl.seen = 0
      · rw [if_neg (by simpa using hseen)]
        have hsame1 := map_forgetSeen_updateDecl g u (fun d => { d with seen := 1 })
          (fun d => rfl)
        have hseen_iff := fun v => IsSeen_mark g u v decl hd
        have hcalls : callsOf g0 u = decl.calls.toList := by
          rw [← callsOf_congr hinv.same u]
          simp [callsOf, hd]
        refine printPost_of_loopPost g0 R g u stack decl hd hinv _ ?_
        apply forCalls_inv g0 R _ (u :: stack)
        · intro s c h1 h2
          show PrintPost g0 R s.callgraph (u :: stack) c (if showAll = true then _ else _)
          split
          · exact ih s.callgraph c _ _ _ _ (u :: stack) h1 h2
          · exact ih s.callgraph c _ _ _ _ (u :: stack) h1 h2
        · refine ⟨hsame1.trans hinv.same, ?_, ?_⟩
          · intro v hv hvp c hc
            simp only [List.mem_cons, not_or] at hvp
            rcases (hseen_iff v).1 hv with h | h
            · exact absurd h hvp.1
            · exact (hseen_iff c).2 (Or.inr (hinv.closed v h hvp.2 c hc))
          · intro v hv
            rcases (hseen_iff v).1 hv with h | h
            · subst h; exact hu
            · exact hinv.reach v h
        · intro c hc
          exact Relation.ReflTransGen.tail hu (by rw [hcalls]; exact hc)
      · rw [if_pos hseen]
        simp only [PrintPost]
        exact ⟨hinv, ⟨decl, hd, hseen⟩, fun v h => h⟩

theorem CallReach_clearSeen (g : List functionDecl_t) (a b : String) :
    CallReach (clearSeen g) a b ↔ CallReach g a b := by
  unfold CallReach
  rw [callsOf_clearSeen]

theorem printCallGraph_post (g : List functionDecl_t) (R : String) (projectRoot : String)
    (showAll : Bool) (out : String) :
    PrintQueryPost g R (printCallGraph g R projectRoot showAll out) := by
  have hfuel := printCallGraphRecursive_fuel (g.length + 1) (clearSeen g) R 0
    (some projectRoot) showAll out
    (by have := unseenCount_le_length (clearSeen g); rw [length_clearSeen] at this; omega)
  have hinv0 : PrintInv (clearSeen g) R (clearSeen g) [] :=
    ⟨rfl, fun v hv => absurd hv (not_IsSeen_clearSeen g v),
      fun v hv => absurd hv (not_IsSeen_clearSeen g v)⟩
  have hpost := printCallGraphRecursive_inv (clearSeen g) R (g.length + 1) (clearSeen g) R 0
    (some projectRoot) showAll out [] hinv0 Relation.ReflTransGen.refl
  unfold printCallGraph
  cases hr : printCallGraphRecursive (g.length + 1) (clearSeen g) R 0 (some projectRoot)
      showAll out with
  | ret s =>
    rw [hr] at hpost
    simp only [PrintPost, PrintQueryPost] at hpost ⊢
    obtain ⟨hinv, hseenR, _⟩ := hpost
    intro v hv
    have hv2 := (CallReach_clearSeen g R v).2 hv
    clear hv
    induction hv2 with
    | refl => exact hseenR
    | tail _ hbc ih => exact hinv.closed _ ih (by simp) _ hbc
  | exit code =>
    rw [hr] at hpost
    obtain ⟨h1, v, hv, hn⟩ := hpost
    exact ⟨h1, v, (CallReach_clearSeen g R v).1 hv, (HASH_FIND_clearSeen_eq_none g v).1 hn⟩
  | fuelOut => exact absurd hr hfuel

/-! ## Claim on the internal-consistency failure -/

theorem printCallGraph_exit100_iff (g : List functionDecl_t) (R : String)
    (projectRoot : String) (showAll : Bool) (out : String) :
    printCallGraph g R projectRoot showAll out = .exit 100 ↔
      ∃ v, CallReach g R v ∧ HASH_FIND g v = none := by
  have hpost := printCallGraph_post g R projectRoot showAll out
  constructor
  · intro h
    rw [h] at hpost
    exact hpost.2
  · rintro ⟨v, hv, hn⟩
    cases hr : printCallGraph g R projectRoot showAll out with
    | ret s =>
      rw [hr] at hpost
      have h1 := IsSeen_isSome (hpost v hv)
      have h2 := printCallGraphRecursive_frame (g.length + 1) (clearSeen g) R 0
        (some projectRoot) showAll out s hr
      rw [isSome_congr (h2.1.trans (map_forgetSeen_clearSeen g)) v, hn] at h1
      simp at h1
    | exit code =>
      rw [hr] at hpost
      rw [hpost.1]
    | fuelOut => rw [hr] at hpost; exact absurd hpost id

theorem call_reach_present (g : List functionDecl_t) (R : String) (hclosed : Closed g)
    (hR : (HASH_FIND g R).isSome) : ∀ v, CallReach g R v → (HASH_FIND g v).isSome := by
  intro v hv
  induction hv with
  | refl => exact hR
  | @tail b c _ hbc ih =>
    unfold callsOf at hbc
    cases hb : HASH_FIND g b with
    | none => rw [hb] at hbc; simp at hbc
    | some d =>
      rw [hb] at hbc
      exact (hclosed d (HASH_FIND_mem hb)).1 c hbc

/-- Claim C7 (internal-consistency failure): the path finder, on runs that do
not stop on the path cap, and the printer end in exit code 100 exactly when
some symbol reachable from the start symbol along callers edges (respectively
calls edges), the start symbol included, has no entity; no other exit code
than 100 (and 1 for the path finder) occurs; so on a closed store with the
start symbol present neither traversal ends in exit code 100. -/
theorem C7_exit100_iff_missing (g : List functionDecl_t) (start : String) (cp0 : callpaths_t)
    (projectRoot : String) (showAll : Bool) (out : String) :
    (findCallPaths g start cp0 ≠ .exit 1 →
      (findCallPaths g start cp0 = .exit 100 ↔
        ∃ v, CallerReach g start v ∧ HASH_FIND g v = none)) ∧
    (printCallGraph g start projectRoot showAll out = .exit 100 ↔
      ∃ v, CallReach g start v ∧ HASH_FIND g v = none) ∧
    (∀ code, findCallPaths g start cp0 = .exit code → code = 100 ∨ code = 1) ∧
    (∀ code, printCallGraph g start projectRoot showAll out = .exit code → code = 100) ∧
    (Closed g → (HASH_FIND g start).isSome →
      findCallPaths g start cp0 ≠ .exit 100 ∧
        printCallGraph g start projectRoot showAll out ≠ .exit 100) := by
  refine ⟨findCallPaths_exit100_iff g start cp0,
    printCallGraph_exit100_iff g start projectRoot showAll out, ?_, ?_, ?_⟩
  · intro code h
    rcases findCallPaths_exit g start cp0 code h with ⟨h1, _⟩ | ⟨h1, _⟩
    · exact Or.inl h1
    · exact Or.inr h1
  · intro code h
    have hpost := printCallGraph_post g start projectRoot showAll out
    rw [h] at hpost
    exact hpost.1
  · intro hclosed hstart
    refine ⟨findCallPaths_closed_ne_exit100 g start cp0 hclosed hstart, ?_⟩
    intro h
    obtain ⟨v, hv, hn⟩ := (printCallGraph_exit100_iff g start projectRoot showAll out).1 h
    have := call_reach_present g start hclosed hstart v hv
    rw [hn] at this
    simp at this

theorem C7_exit100_iff_missing_witness :
    findCallPaths danglingStore "A" ⟨0, []⟩ ≠ .exit 1 ∧
    findCallPaths danglingStore "A" ⟨0, []⟩ = .exit 100 ∧
    printCallGraph danglingStore "A" "" true "" = .exit 100 :=
  ⟨by decide,
    ((C7_exit100_iff_missing danglingStore "A" ⟨0, []⟩ "" true "").1 (by decide)).2
      ⟨"ghost", Relation.ReflTransGen.single (by decide), by decide⟩,
    (C7_exit100_iff_missing danglingStore "A" ⟨0, []⟩ "" true "").2.1.2
      ⟨"ghost", Relation.ReflTransGen.single (by decide), by decide⟩⟩

/-! ## Deduplicating insertion -/

theorem toList_deduplicatingInsert (a : dynArray) (x : String) :
    (deduplicatingInsert a x).toList = if x ∈ a.toList then a.toList else a.toList ++ [x] := by
  unfold deduplicatingInsert
  by_cases h : x ∈ a.toList
  · have : (a.data.take a.len).any (fun s => s == x) = true := by
      rw [List.any_eq_true]
      exact ⟨x, h, by simp⟩
    rw [if_pos this, if_pos h]
  · have : ¬ (a.data.take a.len).any (fun s => s == x) = true := by
      rw [List.any_eq_true]
      rintro ⟨y, hy, hxy⟩
      have : y = x := by simpa using hxy
      exact h (this ▸ hy)
    rw [if_neg this, if_neg h, toList_arrayAppend]

theorem mem_toList_deduplicatingInsert (a : dynArray) (x y : String) :
    y ∈ (deduplicatingInsert a x).toList ↔ y ∈ a.toList ∨ y = x := by
  rw [toList_deduplicatingInsert]
  split
  · constructor
    · intro h; exact Or.inl h
    · rintro (h | h)
      · exact h
      · subst h; assumption
  · simp

theorem nodup_deduplicatingInsert (a : dynArray) (x : String) (h : a.toList.Nodup) :
    (deduplicatingInsert a x).toList.Nodup := by
  rw [toList_deduplicatingInsert]
  split
  · exact h
  · rename_i hx
    rw [List.nodup_append]
    exact ⟨h, List.nodup_singleton x, by
      intro y hy hy2
      rw [List.mem_singleton] at hy2
      exact hx (hy2 ▸ hy)⟩

theorem mem_foldl_deduplicatingInsert (l : List String) (a : dynArray) (y : String) :
    y ∈ (l.foldl deduplicatingInsert a).toList ↔ y ∈ a.toList ∨ y ∈ l := by
  induction l generalizing a with
  | nil => simp
  | cons x rest ih =>
    rw [List.foldl_cons, ih, mem_toList_deduplicatingInsert, List.mem_cons]
    tauto

theorem nodup_foldl_deduplicatingInsert (l : List String) (a : dynArray)
    (h : a.toList.Nodup) : (l.foldl deduplicatingInsert a).toList.Nodup := by
  induction l generalizing a with
  | nil => exact h
  | cons x rest ih => exact ih _ (nodup_deduplicatingInsert a x h)

/-! ## Writes through an entity pointer -/

theorem map_usr_updateDecl (g : List functionDecl_t) (k : String)
    (f : functionDecl_t → functionDecl_t) (hf : ∀ d, (f d).usr = d.usr) :
    (updateDecl g k f).map functionDecl_t.usr = g.map functionDecl_t.usr := by
  induction g with
  | nil => rfl
  | cons d rest ih =>
    unfold updateDecl
    split <;> simp [ih, hf]

theorem updateDecl_id (g : List functionDecl_t) (k : String) :
    updateDecl g k (fun d => d) = g := by
  induction g with
  | nil => rfl
  | cons d rest ih =>
    unfold updateDecl
    split <;> simp [ih]

theorem updateDecl_updateDecl (g : List functionDecl_t) (k : String)
    (f1 f2 : functionDecl_t → functionDecl_t) (hf1 : ∀ d, (f1 d).usr = d.usr) :
    updateDecl (updateDecl g k f1) k f2 = updateDecl g k (fun d => f2 (f1 d)) := by
  induction g with
  | nil => rfl
  | cons d rest ih =>
    by_cases hd : d.usr = k
    · have hb : (d.usr == k) = true := by simpa using hd
      have hb1 : ((f1 d).usr == k) = true := by rw [hf1]; exact hb
      simp only [updateDecl, hb, if_true, hb1]
    · have hb : (d.usr == k) = false := by simpa using hd
      simp only [updateDecl, hb, Bool.false_eq_true, if_false, ih]

theorem foldl_updateDecl (F : String → functionDecl_t → functionDecl_t)
    (hF : ∀ x d, (F x d).usr = d.usr) (k : String) (l : List String)
    (g : List functionDecl_t) :
    l.foldl (fun g x => updateDecl g k (F x)) g =
      updateDecl g k (fun d => l.foldl (fun d x => F x d) d) := by
  induction l generalizing g with
  | nil => simp [updateDecl_id]
  | cons x rest ih =>
    rw [List.foldl_cons, ih, updateDecl_updateDecl _ _ _ _ (hF x)]
    rfl

/-! ## The merge loop -/

theorem foldl_callers (l : List String) (o : functionDecl_t) :
    l.foldl (fun (d : functionDecl_t) x =>
      { d with callers := deduplicatingInsert d.callers x }) o =
      { o with callers := l.foldl deduplicatingInsert o.callers } := by
  induction l generalizing o with
  | nil => rfl
  | cons x rest ih => rw [List.foldl_cons, ih]; rfl

theorem foldl_calls (l : List String) (o : functionDecl_t) :
    l.foldl (fun (d : functionDecl_t) x =>
      { d with calls := deduplicatingInsert d.calls x }) o =
      { o with calls := l.foldl deduplicatingInsert o.calls } := by
  induction l generalizing o with
  | nil => rfl
  | cons x rest ih => rw [List.foldl_cons, ih]; rfl

theorem mergeDecl_found (g : List functionDecl_t) (d o : functionDecl_t)
    (h : HASH_FIND g d.usr = some o) : mergeDecl g d = updateDecl g d.usr (absorb d) := by
  unfold mergeDecl
  rw [h]
  simp only
  rw [foldl_updateDecl
      (fun usr other => { other with callers := deduplicatingInsert other.callers usr })
      (fun _ _ => rfl),
    foldl_updateDecl
      (fun usr other => { other with calls := deduplicatingInsert other.calls usr })
      (fun _ _ => rfl),
    updateDecl_updateDecl]
  · congr 1
    funext other
    rw [foldl_callers, foldl_calls]
    rfl
  · intro e
    rw [foldl_callers]

theorem mergeDecl_new (g : List functionDecl_t) (d : functionDecl_t)
    (h : HASH_FIND g d.usr = none) : mergeDecl g d = g ++ [d] := by
  unfold mergeDecl
  rw [h]
  rfl

theorem HASH_FIND_append (g : List functionDecl_t) (d : functionDecl_t) (k : String) :
    HASH_FIND (g ++ [d]) k = (HASH_FIND g k).or (if d.usr = k then some d else none) := by
  unfold HASH_FIND
  rw [List.find?_append]
  congr 1
  rw [List.find?_cons]
  by_cases h : d.usr = k
  · simp [h]
  · have : (d.usr == k) = false := by simpa using h
    simp [this, h]

theorem mergeEntry_none (o : Option functionDecl_t) : mergeEntry o none = o := by
  cases o <;> rfl

theorem HASH_FIND_mergeDecl (g : List functionDecl_t) (d : functionDecl_t) (k : String) :
    HASH_FIND (mergeDecl g d) k =
      if k = d.usr then mergeEntry (HASH_FIND g k) (some d) else HASH_FIND g k := by
  cases h : HASH_FIND g d.usr with
  | none =>
    rw [mergeDecl_new g d h, HASH_FIND_append]
    by_cases hk : k = d.usr
    · subst hk
      simp [h, mergeEntry]
    · have : ¬ d.usr = k := fun e => hk e.symm
      simp [hk, this]
  | some o =>
    rw [mergeDecl_found g d o h, HASH_FIND_updateDecl g d.usr k (absorb d) (fun _ => rfl)]
    by_cases hk : k = d.usr
    · subst hk
      simp [h, mergeEntry]
    · simp [hk]

theorem HASH_FIND_cons (d : functionDecl_t) (rest : List functionDecl_t) (k : String) :
    HASH_FIND (d :: rest) k = if d.usr = k then some d else HASH_FIND rest k := by
  unfold HASH_FIND
  rw [List.find?_cons]
  by_cases h : d.usr = k
  · simp [h]
  · have : (d.usr == k) = false := by simpa using h
    simp [this, h]

theorem HASH_FIND_eq_none_iff (g : List functionDecl_t) (k : String) :
    HASH_FIND g k = none ↔ k ∉ storeKeys g := by
  have := HASH_FIND_isSome_iff g k
  cases h : HASH_FIND g k with
  | none =>
    rw [h] at this
    simp only [Option.isSome_none, Bool.false_eq_true, false_iff, not_exists, not_and] at this
    simp only [storeKeys, List.mem_map, not_exists, not_and, true_iff]
    exact this
  | some d =>
    rw [h] at this
    simp only [Option.isSome_some, true_iff] at this
    simp only [storeKeys, List.mem_map, false_iff, not_not]
    simpa using this

/-- The entity under each key after one worker table was merged. -/
theorem HASH_FIND_mergeWorker (w : List functionDecl_t) :
    ∀ (g : List functionDecl_t) (k : String), (storeKeys w).Nodup →
      HASH_FIND (mergeWorker g w) k = mergeEntry (HASH_FIND g k) (HASH_FIND w k) := by
  induction w with
  | nil => intro g k _; simp [mergeWorker, HASH_FIND, mergeEntry_none]
  | cons d rest ih =>
    intro g k hnd
    simp only [storeKeys, List.map_cons, List.nodup_cons] at hnd
    have hrest : HASH_FIND rest d.usr = none := (HASH_FIND_eq_none_iff rest d.usr).2 hnd.1
    have := ih (mergeDecl g d) k hnd.2
    simp only [mergeWorker, List.foldl_cons] at this ⊢
    rw [this, HASH_FIND_mergeDecl, HASH_FIND_cons]
    by_cases hk : k = d.usr
    · subst hk
      simp [hrest, mergeEntry_none]
    · have : ¬ d.usr = k := fun e => hk e.symm
      simp [hk, this]

theorem storeKeys_mergeDecl_nodup (g : List functionDecl_t) (d : functionDecl_t)
    (h : (storeKeys g).Nodup) : (storeKeys (mergeDecl g d)).Nodup := by
  cases hd : HASH_FIND g d.usr with
  | none =>
    rw [mergeDecl_new g d hd]
    simp only [storeKeys, List.map_append, List.map_cons, List.map_nil]
    rw [List.nodup_append]
    refine ⟨h, List.nodup_singleton _, ?_⟩
    intro x hx hx2
    rw [List.mem_singleton] at hx2
    subst hx2
    exact (HASH_FIND_eq_none_iff g d.usr).1 hd hx
  | some o =>
    rw [mergeDecl_found g d o hd]
    unfold storeKeys
    rw [map_usr_updateDecl g d.usr (absorb d) (fun _ => rfl)]
    exact h

theorem storeKeys_mergeWorker_nodup (w : List functionDecl_t) :
    ∀ g : List functionDecl_t, (storeKeys g).Nodup → (storeKeys (mergeWorker g w)).Nodup := by
  induction w with
  | nil => intro g h; exact h
  | cons d rest ih =>
    intro g h
    exact ih (mergeDecl g d) (storeKeys_mergeDecl_nodup g d h)

theorem storeKeys_mergeResults_nodup (others : List (List functionDecl_t)) :
    ∀ g : List functionDecl_t, (storeKeys g).Nodup →
      (storeKeys (mergeResults g others)).Nodup := by
  induction others with
  | nil => intro g h; exact h
  | cons w rest ih =>
    intro g h
    exact ih (mergeWorker g w) (storeKeys_mergeWorker_nodup w g h)

theorem mem_HASH_FIND (g : List functionDecl_t) (hnd : (storeKeys g).Nodup)
    (d : functionDecl_t) (hd : d ∈ g) : HASH_FIND g d.usr = some d := by
  induction g with
  | nil => simp at hd
  | cons e rest ih =>
    simp only [storeKeys, List.map_cons, List.nodup_cons] at hnd
    rw [HASH_FIND_cons]
    rcases List.mem_cons.1 hd with h | h
    · subst h; simp
    · have hne : ¬ e.usr = d.usr := by
        intro he
        exact hnd.1 (he ▸ List.mem_map.2 ⟨d, h, rfl⟩)
      rw [if_neg hne]
      exact ih hnd.2 h

theorem listsNodup_of_wf (g : List functionDecl_t) (h : StoreWF g) : ListsNodup g := by
  intro k
  unfold callsOf callersOf
  cases hd : HASH_FIND g k with
  | none => simp
  | some d => exact h.2 d (HASH_FIND_mem hd)

theorem mem_callsOf_mergeWorker (g w : List functionDecl_t) (k y : String)
    (hnd : (storeKeys w).Nodup) :
    y ∈ callsOf (mergeWorker g w) k ↔ y ∈ callsOf g k ∨ y ∈ callsOf w k := by
  unfold callsOf
  rw [HASH_FIND_mergeWorker w g k hnd]
  cases HASH_FIND g k <;> cases HASH_FIND w k <;>
    simp [mergeEntry, absorb, mem_foldl_deduplicatingInsert]

theorem mem_callersOf_mergeWorker (g w : List functionDecl_t) (k y : String)
    (hnd : (storeKeys w).Nodup) :
    y ∈ callersOf (mergeWorker g w) k ↔ y ∈ callersOf g k ∨ y ∈ callersOf w k := by
  unfold callersOf
  rw [HASH_FIND_mergeWorker w g k hnd]
  cases HASH_FIND g k <;> cases HASH_FIND w k <;>
    simp [mergeEntry, absorb, mem_foldl_deduplicatingInsert]

theorem isSome_mergeWorker (g w : List functionDecl_t) (k : String)
    (hnd : (storeKeys w).Nodup) :
    (HASH_FIND (mergeWorker g w) k).isSome =
      ((HASH_FIND g k).isSome || (HASH_FIND w k).isSome) := by
  rw [HASH_FIND_mergeWorker w g k hnd]
  cases HASH_FIND g k <;> cases HASH_FIND w k <;> simp [mergeEntry]

theorem displayName_mergeWorker (g w : List functionDecl_t) (k : String)
    (hnd : (storeKeys w).Nodup) :
    (HASH_FIND (mergeWorker g w) k).map functionDecl_t.displayName =
      ((HASH_FIND g k).or (HASH_FIND w k)).map functionDecl_t.displayName := by
  rw [HASH_FIND_mergeWorker w g k hnd]
  cases HASH_FIND g k <;> cases HASH_FIND w k <;> simp [mergeEntry, absorb]

theorem listsNodup_mergeWorker (g w : List functionDecl_t) (hnd : (storeKeys w).Nodup)
    (hg : ListsNodup g) (hw : ListsNodup w) : ListsNodup (mergeWorker g w) := by
  intro k
  have h1 := hg k
  have h2 := hw k
  unfold callsOf callersOf at h1 h2 ⊢
  rw [HASH_FIND_mergeWorker w g k hnd]
  cases hgk : HASH_FIND g k <;> cases hwk : HASH_FIND w k <;>
    simp only [hgk, hwk, mergeEntry, absorb] at h1 h2 ⊢
  · simp
  · exact h2
  · exact h1
  · exact ⟨nodup_foldl_deduplicatingInsert _ _ h1.1, nodup_foldl_deduplicatingInsert _ _ h1.2⟩

theorem mem_storeKeys_iff (g : List functionDecl_t) (k : String) :
    k ∈ storeKeys g ↔ (HASH_FIND g k).isSome := by
  rw [HASH_FIND_isSome_iff]
  simp [storeKeys]

/-- The merged table, key by key, in terms of the accumulated table and the
worker tables merged into it. -/
theorem mergeResults_spec (others : List (List functionDecl_t)) :
    ∀ (g : List functionDecl_t), (∀ w ∈ others, (storeKeys w).Nodup) →
      (∀ k, k ∈ storeKeys (mergeResults g others) ↔
        k ∈ storeKeys g ∨ ∃ w ∈ others, k ∈ storeKeys w) ∧
      (∀ k y, y ∈ callsOf (mergeResults g others) k ↔
        y ∈ callsOf g k ∨ ∃ w ∈ others, y ∈ callsOf w k) ∧
      (∀ k y, y ∈ callersOf (mergeResults g others) k ↔
        y ∈ callersOf g k ∨ ∃ w ∈ others, y ∈ callersOf w k) ∧
      (∀ k, (HASH_FIND (mergeResults g others) k).map functionDecl_t.displayName =
        (firstHolder (g :: others) k).map functionDecl_t.displayName) ∧
      (ListsNodup g → (∀ w ∈ others, ListsNodup w) → ListsNodup (mergeResults g others)) := by
  induction others with
  | nil =>
    intro g _
    refine ⟨by simp [mergeResults], by simp [mergeResults], by simp [mergeResults], ?_,
      fun h _ => h⟩
    intro k
    simp only [mergeResults, List.foldl_nil, firstHolder, List.findSome?_cons,
      List.findSome?_nil]
    cases HASH_FIND g k <;> rfl
  | cons w rest ih =>
    intro g hnd
    have hw : (storeKeys w).Nodup := hnd w (List.mem_cons_self _ _)
    obtain ⟨h1, h2, h3, h4, h5⟩ := ih (mergeWorker g w)
      (fun w2 h => hnd w2 (List.mem_cons_of_mem _ h))
    have hfold : mergeResults g (w :: rest) = mergeResults (mergeWorker g w) rest := rfl
    rw [hfold]
    refine ⟨?_, ?_, ?_, ?_, ?_⟩
    · intro k
      rw [h1 k, mem_storeKeys_iff, isSome_mergeWorker g w k hw, Bool.or_eq_true,
        ← mem_storeKeys_iff, ← mem_storeKeys_iff]
      simp only [List.mem_cons, exists_eq_or_imp]
      tauto
    · intro k y
      rw [h2 k y, mem_callsOf_mergeWorker g w k y hw]
      simp only [List.mem_cons, exists_eq_or_imp]
      tauto
    · intro k y
      rw [h3 k y, mem_callersOf_mergeWorker g w k y hw]
      simp only [List.mem_cons, exists_eq_or_imp]
      tauto
    · intro k
      rw [h4 k]
      simp only [firstHolder, List.findSome?_cons]
      have hm := HASH_FIND_mergeWorker w g k hw
      cases hg : HASH_FIND g k <;> cases hwk : HASH_FIND w k <;>
        simp [hg, hwk, mergeEntry, absorb] at hm ⊢ <;> simp [hm, absorb]
    · intro hg hws
      exact h5 (listsNodup_mergeWorker g w hw hg (hws w (List.mem_cons_self _ _)))
        (fun w2 h => hws w2 (List.mem_cons_of_mem _ h))

/-! ## Ingestion of call sites -/

theorem ensureDeclPresent_usr (c : CXCursor) (tu : Nat) (g : List functionDecl_t) :
    (ensureDeclPresent c tu g).2.usr = c.usr := by
  unfold ensureDeclPresent
  cases h : HASH_FIND g c.usr with
  | none => rfl
  | some d => exact HASH_FIND_usr h

theorem HASH_FIND_ensureDeclPresent (c : CXCursor) (tu : Nat) (g : List functionDecl_t)
    (k : String) :
    HASH_FIND (ensureDeclPresent c tu g).1 k = HASH_FIND g k ∨
      (HASH_FIND g k = none ∧ k = c.usr ∧
        ∃ d, HASH_FIND (ensureDeclPresent c tu g).1 k = some d ∧ d.calls = initDynArray ∧
          d.callers = initDynArray) := by
  unfold ensureDeclPresent
  cases h : HASH_FIND g c.usr with
  | some d => exact Or.inl rfl
  | none =>
    simp only [HASH_ADD_KEYPTR]
    rw [HASH_FIND_append]
    by_cases hk : c.usr = k
    · subst hk
      right
      refine ⟨h, rfl, ?_⟩
      simp [h]
    · left
      simp [hk]

theorem callsOf_ensureDeclPresent (c : CXCursor) (tu : Nat) (g : List functionDecl_t)
    (k : String) : callsOf (ensureDeclPresent c tu g).1 k = callsOf g k := by
  unfold callsOf
  rcases HASH_FIND_ensureDeclPresent c tu g k with h | ⟨h1, _, d, h2, h3, _⟩
  · rw [h]
  · rw [h1, h2]
    simp [h3, toList_initDynArray]

theorem callersOf_ensureDeclPresent (c : CXCursor) (tu : Nat) (g : List functionDecl_t)
    (k : String) : callersOf (ensureDeclPresent c tu g).1 k = callersOf g k := by
  unfold callersOf
  rcases HASH_FIND_ensureDeclPresent c tu g k with h | ⟨h1, _, d, h2, _, h3⟩
  · rw [h]
  · rw [h1, h2]
    simp [h3, toList_initDynArray]

theorem storeKeys_ensureDeclPresent (c : CXCursor) (tu : Nat) (g : List functionDecl_t) :
    (storeKeys (ensureDeclPresent c tu g).1 = storeKeys g ∧ c.usr ∈ storeKeys g) ∨
      (storeKeys (ensureDeclPresent c tu g).1 = storeKeys g ++ [c.usr] ∧ c.usr ∉ storeKeys g) := by
  unfold ensureDeclPresent
  cases h : HASH_FIND g c.usr with
  | some d =>
    left
    refine ⟨rfl, ?_⟩
    rw [mem_storeKeys_iff, h]
    rfl
  | none =>
    right
    refine ⟨by simp [storeKeys, HASH_ADD_KEYPTR], (HASH_FIND_eq_none_iff g c.usr).1 h⟩

theorem mem_storeKeys_ensureDeclPresent (c : CXCursor) (tu : Nat) (g : List functionDecl_t)
    (k : String) : k ∈ storeKeys (ensureDeclPresent c tu g).1 ↔ k ∈ storeKeys g ∨ k = c.usr := by
  rcases storeKeys_ensureDeclPresent c tu g with ⟨h1, h2⟩ | ⟨h1, _⟩
  · rw [h1]
    constructor
    · intro h; exact Or.inl h
    · rintro (h | h)
      · exact h
      · subst h; exact h2
  · rw [h1]
    simp

theorem nodup_storeKeys_ensureDeclPresent (c : CXCursor) (tu : Nat) (g : List functionDecl_t)
    (h : (storeKeys g).Nodup) : (storeKeys (ensureDeclPresent c tu g).1).Nodup := by
  rcases storeKeys_ensureDeclPresent c tu g with ⟨h1, _⟩ | ⟨h1, h2⟩
  · rw [h1]; exact h
  · rw [h1, List.nodup_append]
    refine ⟨h, List.nodup_singleton _, ?_⟩
    intro x hx hx2
    rw [List.mem_singleton] at hx2
    exact h2 (hx2 ▸ hx)

theorem addCallSite_eq (g : List functionDecl_t) (a b : CXCursor) (tu : Nat) :
    addCallSite g (some a) (some b) tu =
      updateDecl
        (updateDecl (ensureDeclPresent b tu (ensureDeclPresent a tu g).1).1 a.usr
          (fun d => { d with calls := deduplicatingInsert d.calls b.usr }))
        b.usr (fun d => { d with callers := deduplicatingInsert d.callers a.usr }) := by
  unfold addCallSite
  simp only
  rw [ensureDeclPresent_usr, ensureDeclPresent_usr]

theorem storeKeys_updateDecl (g : List functionDecl_t) (k : String)
    (f : functionDecl_t → functionDecl_t) (hf : ∀ d, (f d).usr = d.usr) :
    storeKeys (updateDecl g k f) = storeKeys g :=
  map_usr_updateDecl g k f hf

theorem mem_callsOf_insertCall (g : List functionDecl_t) (a b k y : String)
    (ha : a ∈ storeKeys g) :
    y ∈ callsOf (updateDecl g a
        (fun d => { d with calls := deduplicatingInsert d.calls b })) k ↔
      y ∈ callsOf g k ∨ (k = a ∧ y = b) := by
  unfold callsOf
  rw [HASH_FIND_updateDecl g a k
    (fun d => { d with calls := deduplicatingInsert d.calls b }) (fun _ => rfl)]
  by_cases hk : k = a
  · subst hk
    rw [mem_storeKeys_iff] at ha
    cases hd : HASH_FIND g k with
    | none => rw [hd] at ha; simp at ha
    | some d => simp [mem_toList_deduplicatingInsert]
  · simp [hk]

theorem callersOf_insertCall (g : List functionDecl_t) (a b k : String) :
    callersOf (updateDecl g a
        (fun d => { d with calls := deduplicatingInsert d.calls b })) k = callersOf g k := by
  unfold callersOf
  rw [HASH_FIND_updateDecl g a k
    (fun d => { d with calls := deduplicatingInsert d.calls b }) (fun _ => rfl)]
  by_cases hk : k = a
  · subst hk
    cases hd : HASH_FIND g k <;> simp
  · simp [hk]

theorem mem_callersOf_insertCaller (g : List functionDecl_t) (a b k y : String)
    (hb : b ∈ storeKeys g) :
    y ∈ callersOf (updateDecl g b
        (fun d => { d with callers := deduplicatingInsert d.callers a })) k ↔
      y ∈ callersOf g k ∨ (k = b ∧ y = a) := by
  unfold callersOf
  rw [HASH_FIND_updateDecl g b k
    (fun d => { d with callers := deduplicatingInsert d.callers a }) (fun _ => rfl)]
  by_cases hk : k = b
  · subst hk
    rw [mem_storeKeys_iff] at hb
    cases hd : HASH_FIND g k with
    | none => rw [hd] at hb; simp at hb
    | some d => simp [mem_toList_deduplicatingInsert]
  · simp [hk]

theorem callsOf_insertCaller (g : List functionDecl_t) (a b k : String) :
    callsOf (updateDecl g b
        (fun d => { d with callers := deduplicatingInsert d.callers a })) k = callsOf g k := by
  unfold callsOf
  rw [HASH_FIND_updateDecl g b k
    (fun d => { d with callers := deduplicatingInsert d.callers a }) (fun _ => rfl)]
  by_cases hk : k = b
  · subst hk
    cases hd : HASH_FIND g k <;> simp
  · simp [hk]

theorem storeKeys_insertCall (g : List functionDecl_t) (a b : String) :
    storeKeys (updateDecl g a
      (fun d => { d with calls := deduplicatingInsert d.calls b })) = storeKeys g :=
  map_usr_updateDecl g a (fun d => { d with calls := deduplicatingInsert d.calls b })
    (fun _ => rfl)

theorem storeKeys_insertCaller (g : List functionDecl_t) (a b : String) :
    storeKeys (updateDecl g b
      (fun d => { d with callers := deduplicatingInsert d.callers a })) = storeKeys g :=
  map_usr_updateDecl g b (fun d => { d with callers := deduplicatingInsert d.callers a })
    (fun _ => rfl)

theorem listsNodup_insertCall (g : List functionDecl_t) (a b : String) (h : ListsNodup g) :
    ListsNodup (updateDecl g a
      (fun d => { d with calls := deduplicatingInsert d.calls b })) := by
  intro k
  refine ⟨?_, by rw [callersOf_insertCall]; exact (h k).2⟩
  have hk := (h k).1
  unfold callsOf at hk ⊢
  rw [HASH_FIND_updateDecl g a k
    (fun d => { d with calls := deduplicatingInsert d.calls b }) (fun _ => rfl)]
  by_cases hka : k = a
  · subst hka
    cases hd : HASH_FIND g k with
    | none => simp
    | some d =>
      rw [hd] at hk
      simp only [if_true, Option.map_some']
      exact nodup_deduplicatingInsert d.calls b hk
  · simp only [hka, if_false]
    exact hk

theorem listsNodup_insertCaller (g : List functionDecl_t) (a b : String) (h : ListsNodup g) :
    ListsNodup (updateDecl g b
      (fun d => { d with callers := deduplicatingInsert d.callers a })) := by
  intro k
  refine ⟨by rw [callsOf_insertCaller]; exact (h k).1, ?_⟩
  have hk := (h k).2
  unfold callersOf at hk ⊢
  rw [HASH_FIND_updateDecl g b k
    (fun d => { d with callers := deduplicatingInsert d.callers a }) (fun _ => rfl)]
  by_cases hkb : k = b
  · subst hkb
    cases hd : HASH_FIND g k with
    | none => simp
    | some d =>
      rw [hd] at hk
      simp only [if_true, Option.map_some']
      exact nodup_deduplicatingInsert d.callers a hk
  · simp only [hkb, if_false]
    exact hk

/-- One call site, seen through the keys and the two edge lists of every key. -/
theorem addCallSite_views (g : List functionDecl_t) (a b : CXCursor) (tu : Nat) :
    ((storeKeys g).Nodup → (storeKeys (addCallSite g (some a) (some b) tu)).Nodup) ∧
    (∀ k, k ∈ storeKeys (addCallSite g (some a) (some b) tu) ↔
      k ∈ storeKeys g ∨ k = a.usr ∨ k = b.usr) ∧
    (∀ k y, y ∈ callsOf (addCallSite g (some a) (some b) tu) k ↔
      y ∈ callsOf g k ∨ (k = a.usr ∧ y = b.usr)) ∧
    (∀ k y, y ∈ callersOf (addCallSite g (some a) (some b) tu) k ↔
      y ∈ callersOf g k ∨ (k = b.usr ∧ y = a.usr)) ∧
    (ListsNodup g → ListsNodup (addCallSite g (some a) (some b) tu)) := by
  rw [addCallSite_eq]
  have hkeys : ∀ k, k ∈ storeKeys (ensureDeclPresent b tu (ensureDeclPresent a tu g).1).1 ↔
      k ∈ storeKeys g ∨ k = a.usr ∨ k = b.usr := by
    intro k
    rw [mem_storeKeys_ensureDeclPresent, mem_storeKeys_ensureDeclPresent]
    tauto
  have ha := (hkeys a.usr).2 (Or.inr (Or.inl rfl))
  have hb := (hkeys b.usr).2 (Or.inr (Or.inr rfl))
  have hb3 : b.usr ∈ storeKeys
      (updateDecl (ensureDeclPresent b tu (ensureDeclPresent a tu g).1).1 a.usr
        (fun d => { d with calls := deduplicatingInsert d.calls b.usr })) := by
    rw [storeKeys_insertCall]
    exact hb
  refine ⟨?_, ?_, ?_, ?_, ?_⟩
  · intro h
    rw [storeKeys_insertCaller, storeKeys_insertCall]
    exact nodup_storeKeys_ensureDeclPresent _ _ _ (nodup_storeKeys_ensureDeclPresent _ _ _ h)
  · intro k
    rw [storeKeys_insertCaller, storeKeys_insertCall]
    exact hkeys k
  · intro k y
    rw [callsOf_insertCaller, mem_callsOf_insertCall _ _ _ _ _ ha, callsOf_ensureDeclPresent,
      callsOf_ensureDeclPresent]
  · intro k y
    rw [mem_callersOf_insertCaller _ _ _ _ _ hb3, callersOf_insertCall,
      callersOf_ensureDeclPresent, callersOf_ensureDeclPresent]
  · intro h
    apply listsNodup_insertCaller
    apply listsNodup_insertCall
    intro k
    rw [callsOf_ensureDeclPresent, callsOf_ensureDeclPresent, callersOf_ensureDeclPresent,
      callersOf_ensureDeclPresent]
    exact h k

theorem WorkerInv_addCallSite (g : List functionDecl_t) (h : WorkerInv g)
    (caller callee : Option CXCursor) (tu : Nat) :
    WorkerInv (addCallSite g caller callee tu) := by
  cases caller with
  | none => simpa [addCallSite] using h
  | some a =>
    cases callee with
    | none => simpa [addCallSite] using h
    | some b =>
      obtain ⟨h1, h2, h3, h4, h5⟩ := addCallSite_views g a b tu
      refine ⟨h1 h.keys, h5 h.lists, ?_, ?_, ?_⟩
      · intro k y hy
        rw [h2]
        rcases (h3 k y).1 hy with h6 | ⟨_, h7⟩
        · exact Or.inl (h.closedCalls k y h6)
        · exact Or.inr (Or.inr h7)
      · intro k y hy
        rw [h2]
        rcases (h4 k y).1 hy with h6 | ⟨_, h7⟩
        · exact Or.inl (h.closedCallers k y h6)
        · exact Or.inr (Or.inl h7)
      · intro x y
        rw [h3, h4, h.sym x y]
        tauto

theorem WorkerInv_nil : WorkerInv [] :=
  ⟨by simp [storeKeys], fun k => by simp [callsOf, callersOf, HASH_FIND],
    fun k y h => by simp [callsOf, HASH_FIND] at h,
    fun k y h => by simp [callersOf, HASH_FIND] at h,
    fun a b => by simp [callsOf, callersOf, HASH_FIND]⟩

theorem WorkerInv_foldl (sites : List CallSite) :
    ∀ g : List functionDecl_t, WorkerInv g →
      WorkerInv (sites.foldl (fun callgraph s => addCallSite callgraph s.caller s.callee s.tu) g) := by
  induction sites with
  | nil => intro g h; exact h
  | cons s rest ih =>
    intro g h
    exact ih _ (WorkerInv_addCallSite g h s.caller s.callee s.tu)

/-- Every table a worker builds satisfies the invariant. -/
theorem WorkerInv_workerStore (sites : List CallSite) : WorkerInv (workerStore sites) :=
  WorkerInv_foldl sites [] WorkerInv_nil

theorem callsOf_eq_of_mem (g : List functionDecl_t) (hnd : (storeKeys g).Nodup)
    (d : functionDecl_t) (hd : d ∈ g) : callsOf g d.usr = d.calls.toList := by
  unfold callsOf
  rw [mem_HASH_FIND g hnd d hd]

theorem callersOf_eq_of_mem (g : List functionDecl_t) (hnd : (storeKeys g).Nodup)
    (d : functionDecl_t) (hd : d ∈ g) : callersOf g d.usr = d.callers.toList := by
  unfold callersOf
  rw [mem_HASH_FIND g hnd d hd]

theorem StoreWF_of_WorkerInv (g : List functionDecl_t) (h : WorkerInv g) : StoreWF g := by
  refine ⟨h.keys, fun d hd => ?_⟩
  have := h.lists d.usr
  rw [callsOf_eq_of_mem g h.keys d hd, callersOf_eq_of_mem g h.keys d hd] at this
  exact this

/-- Merging tables that satisfy the invariant gives a table that satisfies it. -/
theorem WorkerInv_mergeResults (first : List functionDecl_t)
    (others : List (List functionDecl_t)) (hfirst : WorkerInv first)
    (hothers : ∀ w ∈ others, WorkerInv w) : WorkerInv (mergeResults first others) := by
  obtain ⟨h1, h2, h3, _, h5⟩ := mergeResults_spec others first (fun w hw => (hothers w hw).keys)
  refine ⟨storeKeys_mergeResults_nodup others first hfirst.keys,
    h5 hfirst.lists (fun w hw => (hothers w hw).lists), ?_, ?_, ?_⟩
  · intro k y hy
    rw [h1]
    rcases (h2 k y).1 hy with h | ⟨w, hw, h⟩
    · exact Or.inl (hfirst.closedCalls k y h)
    · exact Or.inr ⟨w, hw, (hothers w hw).closedCalls k y h⟩
  · intro k y hy
    rw [h1]
    rcases (h3 k y).1 hy with h | ⟨w, hw, h⟩
    · exact Or.inl (hfirst.closedCallers k y h)
    · exact Or.inr ⟨w, hw, (hothers w hw).closedCallers k y h⟩
  · intro a b
    rw [h2, h3, hfirst.sym a b]
    constructor
    · rintro (h | ⟨w, hw, h⟩)
      · exact Or.inl h
      · exact Or.inr ⟨w, hw, ((hothers w hw).sym a b).1 h⟩
    · rintro (h | ⟨w, hw, h⟩)
      · exact Or.inl h
      · exact Or.inr ⟨w, hw, ((hothers w hw).sym a b).2 h⟩

/-! ## Claims on ingestion and merge -/

theorem mem_callsOf_iff (w : List functionDecl_t) (hnd : (storeKeys w).Nodup) (k x : String) :
    x ∈ callsOf w k ↔ ∃ d ∈ w, d.usr = k ∧ x ∈ d.calls.toList := by
  constructor
  · intro h
    unfold callsOf at h
    cases hd : HASH_FIND w k with
    | none => rw [hd] at h; simp at h
    | some d =>
      rw [hd] at h
      exact ⟨d, HASH_FIND_mem hd, HASH_FIND_usr hd, h⟩
  · rintro ⟨d, hd, hk, hx⟩
    subst hk
    rw [callsOf_eq_of_mem w hnd d hd]
    exact hx

theorem mem_callersOf_iff (w : List functionDecl_t) (hnd : (storeKeys w).Nodup)
    (k x : String) :
    x ∈ callersOf w k ↔ ∃ d ∈ w, d.usr = k ∧ x ∈ d.callers.toList := by
  constructor
  · intro h
    unfold callersOf at h
    cases hd : HASH_FIND w k with
    | none => rw [hd] at h; simp at h
    | some d =>
      rw [hd] at h
      exact ⟨d, HASH_FIND_mem hd, HASH_FIND_usr hd, h⟩
  · rintro ⟨d, hd, hk, hx⟩
    subst hk
    rw [callersOf_eq_of_mem w hnd d hd]
    exact hx

theorem WorkerInv_merged (sites0 : List CallSite) (sitess : List (List CallSite)) :
    WorkerInv (mergeResults (workerStore sites0) (sitess.map workerStore)) := by
  apply WorkerInv_mergeResults _ _ (WorkerInv_workerStore sites0)
  intro w hw
  obtain ⟨s, _, hs⟩ := List.mem_map.1 hw
  rw [← hs]
  exact WorkerInv_workerStore s

/-- Claim C8 (edge symmetry): start every worker from the empty table, let it
process any sequence of call sites, and merge the tables of all workers; then
for all entities `A` and `B` of the result (also `A = B`, also entities first
seen by different workers) `B.usr` is in the calls of `A` exactly when `A.usr`
is in the callers of `B`. -/
theorem C8_edge_symmetry (sites0 : List CallSite) (sitess : List (List CallSite))
    (A B : functionDecl_t)
    (hA : A ∈ mergeResults (workerStore sites0) (sitess.map workerStore))
    (hB : B ∈ mergeResults (workerStore sites0) (sitess.map workerStore)) :
    B.usr ∈ A.calls.toList ↔ A.usr ∈ B.callers.toList := by
  have h := WorkerInv_merged sites0 sitess
  rw [← callsOf_eq_of_mem _ h.keys A hA, ← callersOf_eq_of_mem _ h.keys B hB]
  exact h.sym A.usr B.usr

theorem C8_edge_symmetry_witness :
    (({ usr := "foo", displayName := "foo:demo.c:1",
        calls := { len := 2, capacity := 30, data := ["foo", "bar"] },
        callers := { len := 2, capacity := 30, data := ["main", "foo"] },
        tu := 0, seen := 0 } : functionDecl_t) ∈
      mergeResults (workerStore [site "main" "foo", site "foo" "foo"])
        ([[site "foo" "bar", site "bar" "main"]].map workerStore)) ∧
    (({ usr := "bar", displayName := "bar:demo.c:1",
        calls := { len := 1, capacity := 30, data := ["main"] },
        callers := { len := 1, capacity := 30, data := ["foo"] },
        tu := 0, seen := 0 } : functionDecl_t) ∈
      mergeResults (workerStore [site "main" "foo", site "foo" "foo"])
        ([[site "foo" "bar", site "bar" "main"]].map workerStore)) ∧
    ("bar" ∈ ["foo", "bar"] ↔ "foo" ∈ ["foo"]) :=
  ⟨by decide, by decide,
    C8_edge_symmetry [site "main" "foo", site "foo" "foo"] [[site "foo" "bar", site "bar" "main"]]
      { usr := "foo", displayName := "foo:demo.c:1",
        calls := { len := 2, capacity := 30, data := ["foo", "bar"] },
        callers := { len := 2, capacity := 30, data := ["main", "foo"] },
        tu := 0, seen := 0 }
      { usr := "bar", displayName := "bar:demo.c:1",
        calls := { len := 1, capacity := 30, data := ["main"] },
        callers := { len := 1, capacity := 30, data := ["foo"] },
        tu := 0, seen := 0 }
      (by decide) (by decide)⟩

/-- Claim C9 (closure): in the table obtained by merging worker tables that were
each built from the empty table by call sites, every symbol in a calls or
callers list is a key of the table. -/
theorem C9_closure (sites0 : List CallSite) (sitess : List (List CallSite)) :
    Closed (mergeResults (workerStore sites0) (sitess.map workerStore)) := by
  have h := WorkerInv_merged sites0 sitess
  intro d hd
  constructor
  · intro x hx
    rw [← callsOf_eq_of_mem _ h.keys d hd] at hx
    exact (mem_storeKeys_iff _ x).1 (h.closedCalls d.usr x hx)
  · intro x hx
    rw [← callersOf_eq_of_mem _ h.keys d hd] at hx
    exact (mem_storeKeys_iff _ x).1 (h.closedCallers d.usr x hx)

/-- Claim C10 (merge is the per-symbol union): merge the tables of workers
`0 .. n-1` in order, each with one entity per key and no symbol twice in a
list.  The global table has one entity per key; its keys are the union of the
workers' keys; the calls (callers) of every global entity are, as a set, the
union of the calls (callers) of the workers' entities with the same key, with
no symbol twice; and its display name is the one held by the lowest-indexed
worker that contains the key. -/
theorem C10_merge_union (first : List functionDecl_t) (others : List (List functionDecl_t))
    (hwf : ∀ w ∈ first :: others, StoreWF w) :
    (storeKeys (mergeResults first others)).Nodup ∧
    (∀ k, k ∈ storeKeys (mergeResults first others) ↔ ∃ w ∈ first :: others, k ∈ storeKeys w) ∧
    (∀ e ∈ mergeResults first others,
      (∀ x, x ∈ e.calls.toList ↔
        ∃ w ∈ first :: others, ∃ d ∈ w, d.usr = e.usr ∧ x ∈ d.calls.toList) ∧
      (∀ x, x ∈ e.callers.toList ↔
        ∃ w ∈ first :: others, ∃ d ∈ w, d.usr = e.usr ∧ x ∈ d.callers.toList) ∧
      e.calls.toList.Nodup ∧ e.callers.toList.Nodup ∧
      (firstHolder (first :: others) e.usr).map functionDecl_t.displayName =
        some e.displayName) := by
  have hfirst := hwf first (List.mem_cons_self _ _)
  have hothers : ∀ w ∈ others, StoreWF w := fun w hw => hwf w (List.mem_cons_of_mem _ hw)
  obtain ⟨h1, h2, h3, h4, h5⟩ := mergeResults_spec others first (fun w hw => (hothers w hw).1)
  have hnd := storeKeys_mergeResults_nodup others first hfirst.1
  have hlists := h5 (listsNodup_of_wf first hfirst)
    (fun w hw => listsNodup_of_wf w (hothers w hw))
  refine ⟨hnd, ?_, ?_⟩
  · intro k
    rw [h1 k]
    simp only [List.mem_cons, exists_eq_or_imp]
  · intro e he
    have hfind := mem_HASH_FIND _ hnd e he
    refine ⟨?_, ?_, ?_, ?_, ?_⟩
    · intro x
      rw [← callsOf_eq_of_mem _ hnd e he, h2 e.usr x]
      simp only [List.mem_cons, exists_eq_or_imp]
      rw [mem_callsOf_iff first hfirst.1]
      constructor
      · rintro (h | ⟨w, hw, h⟩)
        · exact Or.inl h
        · exact Or.inr ⟨w, hw, (mem_callsOf_iff w (hothers w hw).1 _ _).1 h⟩
      · rintro (h | ⟨w, hw, h⟩)
        · exact Or.inl h
        · exact Or.inr ⟨w, hw, (mem_callsOf_iff w (hothers w hw).1 _ _).2 h⟩
    · intro x
      rw [← callersOf_eq_of_mem _ hnd e he, h3 e.usr x]
      simp only [List.mem_cons, exists_eq_or_imp]
      rw [mem_callersOf_iff first hfirst.1]
      constructor
      · rintro (h | ⟨w, hw, h⟩)
        · exact Or.inl h
        · exact Or.inr ⟨w, hw, (mem_callersOf_iff w (hothers w hw).1 _ _).1 h⟩
      · rintro (h | ⟨w, hw, h⟩)
        · exact Or.inl h
        · exact Or.inr ⟨w, hw, (mem_callersOf_iff w (hothers w hw).1 _ _).2 h⟩
    · have := (hlists e.usr).1
      rw [callsOf_eq_of_mem _ hnd e he] at this
      exact this
    · have := (hlists e.usr).2
      rw [callersOf_eq_of_mem _ hnd e he] at this
      exact this
    · rw [← h4 e.usr, hfind]
      rfl

theorem C10_merge_union_witness :
    (∀ w ∈ [workerStore [site "main" "foo"], workerStore [site "foo" "bar", site "x" "foo"],
        workerStore [site "bar" "foo"]], StoreWF w) ∧
    (storeKeys (mergeResults (workerStore [site "main" "foo"])
      [workerStore [site "foo" "bar", site "x" "foo"], workerStore [site "bar" "foo"]])).Nodup :=
  ⟨by decide,
    (C10_merge_union (workerStore [site "main" "foo"])
      [workerStore [site "foo" "bar", site "x" "foo"], workerStore [site "bar" "foo"]]
      (by decide)).1⟩

/-! ## The path cap on a fan -/

theorem len_foldl_arrayAppend (l : List String) (a : dynArray) :
    (l.foldl arrayAppend a).len = a.len + l.length := by
  induction l generalizing a with
  | nil => simp
  | cons x rest ih =>
    rw [List.foldl_cons, ih, len_arrayAppend, List.length_cons]
    omega

theorem fanName_injective : Function.Injective fanName := by
  intro i j h
  unfold fanName at h
  have := congrArg (fun s => s.data.length) h
  simp only [List.length_replicate] at this
  omega

theorem fanName_ne_t (i : Nat) : ¬ "t" = fanName i := by
  intro h
  have := congrArg (fun s => s.data.head?) h
  simp [fanName, List.replicate_succ] at this

theorem HASH_FIND_fanStore_t (n : Nat) :
    ∃ d, HASH_FIND (fanStore n) "t" = some d ∧
      d.callers.toList = (List.range n).map fanName ∧ d.callers.len = n := by
  refine ⟨_, by unfold fanStore; rw [HASH_FIND_cons, if_pos rfl], ?_, ?_⟩
  · simp only
    rw [toList_foldl_arrayAppend, toList_initDynArray, List.nil_append]
  · simp only
    rw [len_foldl_arrayAppend]
    simp [initDynArray]

theorem HASH_FIND_fanStore_root (n i : Nat) (hi : i < n) :
    ∃ d, HASH_FIND (fanStore n) (fanName i) = some d ∧ d.callers.len = 0 := by
  unfold fanStore
  rw [HASH_FIND_cons, if_neg (fanName_ne_t i)]
  have hsome : (HASH_FIND ((List.range n).map (fun i =>
      ({ usr := fanName i, displayName := fanName i ++ ":demo.c:1",
         calls := arrayAppend initDynArray "t", callers := initDynArray, tu := 0,
         seen := 0 } : functionDecl_t))) (fanName i)).isSome := by
    rw [HASH_FIND_isSome_iff]
    exact ⟨_, List.mem_map.2 ⟨i, List.mem_range.2 hi, rfl⟩, rfl⟩
  cases hd : HASH_FIND ((List.range n).map (fun i =>
      ({ usr := fanName i, displayName := fanName i ++ ":demo.c:1",
         calls := arrayAppend initDynArray "t", callers := initDynArray, tu := 0,
         seen := 0 } : functionDecl_t))) (fanName i) with
  | none => rw [hd] at hsome; simp at hsome
  | some d =>
    refine ⟨d, rfl, ?_⟩
    obtain ⟨j, _, hj⟩ := List.mem_map.1 (HASH_FIND_mem hd)
    rw [← hj]
    rfl

theorem Closed_fanStore (n : Nat) : Closed (fanStore n) := by
  intro d hd
  unfold fanStore at hd
  rcases List.mem_cons.1 hd with h | h
  · subst h
    refine ⟨by simp [toList_initDynArray], ?_⟩
    intro x hx
    simp only at hx
    rw [toList_foldl_arrayAppend, toList_initDynArray, List.nil_append] at hx
    obtain ⟨i, hi, hx2⟩ := List.mem_map.1 hx
    obtain ⟨e, he, _⟩ := HASH_FIND_fanStore_root n i (List.mem_range.1 hi)
    rw [← hx2, he]
    rfl
  · obtain ⟨i, _, hi⟩ := List.mem_map.1 h
    subst hi
    refine ⟨?_, by simp [toList_initDynArray]⟩
    intro x hx
    simp only [toList_arrayAppend, toList_initDynArray, List.nil_append,
      List.mem_singleton] at hx
    subst hx
    obtain ⟨e, he, _⟩ := HASH_FIND_fanStore_t n
    rw [he]
    rfl

theorem fanStore_roots (n : Nat) (hn : 0 < n) (r : String) :
    r ∈ (List.range n).map fanName ↔ CallerReach (fanStore n) "t" r ∧ IsRoot (fanStore n) r := by
  obtain ⟨dt, hdt, hcallers, hlen⟩ := HASH_FIND_fanStore_t n
  constructor
  · intro hr
    obtain ⟨i, hi, hri⟩ := List.mem_map.1 hr
    subst hri
    refine ⟨Relation.ReflTransGen.single ?_, HASH_FIND_fanStore_root n i (List.mem_range.1 hi)⟩
    simp only [callersOf, hdt, hcallers]
    exact hr
  · rintro ⟨_, d, hd, hroot⟩
    have hmem := HASH_FIND_mem hd
    have husr := HASH_FIND_usr hd
    unfold fanStore at hmem
    rcases List.mem_cons.1 hmem with h | h
    · exfalso
      have hr : r = "t" := by rw [← husr, h]
      subst hr
      rw [hdt] at hd
      simp only [Option.some.injEq] at hd
      subst hd
      omega
    · obtain ⟨i, hi, hdi⟩ := List.mem_map.1 h
      rw [← husr, ← hdi]
      exact List.mem_map.2 ⟨i, hi, rfl⟩

/-- The cap at work: with 301 roots calling the target the query ends in exit
code 1, with 300 it returns 300 paths. -/
theorem findCallPaths_fan (cp0 : callpaths_t) :
    findCallPaths (fanStore 301) "t" cp0 = .exit 1 ∧
      ∃ s, findCallPaths (fanStore 300) "t" cp0 = .ret s ∧
        s.callpathsOut.toList.length = 300 := by
  have ht : ∀ n, (HASH_FIND (fanStore n) "t").isSome := by
    intro n
    obtain ⟨d, hd, _⟩ := HASH_FIND_fanStore_t n
    rw [hd]; rfl
  have hnd : ∀ n, ((List.range n).map fanName).Nodup :=
    fun n => (List.nodup_range n).map fanName_injective
  constructor
  · refine (findCallPaths_exit1_iff (fanStore 301) "t" cp0 (Closed_fanStore 301) (ht 301)).2
      ⟨(List.range 301).map fanName, hnd 301, by simp [MAX_CALLPATH], ?_⟩
    intro r hr
    exact (fanStore_roots 301 (by omega) r).1 hr
  · exact findCallPaths_at_cap (fanStore 300) "t" cp0 (Closed_fanStore 300) (ht 300)
      ((List.range 300).map fanName) (hnd 300) (fanStore_roots 300 (by omega))
      (by simp [MAX_CALLPATH])

/-- When two workers hold the same symbol under different display names, the
merged entity keeps the name of the lower-indexed worker and the union of the
edges. -/
theorem mergeResults_first_name_wins :
    (HASH_FIND
      (mergeResults (workerStore [site "main" "foo"])
        [workerStore [⟨some ⟨"foo", "foo", "other.c", 7⟩, cursorOf "bar", 1⟩]]) "foo").map
      (fun d => (d.displayName, d.calls.toList, d.callers.toList)) =
      some ("foo:demo.c:1", ["bar"], ["main"]) := by
  decide

/-! ## Idempotence of the deduplicating insertion and of the merge -/

theorem deduplicatingInsert_of_mem (a : dynArray) (x : String) (h : x ∈ a.toList) :
    deduplicatingInsert a x = a := by
  unfold deduplicatingInsert
  have : (a.data.take a.len).any (fun s => s == x) = true := by
    rw [List.any_eq_true]
    exact ⟨x, h, by simp⟩
  rw [if_pos this]

theorem foldl_deduplicatingInsert_of_subset (l : List String) (a : dynArray)
    (h : ∀ x ∈ l, x ∈ a.toList) : l.foldl deduplicatingInsert a = a := by
  induction l with
  | nil => rfl
  | cons x rest ih =>
    rw [List.foldl_cons, deduplicatingInsert_of_mem a x (h x (List.mem_cons_self _ _))]
    exact ih (fun y hy => h y (List.mem_cons_of_mem _ hy))

theorem absorb_of_subset (d o : functionDecl_t)
    (hcalls : ∀ x ∈ d.calls.toList, x ∈ o.calls.toList)
    (hcallers : ∀ x ∈ d.callers.toList, x ∈ o.callers.toList) : absorb d o = o := by
  unfold absorb
  rw [foldl_deduplicatingInsert_of_subset _ _ hcalls,
    foldl_deduplicatingInsert_of_subset _ _ hcallers]

theorem updateDecl_of_fixed (g : List functionDecl_t) (k : String)
    (f : functionDecl_t → functionDecl_t) (o : functionDecl_t)
    (h : HASH_FIND g k = some o) (hf : f o = o) : updateDecl g k f = g := by
  induction g with
  | nil => rfl
  | cons e rest ih =>
    rw [HASH_FIND_cons] at h
    unfold updateDecl
    by_cases he : e.usr = k
    · rw [if_pos he] at h
      simp only [Option.some.injEq] at h
      subst h
      have hb : (e.usr == k) = true := by simpa using he
      rw [hb, if_pos rfl, hf]
    · rw [if_neg he] at h
      have hb : (e.usr == k) = false := by simpa using he
      rw [hb, if_neg (by simp), ih h]

theorem mergeDecl_noop (g : List functionDecl_t) (d o : functionDecl_t)
    (h : HASH_FIND g d.usr = some o)
    (hcalls : ∀ x ∈ d.calls.toList, x ∈ o.calls.toList)
    (hcallers : ∀ x ∈ d.callers.toList, x ∈ o.callers.toList) : mergeDecl g d = g := by
  rw [mergeDecl_found g d o h]
  exact updateDecl_of_fixed g d.usr (absorb d) o h (absorb_of_subset d o hcalls hcallers)

theorem mergeWorker_noop (acc w : List functionDecl_t)
    (h : ∀ d ∈ w, ∃ o, HASH_FIND acc d.usr = some o ∧
      (∀ x ∈ d.calls.toList, x ∈ o.calls.toList) ∧
      (∀ x ∈ d.callers.toList, x ∈ o.callers.toList)) : mergeWorker acc w = acc := by
  induction w with
  | nil => rfl
  | cons d rest ih =>
    obtain ⟨o, ho, h1, h2⟩ := h d (List.mem_cons_self _ _)
    simp only [mergeWorker, List.foldl_cons]
    rw [mergeDecl_noop acc d o ho h1 h2]
    exact ih (fun e he => h e (List.mem_cons_of_mem _ he))

/-- Claim C11 (merge idempotence): merging a worker table all of whose symbols
are keys of the accumulated table, and all of whose calls and callers lists
are contained in the corresponding accumulated lists, leaves the accumulated
table unchanged, entity for entity and slot for slot; in particular merging a
table with one entity per key into itself changes nothing. -/
theorem C11_merge_idempotent (acc w : List functionDecl_t)
    (h : ∀ d ∈ w, ∃ o, HASH_FIND acc d.usr = some o ∧
      (∀ x ∈ d.calls.toList, x ∈ o.calls.toList) ∧
      (∀ x ∈ d.callers.toList, x ∈ o.callers.toList)) :
    mergeWorker acc w = acc ∧ ((storeKeys acc).Nodup → mergeWorker acc acc = acc) := by
  refine ⟨mergeWorker_noop acc w h, fun hnd => mergeWorker_noop acc acc ?_⟩
  intro d hd
  exact ⟨d, mem_HASH_FIND acc hnd d hd, fun _ hx => hx, fun _ hx => hx⟩

theorem C11_merge_idempotent_witness :
    (∀ d ∈ workerStore [site "foo" "bar"],
      ∃ o, HASH_FIND (workerStore [site "main" "foo", site "foo" "bar"]) d.usr = some o ∧
        (∀ x ∈ d.calls.toList, x ∈ o.calls.toList) ∧
        (∀ x ∈ d.callers.toList, x ∈ o.callers.toList)) ∧
    mergeWorker (workerStore [site "main" "foo", site "foo" "bar"])
        (workerStore [site "foo" "bar"]) =
      workerStore [site "main" "foo", site "foo" "bar"] :=
  ⟨by decide,
    (C11_merge_idempotent (workerStore [site "main" "foo", site "foo" "bar"])
      (workerStore [site "foo" "bar"]) (by decide)).1⟩

theorem wf_initDynArray : initDynArray.WF := by
  simp [dynArray.WF, initDynArray, BUILTIN_STORAGE_SIZE]

theorem length_setSlot_le {α : Type} (buffer : List α) (i n : Nat) (x : α)
    (hi : i + 1 ≤ n) (hb : buffer.length ≤ n) : (setSlot buffer i x).length ≤ n := by
  unfold setSlot
  simp only [List.length_append, List.length_take, List.length_cons, List.length_drop]
  omega

theorem WF_arrayAppend (a : dynArray) (x : String) (h : a.WF) : (arrayAppend a x).WF := by
  obtain ⟨h1, h2, h3⟩ := h
  refine ⟨wf_arrayAppend a x h1, ?_, ?_⟩
  · unfold arrayAppend
    split
    · rename_i hfull
      simp only
      apply length_setSlot_le
      · omega
      · simp only [List.length_take]; omega
    · rename_i hfull
      simp only
      apply length_setSlot_le
      · omega
      · exact h2
  · unfold arrayAppend
    split <;> simp only <;> omega

theorem WF_deduplicatingInsert (a : dynArray) (x : String) (h : a.WF) :
    (deduplicatingInsert a x).WF := by
  unfold deduplicatingInsert
  split
  · exact h
  · exact WF_arrayAppend a x h

theorem WF_foldl_deduplicatingInsert (l : List String) (a : dynArray) (h : a.WF) :
    (l.foldl deduplicatingInsert a).WF := by
  induction l generalizing a with
  | nil => exact h
  | cons x rest ih => exact ih _ (WF_deduplicatingInsert a x h)

theorem length_toList_of_WF (a : dynArray) (h : a.WF) : a.toList.length = a.len := by
  unfold dynArray.toList
  rw [List.length_take]
  exact Nat.min_eq_left h.1

/-- The contents after a sequence of deduplicating insertions: the old
contents followed by the new values in order of first occurrence. -/
theorem toList_foldl_deduplicatingInsert (l : List String) :
    (l.foldl deduplicatingInsert initDynArray).toList = l.reverse.dedup.reverse := by
  induction l using List.reverseRecOn with
  | nil => rfl
  | append_singleton l x ih =>
    rw [List.foldl_append, List.foldl_cons, List.foldl_nil, toList_deduplicatingInsert, ih,
      List.reverse_append, List.reverse_singleton, List.singleton_append]
    by_cases hx : x ∈ l
    · have h1 : x ∈ l.reverse.dedup.reverse := by simpa using hx
      have h2 : x ∈ l.reverse := by simpa using hx
      rw [if_pos h1, List.dedup_cons_of_mem h2]
    · have h1 : ¬ x ∈ l.reverse.dedup.reverse := by simpa using hx
      have h2 : ¬ x ∈ l.reverse := by simpa using hx
      rw [if_neg h1, List.dedup_cons_of_not_mem h2, List.reverse_cons]

/-- Claim C12 (dedup idempotence): insert any sequence `l` of strings, with any
repetitions, into a freshly initialised array.  The array then holds the
distinct values of `l` in order of first insertion, no string twice; its length
is the number of distinct values; the representation stays within its
capacity however far the storage had to grow; and inserting any value of `l`
once more changes nothing. -/
theorem C12_dedup_idempotent (l : List String) :
    (l.foldl deduplicatingInsert initDynArray).toList = l.reverse.dedup.reverse ∧
    (l.foldl deduplicatingInsert initDynArray).toList.Nodup ∧
    (∀ x, x ∈ (l.foldl deduplicatingInsert initDynArray).toList ↔ x ∈ l) ∧
    (l.foldl deduplicatingInsert initDynArray).len = l.toFinset.card ∧
    (l.foldl deduplicatingInsert initDynArray).toList.length = l.toFinset.card ∧
    (l.foldl deduplicatingInsert initDynArray).WF ∧
    (∀ x ∈ l, deduplicatingInsert (l.foldl deduplicatingInsert initDynArray) x =
      l.foldl deduplicatingInsert initDynArray) := by
  have hwf := WF_foldl_deduplicatingInsert l initDynArray wf_initDynArray
  have hmem : ∀ x, x ∈ (l.foldl deduplicatingInsert initDynArray).toList ↔ x ∈ l := by
    intro x
    rw [mem_foldl_deduplicatingInsert, toList_initDynArray]
    simp
  have hlen : (l.foldl deduplicatingInsert initDynArray).toList.length = l.toFinset.card := by
    rw [toList_foldl_deduplicatingInsert, List.length_reverse, List.card_toFinset]
    exact (List.reverse_perm l).dedup.length_eq
  refine ⟨toList_foldl_deduplicatingInsert l,
    nodup_foldl_deduplicatingInsert l initDynArray (by simp [toList_initDynArray]), hmem,
    ?_, hlen, hwf, ?_⟩
  · rw [← length_toList_of_WF _ hwf, hlen]
  · intro x hx
    exact deduplicatingInsert_of_mem _ x ((hmem x).2 hx)

set_option maxRecDepth 8000 in
/-- The storage grows: 31 distinct values, some inserted twice, end up in a
buffer of 60 slots, in order of first insertion. -/
theorem deduplicatingInsert_grows :
    ((chainNames 31 ++ ["f3", "f30", "f0"]).foldl deduplicatingInsert initDynArray).toList =
        chainNames 31 ∧
      ((chainNames 31 ++ ["f3", "f30", "f0"]).foldl deduplicatingInsert initDynArray).len = 31 ∧
      ((chainNames 31 ++ ["f3", "f30", "f0"]).foldl deduplicatingInsert initDynArray).capacity =
        60 := by
  decide

/-! ## Shards -/

theorem commandsPerThread_pos (total : Nat) : 0 < commandsPerThread total :=
  Nat.succ_pos _

theorem lt_commandsPerThread_mul (total : Nat) :
    total < maxThreads * commandsPerThread total := by
  simp only [commandsPerThread, maxThreads]
  omega

/-- Up to `4294967289` commands no product `k * commandsPerThread` with
`k ≤ 10` reaches `2 ^ 32`. -/
theorem mul_commandsPerThread_lt (total k : Nat) (hmax : total ≤ 4294967289)
    (hk : k ≤ maxThreads) : k * commandsPerThread total < wordSize := by
  have h1 : commandsPerThread total ≤ 429496729 := by
    simp only [commandsPerThread, maxThreads]
    omega
  have h2 : k * commandsPerThread total ≤ 10 * 429496729 := Nat.mul_le_mul hk h1
  have h3 : wordSize = 4294967296 := rfl
  omega

theorem wrap_mul_commandsPerThread (total k : Nat) (hmax : total ≤ 4294967289)
    (hk : k ≤ maxThreads) :
    (k * commandsPerThread total) % wordSize = k * commandsPerThread total :=
  Nat.mod_eq_of_lt (mul_commandsPerThread_lt total k hmax hk)

/-- The number of workers launched for `total` commands. -/
theorem workers_lt_iff (total k : Nat) :
    k < (total + commandsPerThread total - 1) / commandsPerThread total ↔
      k * commandsPerThread total < total := by
  have hc := commandsPerThread_pos total
  rw [Nat.lt_iff_add_one_le, Nat.le_div_iff_mul_le hc, Nat.add_mul]
  omega

theorem workers_le_max (total : Nat) :
    (total + commandsPerThread total - 1) / commandsPerThread total ≤ maxThreads := by
  by_contra h
  have h1 : maxThreads < (total + commandsPerThread total - 1) / commandsPerThread total := by
    omega
  have := (workers_lt_iff total maxThreads).1 h1
  have := lt_commandsPerThread_mul total
  omega

theorem spawnLoop_eq (total n : Nat) (hmax : total ≤ 4294967289)
    (hn : n = (total + commandsPerThread total - 1) / commandsPerThread total) :
    ∀ (fuel k : Nat) (results : List parseInfo_t), k ≤ n → n - k < fuel →
      spawnLoop total fuel k results =
        .ret (results ++ (List.range' k (n - k)).map (shardInfo total)) := by
  intro fuel
  induction fuel with
  | zero => intro k results _ h; omega
  | succ fuel ih =>
    intro k results hk hfuel
    have hmax2 := workers_le_max total
    unfold spawnLoop
    rw [wrap_mul_commandsPerThread total k hmax (by omega)]
    by_cases hlt : k * commandsPerThread total < total
    · have hkn : k < n := by rw [hn]; exact (workers_lt_iff total k).2 hlt
      rw [if_pos hlt, if_neg (by omega), ih (k + 1) _ (by omega) (by omega)]
      have : n - k = (n - (k + 1)) + 1 := by omega
      rw [this, List.range'_succ]
      simp
    · have hkn : ¬ k < n := by rw [hn]; exact fun h => hlt ((workers_lt_iff total k).1 h)
      have : n - k = 0 := by omega
      rw [if_neg hlt, this]
      simp

/-- Up to `4294967289` commands the coordinator returns from the spawn loop,
having launched workers `0 .. n-1` for `n` the number of shards. -/
theorem spawnWorkers_eq (total : Nat) (hmax : total ≤ 4294967289) :
    spawnWorkers total =
      .ret ((List.range ((total + commandsPerThread total - 1) / commandsPerThread total)).map
        (shardInfo total)) := by
  unfold spawnWorkers
  rw [spawnLoop_eq total _ hmax rfl (maxThreads + 1) 0 [] (Nat.zero_le _)
    (by have := workers_le_max total; omega)]
  simp [List.range_eq_range']

theorem commandIndices_shardInfo (total k : Nat) (hmax : total ≤ 4294967289)
    (hk : k < maxThreads) :
    commandIndices (shardInfo total k) =
      List.range' (k * commandsPerThread total)
        (min ((k + 1) * commandsPerThread total) total - k * commandsPerThread total) := by
  have h1 := wrap_mul_commandsPerThread total k hmax (by omega)
  have h2 := wrap_mul_commandsPerThread total (k + 1) hmax (by omega)
  have h3 : total % wordSize = total :=
    Nat.mod_eq_of_lt (by have : wordSize = 4294967296 := rfl; omega)
  have h4 : k * commandsPerThread total + commandsPerThread total =
      (k + 1) * commandsPerThread total := by rw [Nat.add_mul, Nat.one_mul]
  unfold commandIndices shardInfo
  simp only
  rw [h1, h1, h3, h4, h2]

theorem mem_commandIndices_shardInfo (total k j : Nat) (hmax : total ≤ 4294967289)
    (hk : k < maxThreads) :
    j ∈ commandIndices (shardInfo total k) ↔
      k * commandsPerThread total ≤ j ∧
        j < k * commandsPerThread total + commandsPerThread total ∧ j < total := by
  rw [commandIndices_shardInfo total k hmax hk, List.mem_range']
  constructor
  · rintro ⟨i, hi, rfl⟩
    rw [Nat.add_mul] at hi
    omega
  · rintro ⟨h1, h2, h3⟩
    refine ⟨j - k * commandsPerThread total, ?_, by omega⟩
    rw [Nat.add_mul]
    omega

theorem flatten_commandIndices (total : Nat) (hmax : total ≤ 4294967289) :
    ∀ m, m ≤ maxThreads →
      ((List.range m).map (fun k => commandIndices (shardInfo total k))).flatten =
        List.range (min (m * commandsPerThread total) total) := by
  intro m
  induction m with
  | zero => intro _; simp
  | succ m ih =>
    intro hm
    rw [List.range_succ, List.map_append, List.flatten_append, ih (by omega)]
    simp only [List.map_cons, List.map_nil, List.flatten_cons, List.flatten_nil,
      List.append_nil]
    rw [commandIndices_shardInfo total m hmax (by omega), List.range_eq_range',
      List.range_eq_range']
    by_cases h : m * commandsPerThread total ≤ total
    · rw [Nat.min_eq_left h]
      have := List.range'_append 0 (m * commandsPerThread total)
        (min ((m + 1) * commandsPerThread total) total - m * commandsPerThread total) 1
      simp only [Nat.zero_add, Nat.one_mul] at this
      rw [this]
      congr 1
      rw [Nat.add_mul] at *
      omega
    · have h1 : min (m * commandsPerThread total) total = total := by omega
      have h2 : min ((m + 1) * commandsPerThread total) total = total := by
        rw [Nat.add_mul]; omega
      rw [h1, h2]
      have : total - m * commandsPerThread total = 0 := by omega
      rw [this]
      simp

/-- The shards of the launched workers, one after the other, are the command
indices `0 .. total-1`. -/
theorem flatten_shards (total : Nat) (hmax : total ≤ 4294967289) :
    (((List.range ((total + commandsPerThread total - 1) / commandsPerThread total)).map
      (shardInfo total)).map commandIndices).flatten = List.range total := by
  rw [List.map_map]
  have := flatten_commandIndices total hmax
    ((total + commandsPerThread total - 1) / commandsPerThread total) (workers_le_max total)
  simp only [Function.comp_def]
  rw [this]
  congr 1
  apply Nat.min_eq_right
  by_contra h
  have h1 := (workers_lt_iff total
    ((total + commandsPerThread total - 1) / commandsPerThread total)).2 (by omega)
  omega

/-- The partition of the commands among the workers, up to `4294967289`
commands. -/
theorem shards_partition (total : Nat) (htotal : 1 ≤ total) (hmax : total ≤ 4294967289) :
    ∃ infos, spawnWorkers total = .ret infos ∧
      1 ≤ infos.length ∧ infos.length ≤ maxThreads ∧
      (∀ info ∈ infos, commandIndices info ≠ []) ∧
      List.Pairwise (fun a b => List.Disjoint (commandIndices a) (commandIndices b)) infos ∧
      (infos.map commandIndices).flatten = List.range total ∧
      ∀ j, j < total → (infos.filter (fun info => j ∈ commandIndices info)).length = 1 := by
  have hc := commandsPerThread_pos total
  have hflat := flatten_shards total hmax
  have hle := workers_le_max total
  refine ⟨_, spawnWorkers_eq total hmax, ?_, ?_, ?_, ?_, hflat, ?_⟩
  · rw [List.length_map, List.length_range]
    exact (workers_lt_iff total 0).2 (by omega)
  · rw [List.length_map, List.length_range]
    exact workers_le_max total
  · intro info hinfo
    obtain ⟨k, hk, rfl⟩ := List.mem_map.1 hinfo
    have hkn := List.mem_range.1 hk
    have hlt := (workers_lt_iff total k).1 hkn
    intro hnil
    have : k * commandsPerThread total ∈ commandIndices (shardInfo total k) :=
      (mem_commandIndices_shardInfo total k _ hmax (by omega)).2 ⟨le_refl _, by omega, hlt⟩
    rw [hnil] at this
    simp at this
  · have hnd : ((((List.range ((total + commandsPerThread total - 1) /
        commandsPerThread total)).map (shardInfo total)).map commandIndices).flatten).Nodup := by
      rw [hflat]; exact List.nodup_range total
    have := (List.nodup_flatten.1 hnd).2
    rw [List.pairwise_map] at this
    exact this
  · intro j hj
    rw [List.filter_map, List.length_map, ← List.countP_eq_length_filter]
    have hmem : j / commandsPerThread total ∈ List.range
        ((total + commandsPerThread total - 1) / commandsPerThread total) := by
      rw [List.mem_range, workers_lt_iff]
      exact lt_of_le_of_lt (Nat.div_mul_le_self j _) hj
    have hone := List.count_eq_one_of_mem (List.nodup_range _) hmem
    rw [List.count_eq_countP] at hone
    refine Eq.trans ?_ hone
    apply List.countP_congr
    intro k hk
    have hkn := List.mem_range.1 hk
    simp only [Function.comp_apply, decide_eq_true_eq, beq_iff_eq]
    rw [mem_commandIndices_shardInfo total k j hmax (by omega)]
    constructor
    · rintro ⟨h1, h2, _⟩
      symm
      exact Nat.div_eq_of_lt_le h1 (by rw [Nat.add_mul]; omega)
    · intro hk
      subst hk
      have h1 := Nat.div_mul_le_self j (commandsPerThread total)
      have h2 := Nat.lt_div_mul_add hc (a := j)
      exact ⟨h1, by omega, hj⟩

/-- From `4294967290` commands on the `int` product of the loop test wraps:
with counter 10 it is `10 * 429496730 - 2 ^ 32 = 4`, the test passes once more,
and the coordinator stops in `bug("thread spawn math is off")`. -/
theorem spawnWorkers_overflow (total : Nat) (hlo : 4294967290 ≤ total)
    (hhi : total < 4294967296) : spawnWorkers total = .exit 100 := by
  interval_cases total <;> decide

/-- Claim C19 (shards partition the command list), the code at the failing
input and around it.  For 4294967295 commands, and for every number of
commands from 4294967290 on, the spawn loop passes its test at counter 10 and
ends in exit code 100; the worker launched as number 9 for 4294967290 commands
has an empty index range.  For every number `total` of commands with
`1 ≤ total ≤ 4294967289` the spawn loop returns, having launched between 1 and
10 workers; every worker's index range is non-empty, the ranges are pairwise
disjoint, put one after the other they are exactly `0, 1, ..., total - 1`, and
every command index lies in the range of exactly one worker. -/
theorem C19_shards_partition (total : Nat) (htotal : 1 ≤ total) (hmax : total ≤ 4294967289) :
    spawnWorkers 4294967295 = .exit 100 ∧
    (∀ n, 4294967290 ≤ n → n < 4294967296 → spawnWorkers n = .exit 100) ∧
    ((9 * commandsPerThread 4294967290) % wordSize < 4294967290 ∧
      commandIndices (shardInfo 4294967290 9) = []) ∧
    ∃ infos, spawnWorkers total = .ret infos ∧
      1 ≤ infos.length ∧ infos.length ≤ maxThreads ∧
      (∀ info ∈ infos, commandIndices info ≠ []) ∧
      List.Pairwise (fun a b => List.Disjoint (commandIndices a) (commandIndices b)) infos ∧
      (infos.map commandIndices).flatten = List.range total ∧
      ∀ j, j < total → (infos.filter (fun info => j ∈ commandIndices info)).length = 1 :=
  ⟨by decide, spawnWorkers_overflow, by decide, shards_partition total htotal hmax⟩

theorem C19_shards_partition_witness :
    (1 ≤ 25 ∧ 25 ≤ 4294967289) ∧
    spawnWorkers 4294967295 = .exit 100 ∧
    ∃ infos, spawnWorkers 25 = .ret infos ∧
      1 ≤ infos.length ∧ infos.length ≤ maxThreads ∧
      (∀ info ∈ infos, commandIndices info ≠ []) ∧
      List.Pairwise (fun a b => List.Disjoint (commandIndices a) (commandIndices b)) infos ∧
      (infos.map commandIndices).flatten = List.range 25 ∧
      ∀ j, j < 25 → (infos.filter (fun info => j ∈ commandIndices info)).length = 1 :=
  ⟨⟨by decide, by decide⟩,
    (C19_shards_partition 25 (by decide) (by decide)).1,
    (C19_shards_partition 25 (by decide) (by decide)).2.2.2⟩

/-- The shards in numbers: 25 commands go to 9 workers in shards of 3 (the last
one holds a single command), 10 commands go to 5 workers in shards of 2. -/
theorem spawnWorkers_examples :
    (spawnWorkers 25).map (fun infos => infos.map commandIndices) =
        .ret [[0, 1, 2], [3, 4, 5], [6, 7, 8], [9, 10, 11], [12, 13, 14], [15, 16, 17],
          [18, 19, 20], [21, 22, 23], [24]] ∧
      (spawnWorkers 10).map (fun infos => infos.map commandIndices) =
        .ret [[0, 1], [2, 3], [4, 5], [6, 7], [8, 9]] := by
  decide

/-- Counterexample to claim C13 as stated: for 10 commands the shard size is 2,
not `ceil(10 / 10) = 1`; and for 4294967290 commands the worker with number 9
is launched (the loop test passes at counter 9) with an empty index range,
although `9 * shardSize` is below the number of commands. -/
theorem C13_shard_size_counterexample :
    commandsPerThread 10 ≠ 10 ⌈/⌉ maxThreads ∧
      ((9 * commandsPerThread 4294967290) % wordSize < 4294967290 ∧
        9 * commandsPerThread 4294967290 < 4294967290 ∧
        commandIndices (shardInfo 4294967290 9) = []) := by
  decide

/-- Claim C13, amended: the shard size is `total / 10 + 1` with the division
rounded down; this is `ceil(total / 10)` when `total` is not a multiple of 10
and one more than that when it is; and, for up to `4294967289` commands, the
spawn loop returns and the worker launched as number `i` is assigned exactly
the command indices in `[i * shardSize, i * shardSize + shardSize)` that are
below `total`. -/
theorem C13_shard_size (total : Nat) :
    commandsPerThread total = total / maxThreads + 1 ∧
    (total % maxThreads ≠ 0 → commandsPerThread total = total ⌈/⌉ maxThreads) ∧
    (total % maxThreads = 0 → commandsPerThread total = total ⌈/⌉ maxThreads + 1) ∧
    (total ≤ 4294967289 →
      ∃ infos, spawnWorkers total = .ret infos ∧
        ∀ (i : Nat) (hi : i < infos.length) (j : Nat),
          j ∈ commandIndices infos[i] ↔
            i * commandsPerThread total ≤ j ∧
              j < i * commandsPerThread total + commandsPerThread total ∧ j < total) := by
  refine ⟨rfl, ?_, ?_, fun hmax => ⟨_, spawnWorkers_eq total hmax, ?_⟩⟩
  · intro h
    rw [Nat.ceilDiv_eq_add_pred_div]
    simp only [commandsPerThread, maxThreads] at h ⊢
    omega
  · intro h
    rw [Nat.ceilDiv_eq_add_pred_div]
    simp only [commandsPerThread, maxThreads] at h ⊢
    omega
  · intro i hi j
    have hle := workers_le_max total
    have hi2 : i < (total + commandsPerThread total - 1) / commandsPerThread total := by
      simpa using hi
    rw [List.getElem_map, List.getElem_range]
    exact mem_commandIndices_shardInfo total i j hmax (by omega)

theorem C13_shard_size_witness :
    (25 % maxThreads ≠ 0 ∧ 20 % maxThreads = 0 ∧ 25 ≤ 4294967289) ∧
    commandsPerThread 25 = 25 ⌈/⌉ maxThreads ∧
    commandsPerThread 20 = 20 ⌈/⌉ maxThreads + 1 ∧
    ∃ infos, spawnWorkers 25 = .ret infos ∧
      ∀ (i : Nat) (hi : i < infos.length) (j : Nat),
        j ∈ commandIndices infos[i] ↔
          i * commandsPerThread 25 ≤ j ∧
            j < i * commandsPerThread 25 + commandsPerThread 25 ∧ j < 25 :=
  ⟨⟨by decide, by decide, by decide⟩,
    (C13_shard_size 25).2.1 (by decide), (C13_shard_size 20).2.2.1 (by decide),
    (C13_shard_size 25).2.2.2 (by decide)⟩

/-! ## The worker's list of processed files -/

theorem setSlot_append_replicate {α : Type} (pre : List α) (k : Nat) (x y : α) :
    setSlot (pre ++ List.replicate (k + 1) y) pre.length x =
      pre ++ [x] ++ List.replicate k y := by
  unfold setSlot
  rw [List.take_left' rfl, List.drop_append]
  simp [List.replicate_succ]

theorem parseStep_fold (commands : List CompileCommand) :
    ∀ (idxs : List Nat) (info0 : parseInfo_t) (pre : List (Option processedFile_t)) (k : Nat),
      info0.processedFiles = pre ++ List.replicate k none →
      info0.nProcessedFiles = pre.length → idxs.length ≤ k →
      (idxs.foldl (parseStep commands) info0).nProcessedFiles = pre.length + idxs.length ∧
      (idxs.foldl (parseStep commands) info0).processedFiles =
        pre ++ idxs.map (slotOf commands) ++ List.replicate (k - idxs.length) none ∧
      (idxs.foldl (parseStep commands) info0).nCommands = info0.nCommands := by
  intro idxs
  induction idxs with
  | nil => intro info0 pre k h1 h2 _; simp [h1, h2]
  | cons i rest ih =>
    intro info0 pre k h1 h2 hk
    simp only [List.length_cons] at hk
    obtain ⟨k2, rfl⟩ : ∃ k2, k = k2 + 1 := ⟨k - 1, by omega⟩
    rw [List.foldl_cons]
    have hstep : (parseStep commands info0 i).processedFiles =
        (pre ++ [slotOf commands i]) ++ List.replicate k2 none ∧
        (parseStep commands info0 i).nProcessedFiles = (pre ++ [slotOf commands i]).length ∧
        (parseStep commands info0 i).nCommands = info0.nCommands := by
      unfold parseStep slotOf
      cases hc : commands.get? i with
      | none =>
        simp only [Option.none_bind, h1, h2, List.length_append, List.length_singleton]
        refine ⟨?_, trivial, trivial⟩
        simp [List.replicate_succ]
      | some command =>
        cases hp : command.parsed with
        | none =>
          simp only [Option.some_bind, hp, Option.map_none', h1, h2, List.length_append,
            List.length_singleton]
          refine ⟨?_, trivial, trivial⟩
          simp [List.replicate_succ]
        | some u =>
          simp only [Option.some_bind, hp, Option.map_some', h1, h2, List.length_append,
            List.length_singleton]
          refine ⟨?_, trivial, trivial⟩
          rw [setSlot_append_replicate]
    obtain ⟨h3, h4, h5⟩ := ih (parseStep commands info0 i) (pre ++ [slotOf commands i]) k2
      hstep.1 hstep.2.1 (by omega)
    refine ⟨?_, ?_, h5.trans hstep.2.2⟩
    · rw [h3]; simp; omega
    · rw [h4]
      simp only [List.map_cons, List.length_cons, List.append_assoc, List.singleton_append]
      congr 3
      omega

/-- What the worker leaves behind: `nProcessedFiles` counts every command of
the shard, parsed or not, and the slot of a command is written only if the
command parsed. -/
theorem parse_spec (commands : List CompileCommand) (info : parseInfo_t) :
    (parse commands info).nProcessedFiles = (commandIndices info).length ∧
    (parse commands info).processedFiles =
      (commandIndices info).map (slotOf commands) ++
        List.replicate (info.nCommands - (commandIndices info).length) none := by
  have hlen : (commandIndices info).length ≤ info.nCommands := by
    unfold commandIndices
    rw [List.length_range']
    have hw : wordSize = 4294967296 := rfl
    rw [hw]
    omega
  have := parseStep_fold commands (commandIndices info)
    { info with callgraph := [], nProcessedFiles := 0,
                processedFiles := List.replicate info.nCommands none }
    [] info.nCommands (by simp) rfl hlen
  unfold parse
  refine ⟨by rw [this.1]; simp, by rw [this.2.1]; simp⟩

/-- Claim C14 (recorded units), the code at a failing input: a worker whose
shard is the single command `a.c`, which fails to parse, reports
`nProcessedFiles = 1` with a first slot that was never written; and the worker
of the first two of ten commands, of which the first fails, reports
`nProcessedFiles = 2` with the entry of the second command at index 1 behind an
unwritten slot.  The count is that of the commands of the shard, not of the
parsed ones. -/
theorem C14_parse_counts_failed_commands :
    (parse [{ filename := "a.c", parsed := none }] (shardInfo 1 0)).nProcessedFiles = 1 ∧
    (parse [{ filename := "a.c", parsed := none }] (shardInfo 1 0)).processedFiles = [none] ∧
    (parse sampleCommands (shardInfo 10 0)).nProcessedFiles = 2 ∧
    (parse sampleCommands (shardInfo 10 0)).processedFiles =
      [none, some { tu := 1, filename := "f1.c" }] ∧
    (∀ (commands : List CompileCommand) (info : parseInfo_t),
      (parse commands info).nProcessedFiles = (commandIndices info).length) := by
  refine ⟨by decide, by decide, by decide, by decide, fun commands info =>
    (parse_spec commands info).1⟩

/-! ## Traversals and the visited marker -/

/-- Within this range of command counts every value the coordinator and the
workers compute for a shard fits an `int`: no product or sum of lines 280, 370
and 376 overflows. -/
theorem shard_arithmetic_in_int_range (total k : Nat) (htotal : total ≤ 1952257860)
    (hk : k * commandsPerThread total < total) :
    k * commandsPerThread total + commandsPerThread total ≤ 2 ^ 31 - 1 := by
  simp only [commandsPerThread, maxThreads] at hk ⊢
  omega

theorem clearSeen_eq_map (g : List functionDecl_t) : clearSeen g = g.map forgetSeen := rfl

theorem persisted_forgetSeen (d : functionDecl_t) : persisted (forgetSeen d) = persisted d := rfl

theorem map_persisted_of_same {g g2 : List functionDecl_t}
    (h : g2.map forgetSeen = g.map forgetSeen) : g2.map persisted = g.map persisted := by
  have := congrArg (List.map persisted) h
  simpa [List.map_map, Function.comp_def, persisted_forgetSeen] using this

theorem mem_of_same {g g2 : List functionDecl_t} (h : g2.map forgetSeen = g.map forgetSeen)
    (d2 : functionDecl_t) (hd : d2 ∈ g2) : ∃ d ∈ g, forgetSeen d = forgetSeen d2 := by
  have : forgetSeen d2 ∈ g2.map forgetSeen := List.mem_map.2 ⟨d2, hd, rfl⟩
  rw [h] at this
  obtain ⟨d, hd1, hd2⟩ := List.mem_map.1 this
  exact ⟨d, hd1, hd2⟩

theorem Closed_of_same {g g2 : List functionDecl_t} (h : g2.map forgetSeen = g.map forgetSeen)
    (hc : Closed g) : Closed g2 := by
  intro d2 hd2
  obtain ⟨d, hd, hdd⟩ := mem_of_same h d2 hd2
  have h1 : d.calls = d2.calls := congrArg (fun x => x.calls) hdd
  have h2 : d.callers = d2.callers := congrArg (fun x => x.callers) hdd
  constructor
  · intro x hx
    rw [isSome_congr h x]
    exact (hc d hd).1 x (h1 ▸ hx)
  · intro x hx
    rw [isSome_congr h x]
    exact (hc d hd).2 x (h2 ▸ hx)

theorem EdgeSym_of_same {g g2 : List functionDecl_t} (h : g2.map forgetSeen = g.map forgetSeen)
    (hs : EdgeSym g) : EdgeSym g2 := by
  intro A2 hA2 B2 hB2
  obtain ⟨A, hA, hAA⟩ := mem_of_same h A2 hA2
  obtain ⟨B, hB, hBB⟩ := mem_of_same h B2 hB2
  have h1 : A.calls = A2.calls := congrArg (fun x => x.calls) hAA
  have h2 : B.callers = B2.callers := congrArg (fun x => x.callers) hBB
  have h3 : A.usr = A2.usr := congrArg (fun x => x.usr) hAA
  have h4 : B.usr = B2.usr := congrArg (fun x => x.usr) hBB
  rw [← h1, ← h2, ← h3, ← h4]
  exact hs A hA B hB

theorem findCallPaths_same (g : List functionDecl_t) (T : String) (cp0 : callpaths_t)
    (s : PathState) (h : findCallPaths g T cp0 = .ret s) :
    s.callgraph.map forgetSeen = g.map forgetSeen :=
  ((findCallpathsHelper_frame _ _ _ _ _ s h).1).trans (map_forgetSeen_clearSeen g)

theorem printCallGraph_same (g : List functionDecl_t) (R projectRoot : String)
    (showAll : Bool) (out : String) (s : PrintState)
    (h : printCallGraph g R projectRoot showAll out = .ret s) :
    s.callgraph.map forgetSeen = g.map forgetSeen :=
  ((printCallGraphRecursive_frame _ _ _ _ _ _ _ s h).1).trans (map_forgetSeen_clearSeen g)

/-- Claim C18 (traversals are read-only on the graph): when `findCallPaths` or
`printCallGraph` returns, the table holds the same entities in the same order
with the same symbol, display name, calls list, callers list and unit handle;
only visited markers may differ.  Hence the key list is unchanged, and closure
and edge symmetry carry over to the table after the query. -/
theorem C18_traversals_read_only (g : List functionDecl_t) (T : String) (cp0 : callpaths_t)
    (R projectRoot : String) (showAll : Bool) (out : String) :
    (∀ s, findCallPaths g T cp0 = .ret s →
      s.callgraph.map persisted = g.map persisted ∧
        s.callgraph.map forgetSeen = g.map forgetSeen ∧
        storeKeys s.callgraph = storeKeys g ∧
        (Closed g → Closed s.callgraph) ∧ (EdgeSym g → EdgeSym s.callgraph)) ∧
    (∀ s, printCallGraph g R projectRoot showAll out = .ret s →
      s.callgraph.map persisted = g.map persisted ∧
        s.callgraph.map forgetSeen = g.map forgetSeen ∧
        storeKeys s.callgraph = storeKeys g ∧
        (Closed g → Closed s.callgraph) ∧ (EdgeSym g → EdgeSym s.callgraph)) := by
  have key : ∀ g2 : List functionDecl_t, g2.map forgetSeen = g.map forgetSeen →
      g2.map persisted = g.map persisted ∧ g2.map forgetSeen = g.map forgetSeen ∧
        storeKeys g2 = storeKeys g ∧ (Closed g → Closed g2) ∧ (EdgeSym g → EdgeSym g2) := by
    intro g2 h
    refine ⟨map_persisted_of_same h, h, ?_, Closed_of_same h, EdgeSym_of_same h⟩
    have := congrArg (List.map functionDecl_t.usr) h
    simpa [storeKeys, List.map_map, Function.comp_def, forgetSeen] using this
  exact ⟨fun s h => key _ (findCallPaths_same g T cp0 s h),
    fun s h => key _ (printCallGraph_same g R projectRoot showAll out s h)⟩

theorem C18_traversals_read_only_witness :
    ∃ s, findCallPaths diamondStore "A" ⟨0, []⟩ = .ret s ∧
      s.callgraph.map persisted = diamondStore.map persisted ∧
      s.callgraph.map functionDecl_t.seen = [1, 1, 1, 1] := by
  have h : (findCallPaths diamondStore "A" ⟨0, []⟩).map
      (fun s => s.callgraph.map functionDecl_t.seen) = .ret [1, 1, 1, 1] := by decide
  cases hs : findCallPaths diamondStore "A" ⟨0, []⟩ with
  | ret s =>
    rw [hs] at h
    simp only [Outcome.map, Outcome.ret.injEq] at h
    exact ⟨s, rfl, ((C18_traversals_read_only diamondStore "A" ⟨0, []⟩ "A" "" true "").1 s hs).1, h⟩
  | exit code => rw [hs] at h; simp [Outcome.map] at h
  | fuelOut => rw [hs] at h; simp [Outcome.map] at h

/-- Claim C20 (the visited marker is scoped to one invocation): on two tables
that differ only in visited markers, `findCallPaths` with the same target has
the same outcome, hence returns the same paths, and `printCallGraph` with the
same arguments has the same outcome, hence prints the same output.  In
particular a query gives the same on the table a previous path search or print
left behind as on the table before it. -/
theorem C20_marker_scoped (g1 g2 : List functionDecl_t)
    (h : g1.map forgetSeen = g2.map forgetSeen) (T : String) (cp0 : callpaths_t)
    (R projectRoot : String) (showAll : Bool) (out : String) :
    findCallPaths g1 T cp0 = findCallPaths g2 T cp0 ∧
    printCallGraph g1 R projectRoot showAll out = printCallGraph g2 R projectRoot showAll out ∧
    (∀ (T0 : String) (cp : callpaths_t) (s : PathState), findCallPaths g1 T0 cp = .ret s →
      findCallPaths s.callgraph T cp0 = findCallPaths g1 T cp0 ∧
        printCallGraph s.callgraph R projectRoot showAll out =
          printCallGraph g1 R projectRoot showAll out) ∧
    (∀ (R0 root0 : String) (all0 : Bool) (out0 : String) (s : PrintState),
      printCallGraph g1 R0 root0 all0 out0 = .ret s →
      findCallPaths s.callgraph T cp0 = findCallPaths g1 T cp0 ∧
        printCallGraph s.callgraph R projectRoot showAll out =
          printCallGraph g1 R projectRoot showAll out) := by
  have key : ∀ ga gb : List functionDecl_t, ga.map forgetSeen = gb.map forgetSeen →
      findCallPaths ga T cp0 = findCallPaths gb T cp0 ∧
        printCallGraph ga R projectRoot showAll out =
          printCallGraph gb R projectRoot showAll out := by
    intro ga gb hab
    have hlen : ga.length = gb.length := by
      have := congrArg List.length hab
      simpa using this
    unfold findCallPaths printCallGraph
    rw [clearSeen_eq_map, clearSeen_eq_map, hab, hlen]
    exact ⟨rfl, rfl⟩
  exact ⟨(key g1 g2 h).1, (key g1 g2 h).2,
    fun T0 cp s hs => key _ _ (findCallPaths_same g1 T0 cp s hs),
    fun R0 root0 all0 out0 s hs => key _ _ (printCallGraph_same g1 R0 root0 all0 out0 s hs)⟩

theorem C20_marker_scoped_witness :
    diamondStore.map forgetSeen =
      (diamondStore.map (fun d => { d with seen := 1 })).map forgetSeen ∧
    findCallPaths diamondStore "A" ⟨0, []⟩ =
      findCallPaths (diamondStore.map (fun d => { d with seen := 1 })) "A" ⟨0, []⟩ :=
  ⟨by decide,
    (C20_marker_scoped diamondStore (diamondStore.map (fun d => { d with seen := 1 }))
      (by decide) "A" ⟨0, []⟩ "D" "" true "").1⟩


/-! ## Printing a function that calls itself -/

theorem HASH_FIND_clearSeen (g : List functionDecl_t) (k : String) :
    HASH_FIND (clearSeen g) k = (HASH_FIND g k).map forgetSeen := by
  rw [clearSeen_eq_map, HASH_FIND_map_forgetSeen]

theorem printCallGraph_self (g : List functionDecl_t) (u : String) (d : functionDecl_t)
    (projectRoot : String) (showAll : Bool) (out : String)
    (hd : HASH_FIND g u = some d) (hcalls : d.calls.toList = [u])
    (hshown : showAll = true ∨ strstr d.displayName projectRoot = true) :
    (printCallGraph g u projectRoot showAll out).map PrintState.stdout =
      .ret (out ++ (d.displayName ++ "\n" ++ ("  " ++ d.displayName ++ " (recursive)\n"))) := by
  obtain ⟨n, hn⟩ : ∃ n, g.length + 1 = n + 2 := by
    cases g with
    | nil => simp [HASH_FIND] at hd
    | cons e rest => exact ⟨rest.length, by simp⟩
  have h0 : HASH_FIND (clearSeen g) u = some (forgetSeen d) := by
    rw [HASH_FIND_clearSeen, hd]; rfl
  have h1 : HASH_FIND (updateDecl (clearSeen g) u (fun d => { d with seen := 1 })) u =
      some { forgetSeen d with seen := 1 } := by
    rw [HASH_FIND_updateDecl (clearSeen g) u u (fun d => { d with seen := 1 }) (fun _ => rfl),
      if_pos rfl, h0]
    rfl
  have hcalls0 : (forgetSeen d).calls.toList = [u] := hcalls
  have hind : String.mk (List.replicate (0 * 2) ' ') = "" := rfl
  have hind1 : String.mk (List.replicate ((0 + 1) * 2) ' ') = "  " := rfl
  have hind2 : String.mk (List.replicate ((0 + true.toNat) * 2) ' ') = "  " := rfl
  unfold printCallGraph
  rw [hn]
  rcases hshown with hall | hsub
  · subst hall
    rw [printCallGraphRecursive, h0]
    simp only [forgetSeen, ne_eq, not_true_eq_false, if_false, Bool.true_or, if_true]
    rw [show ({ d with seen := 0 } : functionDecl_t).calls.toList = [u] from hcalls]
    simp only [forCalls, if_true]
    rw [printCallGraphRecursive, h1]
    simp only [forgetSeen, ne_eq, one_ne_zero, not_false_eq_true, if_true, Bool.true_or,
      Outcome.map, hind, hind1, String.append_assoc, String.append_empty]
  · have hsub0 : strstr (forgetSeen d).displayName projectRoot = true := hsub
    cases showAll with
    | true =>
      rw [printCallGraphRecursive, h0]
      simp only [forgetSeen, ne_eq, not_true_eq_false, if_false, Bool.true_or, if_true]
      rw [show ({ d with seen := 0 } : functionDecl_t).calls.toList = [u] from hcalls]
      simp only [forCalls, if_true]
      rw [printCallGraphRecursive, h1]
      simp only [forgetSeen, ne_eq, one_ne_zero, not_false_eq_true, if_true, Bool.true_or,
        Outcome.map, hind, hind1, String.append_assoc, String.append_empty]
    | false =>
      rw [printCallGraphRecursive, h0]
      simp only [forgetSeen, ne_eq, not_true_eq_false, if_false, Bool.false_or] at hsub0 ⊢
      simp only [hsub0, if_true]
      rw [show ({ d with seen := 0 } : functionDecl_t).calls.toList = [u] from hcalls]
      simp only [forCalls, Bool.false_eq_true, if_false]
      rw [printCallGraphRecursive, h1]
      simp only [forgetSeen, ne_eq, one_ne_zero, not_false_eq_true, if_true, Bool.false_or,
        hsub0, Outcome.map, hind, hind2, String.append_assoc, String.append_empty]

/-- Claim C17 (recursive print): for a function whose calls list is exactly
itself, printed with `showAll` or with a filter prefix that its display name
contains, `printCallGraph` rooted at it returns having printed exactly two
lines: the display name without indentation, then, two spaces in, the display
name followed by ` (recursive)`. -/
theorem C17_print_self_recursive (g : List functionDecl_t) (u : String) (d : functionDecl_t)
    (projectRoot : String) (showAll : Bool) (out : String)
    (hd : HASH_FIND g u = some d) (hcalls : d.calls.toList = [u])
    (hshown : showAll = true ∨ strstr d.displayName projectRoot = true) :
    (printCallGraph g u projectRoot showAll out).map PrintState.stdout =
      .ret (out ++ (d.displayName ++ "\n" ++ ("  " ++ d.displayName ++ " (recursive)\n"))) :=
  printCallGraph_self g u d projectRoot showAll out hd hcalls hshown

theorem C17_print_self_recursive_witness :
    (HASH_FIND selfStore "loop" =
        some { usr := "loop", displayName := "loop:demo.c:1",
               calls := { len := 1, capacity := 30, data := ["loop"] },
               callers := { len := 1, capacity := 30, data := ["loop"] }, tu := 0, seen := 0 } ∧
      strstr "loop:demo.c:1" "demo" = true) ∧
    (printCallGraph selfStore "loop" "demo" false "").map PrintState.stdout =
      .ret ("" ++ ("loop:demo.c:1" ++ "\n" ++ ("  " ++ "loop:demo.c:1" ++ " (recursive)\n"))) :=
  ⟨⟨by decide, by decide⟩,
    C17_print_self_recursive selfStore "loop"
      { usr := "loop", displayName := "loop:demo.c:1",
        calls := { len := 1, capacity := 30, data := ["loop"] },
        callers := { len := 1, capacity := 30, data := ["loop"] }, tu := 0, seen := 0 }
      "demo" false "" (by decide) (by decide) (Or.inr (by decide))⟩

/-! ## The display and indentation rule -/

theorem forCallsLog_erase (callLog : LoggedPrint → String → Outcome LoggedPrint)
    (call : PrintState → String → Outcome PrintState)
    (h : ∀ s c, (callLog s c).map LoggedPrint.state = call s.state c) :
    ∀ cs s, (forCallsLog callLog cs s).map LoggedPrint.state = forCalls call cs s.state := by
  intro cs
  induction cs with
  | nil => intro s; rfl
  | cons c rest ih =>
    intro s
    unfold forCallsLog forCalls
    rw [← h s c]
    cases callLog s c with
    | ret s1 => simp only [Outcome.map]; exact ih s1
    | exit code => rfl
    | fuelOut => rfl

/-- Dropping the log from the logged printer gives the printer. -/
theorem printCallGraphRecursiveLog_erase : ∀ (fuel : Nat) (g : List functionDecl_t)
    (u : String) (indent : Nat) (root : Option String) (showAll : Bool) (out : String)
    (anc : List String) (visits : List Visit),
    (printCallGraphRecursiveLog fuel g u indent root showAll out anc visits).map
      LoggedPrint.state = printCallGraphRecursive fuel g u indent root showAll out := by
  intro fuel
  induction fuel with
  | zero => intro g u indent root showAll out anc visits; rfl
  | succ fuel ih =>
    intro g u indent root showAll out anc visits
    unfold printCallGraphRecursiveLog printCallGraphRecursive
    cases HASH_FIND g u with
    | none => rfl
    | some decl =>
      simp only
      split
      · rfl
      · apply forCallsLog_erase
        intro s c
        show Outcome.map LoggedPrint.state (if showAll = true then _ else _) =
          (if showAll = true then _ else _)
        split
        · exact ih _ _ _ _ _ _ _ _
        · exact ih _ _ _ _ _ _ _ _

theorem printCallGraphLog_erase (g : List functionDecl_t) (R projectRoot : String)
    (showAll : Bool) (out : String) :
    (printCallGraphLog g R projectRoot showAll out).map LoggedPrint.state =
      printCallGraph g R projectRoot showAll out :=
  printCallGraphRecursiveLog_erase _ _ _ _ _ _ _ _ _

theorem displayed_showAll (p : Option String) (name : String) : displayed true p name = true := by
  simp [displayed]

theorem lineOf_showAll (p q : Option String) (v : Visit) : lineOf true p v = lineOf true q v := by
  have hf : ∀ r : Option String, v.ancestors.filter (displayed true r) = v.ancestors := by
    intro r
    apply List.filter_eq_self.2
    intro a _
    exact displayed_showAll r a
  simp only [lineOf, displayed_showAll, if_true, hf]

theorem renderFrom_showAll (p q : Option String) (out : String) (vs : List Visit) :
    renderFrom true p out vs = renderFrom true q out vs := by
  have hfun : (fun (acc : String) (v : Visit) => acc ++ lineOf true p v) =
      (fun acc v => acc ++ lineOf true q v) := by
    funext acc v
    rw [lineOf_showAll p q v]
  unfold renderFrom
  rw [hfun]

theorem renderFrom_append (showAll : Bool) (p : Option String) (out : String)
    (vs ws : List Visit) :
    renderFrom showAll p out (vs ++ ws) = renderFrom showAll p (renderFrom showAll p out vs) ws := by
  unfold renderFrom
  rw [List.foldl_append]

theorem line_eq (showAll : Bool) (p : Option String) (out : String)
    (u name : String) (anc : List String) (seen : Nat) :
    (if (showAll ||
          (match p with
           | some root => strstr name root
           | none => false)) = true then
        (if seen ≠ 0 then
          out ++ String.mk (List.replicate
            ((anc.filter (displayed showAll p)).length * 2) ' ') ++ name ++ " (recursive)\n"
        else out ++ String.mk (List.replicate
            ((anc.filter (displayed showAll p)).length * 2) ' ') ++ name ++ "\n")
      else out) =
      out ++ lineOf showAll p
        { usr := u, name := name, ancestors := anc, repeated := decide (seen ≠ 0) } := by
  unfold lineOf
  show (if displayed showAll p name = true then _ else _) =
    out ++ (if displayed showAll p name = true then _ else _)
  cases displayed showAll p name
  · simp
  · by_cases hs : seen = 0
    · simp [hs, String.append_assoc, Nat.mul_comm]
    · simp [hs, String.append_assoc, Nat.mul_comm]

theorem forCallsLog_render (showAll : Bool) (p : Option String)
    (callLog : LoggedPrint → String → Outcome LoggedPrint)
    (hcall : ∀ s c, RenderOK showAll p s.state.stdout s.visits (callLog s c)) :
    ∀ cs s, RenderOK showAll p s.state.stdout s.visits (forCallsLog callLog cs s) := by
  intro cs
  induction cs with
  | nil =>
    intro s s' h
    simp only [forCallsLog, Outcome.ret.injEq] at h
    subst h
    exact ⟨[], by simp, rfl⟩
  | cons c rest ih =>
    intro s s' h
    unfold forCallsLog at h
    cases hr : callLog s c with
    | ret s1 =>
      rw [hr] at h
      simp only at h
      obtain ⟨new1, hv1, ho1⟩ := hcall s c s1 hr
      obtain ⟨new2, hv2, ho2⟩ := ih s1 s' h
      refine ⟨new1 ++ new2, by rw [hv2, hv1, List.append_assoc], ?_⟩
      rw [ho2, ho1, renderFrom_append]
    | exit code => rw [hr] at h; simp at h
    | fuelOut => rw [hr] at h; simp at h

theorem filter_displayed_showAll (p : Option String) (l : List String) :
    l.filter (displayed true p) = l :=
  List.filter_eq_self.2 (fun a _ => displayed_showAll p a)

theorem length_filter_snoc (f : String → Bool) (anc : List String) (name : String) :
    (anc.filter f).length + (f name).toNat = ((anc ++ [name]).filter f).length := by
  rw [List.filter_append, List.length_append]
  cases h : f name <;> simp [List.filter, h]

theorem printCallGraphRecursiveLog_render : ∀ (fuel : Nat) (g : List functionDecl_t)
    (u : String) (level : Nat) (p : Option String) (showAll : Bool) (out : String)
    (anc : List String) (visits : List Visit),
    level = (anc.filter (displayed showAll p)).length →
    RenderOK showAll p out visits
      (printCallGraphRecursiveLog fuel g u level p showAll out anc visits) := by
  intro fuel
  induction fuel with
  | zero => intro g u level p showAll out anc visits _ s h; simp [printCallGraphRecursiveLog] at h
  | succ fuel ih =>
    intro g u level p showAll out anc visits hlevel s h
    subst hlevel
    unfold printCallGraphRecursiveLog at h
    cases hd : HASH_FIND g u with
    | none => rw [hd] at h; simp at h
    | some decl =>
      rw [hd] at h
      simp only at h
      rw [line_eq showAll p out u decl.displayName anc decl.seen] at h
      by_cases hseen : decl.seen = 0
      · rw [if_neg (by simpa using hseen)] at h
        have hloop := forCallsLog_render showAll p _ ?_ decl.calls.toList _ s h
        · obtain ⟨new, hv, ho⟩ := hloop
          refine ⟨{ usr := u, name := decl.displayName, ancestors := anc,
                    repeated := decide (decl.seen ≠ 0) } :: new, ?_, ?_⟩
          · rw [hv]
            show (visits ++ [_]) ++ new = visits ++ (_ :: new)
            rw [List.append_assoc]
            rfl
          · rw [ho]
            rfl
        · intro s1 c
          show RenderOK showAll p s1.state.stdout s1.visits (if showAll = true then _ else _)
          by_cases hall : showAll = true
          · rw [if_pos hall]
            subst hall
            have := ih s1.state.callgraph c ((anc.filter (displayed true p)).length + 1) none true
              s1.state.stdout (anc ++ [decl.displayName]) s1.visits (by
                rw [filter_displayed_showAll, filter_displayed_showAll, List.length_append]
                rfl)
            intro s2 hs2
            obtain ⟨new, hv, ho⟩ := this s2 hs2
            exact ⟨new, hv, by rw [ho]; exact renderFrom_showAll none p _ _⟩
          · rw [if_neg hall]
            exact ih s1.state.callgraph c
              ((anc.filter (displayed showAll p)).length +
                (displayed showAll p decl.displayName).toNat) p showAll s1.state.stdout
              (anc ++ [decl.displayName]) s1.visits (length_filter_snoc _ _ _)
      · rw [if_pos (by simpa using hseen)] at h
        simp only [Outcome.ret.injEq] at h
        subst h
        exact ⟨[_], rfl, rfl⟩

/-! ## The expand-once policy of the printer -/

theorem expansions_append (vs ws : List Visit) :
    expansions (vs ++ ws) = expansions vs ++ expansions ws := by
  simp [expansions]

theorem callsTotal_append (g : List functionDecl_t) (vs ws : List Visit) :
    callsTotal g (vs ++ ws) = callsTotal g vs + callsTotal g ws := by
  simp [callsTotal, expansions_append]

theorem callsTotal_congr {g g2 : List functionDecl_t}
    (h : g.map forgetSeen = g2.map forgetSeen) (vs : List Visit) :
    callsTotal g vs = callsTotal g2 vs := by
  unfold callsTotal
  congr 1
  apply List.map_congr_left
  intro x _
  rw [callsOf_congr h x]

theorem HASH_FIND_same_name {g g2 : List functionDecl_t}
    (h : g.map forgetSeen = g2.map forgetSeen) {k : String} {d : functionDecl_t}
    (hd : HASH_FIND g k = some d) :
    ∃ d2, HASH_FIND g2 k = some d2 ∧ d2.displayName = d.displayName := by
  have := HASH_FIND_congr h k
  rw [hd] at this
  cases h2 : HASH_FIND g2 k with
  | none => rw [h2] at this; simp at this
  | some d2 =>
    rw [h2] at this
    simp only [Option.map_some', Option.some.injEq] at this
    exact ⟨d2, rfl, (congrArg (fun x => x.displayName) this).symm⟩

theorem LoopLog.nil (g : List functionDecl_t) (anc : List String) : LoopLog g anc [] g [] where
  nodup := List.nodup_nil
  marked := fun x => by simp [expansions]
  count := rfl
  deep := fun v hv => by simp at hv
  head := fun v hv => by simp at hv
  chain := List.chain'_nil
  names := fun v hv => by simp at hv
  parent := fun v hv => by simp at hv

theorem LoopLog.ne_nil {g g2 : List functionDecl_t} {anc : List String} {c : String}
    {new : List Visit} (h : LoopLog g anc [c] g2 new) : new ≠ [] := by
  intro hn
  have := h.count
  rw [hn] at this
  simp at this
  omega

theorem LoopLog.append {g g1 g2 : List functionDecl_t} {anc : List String} {c : String}
    {rest : List String} {new1 new2 : List Visit}
    (h01 : g1.map forgetSeen = g.map forgetSeen)
    (m01 : ∀ v, IsSeen g v → IsSeen g1 v) (m12 : ∀ v, IsSeen g1 v → IsSeen g2 v)
    (h1 : LoopLog g anc [c] g1 new1) (h2 : LoopLog g1 anc rest g2 new2) :
    LoopLog g anc (c :: rest) g2 (new1 ++ new2) where
  nodup := by
    rw [expansions_append, List.nodup_append]
    refine ⟨h1.nodup, h2.nodup, ?_⟩
    intro x hx1 hx2
    exact ((h2.marked x).1 hx2).1 ((h1.marked x).1 hx1).2
  marked := by
    intro x
    rw [expansions_append, List.mem_append]
    constructor
    · rintro (hx | hx)
      · exact ⟨((h1.marked x).1 hx).1, m12 x ((h1.marked x).1 hx).2⟩
      · exact ⟨fun hs => ((h2.marked x).1 hx).1 (m01 x hs), ((h2.marked x).1 hx).2⟩
    · rintro ⟨hn, hs⟩
      by_cases h1x : IsSeen g1 x
      · exact Or.inl ((h1.marked x).2 ⟨hn, h1x⟩)
      · exact Or.inr ((h2.marked x).2 ⟨h1x, hs⟩)
  count := by
    rw [List.length_append, callsTotal_append, h1.count, h2.count, callsTotal_congr h01 new2]
    simp only [List.length_cons, List.length_nil]
    omega
  deep := by
    intro v hv
    rcases List.mem_append.1 hv with hv | hv
    · exact h1.deep v hv
    · exact h2.deep v hv
  head := by
    intro v hv
    cases hn : new1 with
    | nil => exact absurd hn h1.ne_nil
    | cons a r =>
      rw [hn] at hv
      refine h1.head v ?_
      rw [hn]
      simpa using hv
  chain := by
    unfold NoDescendantsAfterRepeat
    refine List.Chain'.append h1.chain h2.chain ?_
    intro x hx y hy _
    rw [h2.head y hy]
    exact h1.deep x (List.mem_of_getLast?_eq_some hx)
  names := by
    intro v hv
    rcases List.mem_append.1 hv with hv | hv
    · exact h1.names v hv
    · obtain ⟨d1, hd1, hn⟩ := h2.names v hv
      obtain ⟨d, hd, hdn⟩ := HASH_FIND_same_name h01 hd1
      exact ⟨d, hd, by rw [hn, hdn]⟩
  parent := by
    intro v hv
    rcases List.mem_append.1 hv with hv | hv
    · rcases h1.parent v hv with ⟨ha, hc⟩ | ⟨w, hw, hr, ha, hc⟩
      · left
        refine ⟨ha, ?_⟩
        simp only [List.mem_singleton] at hc
        rw [hc]
        exact List.mem_cons_self _ _
      · exact Or.inr ⟨w, List.mem_append_left _ hw, hr, ha, hc⟩
    · rcases h2.parent v hv with ⟨ha, hc⟩ | ⟨w, hw, hr, ha, hc⟩
      · exact Or.inl ⟨ha, List.mem_cons_of_mem _ hc⟩
      · refine Or.inr ⟨w, List.mem_append_right _ hw, hr, ha, ?_⟩
        rw [← callsOf_congr h01 w.usr]
        exact hc

theorem LoopLog.leaf {g : List functionDecl_t} {u : String} {decl : functionDecl_t}
    (anc : List String) (hd : HASH_FIND g u = some decl) :
    LoopLog g anc [u] g
      [{ usr := u, name := decl.displayName, ancestors := anc, repeated := true }] where
  nodup := by simp [expansions]
  marked := fun x => by simp [expansions]
  count := by simp [callsTotal, expansions]
  deep := fun v hv => by simp at hv; subst hv; exact le_refl _
  head := fun v hv => by simp at hv; subst hv; rfl
  chain := List.chain'_singleton _
  names := fun v hv => by simp at hv; subst hv; exact ⟨decl, hd, rfl⟩
  parent := fun v hv => by simp at hv; subst hv; exact Or.inl ⟨rfl, List.mem_singleton.2 rfl⟩

theorem LoopLog.node {g g2 : List functionDecl_t} {u : String} {decl : functionDecl_t}
    {anc : List String} {new : List Visit}
    (hd : HASH_FIND g u = some decl) (hseen : decl.seen = 0)
    (hm : ∀ v, IsSeen (updateDecl g u (fun d => { d with seen := 1 })) v → IsSeen g2 v)
    (h : LoopLog (updateDecl g u (fun d => { d with seen := 1 }))
      (anc ++ [decl.displayName]) decl.calls.toList g2 new) :
    LoopLog g anc [u] g2
      ({ usr := u, name := decl.displayName, ancestors := anc, repeated := false } :: new) := by
  have hsame : (updateDecl g u (fun d => { d with seen := 1 })).map forgetSeen =
      g.map forgetSeen := map_forgetSeen_updateDecl g u _ (fun d => rfl)
  have hmark := fun v => IsSeen_mark g u v decl hd
  have hnot : ¬ IsSeen g u := by
    rintro ⟨d, h1, h2⟩
    rw [hd] at h1
    cases h1
    exact h2 hseen
  have hexp : expansions
      ({ usr := u, name := decl.displayName, ancestors := anc, repeated := false } :: new) =
      u :: expansions new := by
    simp [expansions]
  have hcalls : callsOf g u = decl.calls.toList := by
    unfold callsOf
    rw [hd]
  refine ⟨?_, ?_, ?_, ?_, ?_, ?_, ?_, ?_⟩
  · rw [hexp, List.nodup_cons]
    refine ⟨?_, h.nodup⟩
    intro hu
    exact ((h.marked u).1 hu).1 ((hmark u).2 (Or.inl rfl))
  · intro x
    rw [hexp, List.mem_cons]
    constructor
    · rintro (hx | hx)
      · subst hx
        exact ⟨hnot, hm x ((hmark x).2 (Or.inl rfl))⟩
      · exact ⟨fun hs => ((h.marked x).1 hx).1 ((hmark x).2 (Or.inr hs)),
          ((h.marked x).1 hx).2⟩
    · rintro ⟨hn, hs⟩
      by_cases hx : x = u
      · exact Or.inl hx
      · right
        refine (h.marked x).2 ⟨?_, hs⟩
        intro hs2
        rcases (hmark x).1 hs2 with h3 | h3
        · exact hx h3
        · exact hn h3
  · have hc := h.count
    rw [callsTotal_congr hsame new] at hc
    have ht : callsTotal g
        ({ usr := u, name := decl.displayName, ancestors := anc, repeated := false } :: new) =
        decl.calls.toList.length + callsTotal g new := by
      unfold callsTotal
      rw [hexp, List.map_cons, List.sum_cons, hcalls]
    rw [ht, List.length_cons, hc]
    simp only [List.length_cons, List.length_nil]
    omega
  · intro v hv
    rcases List.mem_cons.1 hv with hv | hv
    · subst hv
      exact le_refl _
    · have := h.deep v hv
      rw [List.length_append] at this
      omega
  · intro v hv
    simp at hv
    subst hv
    rfl
  · unfold NoDescendantsAfterRepeat
    rw [List.chain'_cons']
    refine ⟨?_, h.chain⟩
    intro y _ hr
    simp at hr
  · intro v hv
    rcases List.mem_cons.1 hv with hv | hv
    · subst hv
      exact ⟨decl, hd, rfl⟩
    · obtain ⟨d1, hd1, hn⟩ := h.names v hv
      obtain ⟨d, hd2, hdn⟩ := HASH_FIND_same_name hsame hd1
      exact ⟨d, hd2, by rw [hn, hdn]⟩
  · intro v hv
    rcases List.mem_cons.1 hv with hv | hv
    · subst hv
      exact Or.inl ⟨rfl, List.mem_singleton.2 rfl⟩
    · right
      rcases h.parent v hv with ⟨ha, hc⟩ | ⟨w, hw, hr, ha, hc⟩
      · refine ⟨_, List.mem_cons_self _ _, rfl, ha, ?_⟩
        rw [hcalls]
        exact hc
      · refine ⟨w, List.mem_cons_of_mem _ hw, hr, ha, ?_⟩
        rw [← callsOf_congr hsame w.usr]
        exact hc

theorem Outcome.ret_of_map_ret {α β : Type} {f : α → β} {r : Outcome α} {b : β}
    (h : r.map f = .ret b) : ∃ a, r = .ret a ∧ f a = b := by
  cases r with
  | ret a => exact ⟨a, rfl, by simpa [Outcome.map] using h⟩
  | exit code => simp [Outcome.map] at h
  | fuelOut => simp [Outcome.map] at h

theorem forCallsLog_log (callLog : LoggedPrint → String → Outcome LoggedPrint)
    (call : PrintState → String → Outcome PrintState) (anc : List String)
    (herase : ∀ s c, (callLog s c).map LoggedPrint.state = call s.state c)
    (hframe : ∀ s c, PrintFrameOK s.callgraph (call s c))
    (hlog : ∀ s c, PrintLogOK s.state.callgraph anc [c] s.visits (callLog s c)) :
    ∀ cs s s2, forCallsLog callLog cs s = .ret s2 →
      (∃ new : List Visit, s2.visits = s.visits ++ new ∧
        LoopLog s.state.callgraph anc cs s2.state.callgraph new) ∧
      ∀ v, IsSeen s.state.callgraph v → IsSeen s2.state.callgraph v := by
  intro cs
  induction cs with
  | nil =>
    intro s s2 h
    simp only [forCallsLog, Outcome.ret.injEq] at h
    subst h
    exact ⟨⟨[], by simp, LoopLog.nil _ _⟩, fun v hv => hv⟩
  | cons c rest ih =>
    intro s s2 h
    unfold forCallsLog at h
    cases hr : callLog s c with
    | ret s1 =>
      rw [hr] at h
      simp only at h
      obtain ⟨new1, hv1, hl1⟩ := hlog s c s1 hr
      obtain ⟨⟨new2, hv2, hl2⟩, hm2⟩ := ih s1 s2 h
      have he1 := herase s c
      rw [Outcome.map_eq_ret hr] at he1
      have hf1 := hframe s.state c s1.state he1.symm
      refine ⟨⟨new1 ++ new2, by rw [hv2, hv1, List.append_assoc], ?_⟩,
        fun v hv => hm2 v (hf1.2.2 v hv)⟩
      exact LoopLog.append hf1.1 hf1.2.2 hm2 hl1 hl2
    | exit code => rw [hr] at h; simp at h
    | fuelOut => rw [hr] at h; simp at h

theorem printCallGraphRecursiveLog_log : ∀ (fuel : Nat) (g : List functionDecl_t)
    (u : String) (level : Nat) (p : Option String) (showAll : Bool) (out : String)
    (anc : List String) (visits : List Visit),
    PrintLogOK g anc [u] visits
      (printCallGraphRecursiveLog fuel g u level p showAll out anc visits) := by
  intro fuel
  induction fuel with
  | zero => intro g u level p showAll out anc visits s h; simp [printCallGraphRecursiveLog] at h
  | succ fuel ih =>
    intro g u level p showAll out anc visits s h
    unfold printCallGraphRecursiveLog at h
    cases hd : HASH_FIND g u with
    | none => rw [hd] at h; simp at h
    | some decl =>
      rw [hd] at h
      simp only at h
      by_cases hseen : decl.seen = 0
      · rw [if_neg (by simpa using hseen)] at h
        have hloop := forCallsLog_log _
          (fun (t : PrintState) (c : String) =>
            if showAll = true then
              printCallGraphRecursive fuel t.callgraph c (level + 1) none true t.stdout
            else
              printCallGraphRecursive fuel t.callgraph c
                (level + (displayed showAll p decl.displayName).toNat) p showAll t.stdout)
          (anc ++ [decl.displayName]) ?_ ?_ ?_ decl.calls.toList _ s h
        · obtain ⟨⟨new, hv, hl⟩, hm⟩ := hloop
          refine ⟨{ usr := u, name := decl.displayName, ancestors := anc,
                    repeated := false } :: new, ?_, ?_⟩
          · rw [hv]
            have hrep : decide (decl.seen ≠ 0) = false := by simp [hseen]
            show (visits ++ [_]) ++ new = visits ++ (_ :: new)
            rw [List.append_assoc, hrep]
            rfl
          · exact LoopLog.node hd hseen hm hl
        · intro s1 c
          show Outcome.map LoggedPrint.state (if showAll = true then _ else _) =
            (if showAll = true then _ else _)
          split
          · exact printCallGraphRecursiveLog_erase _ _ _ _ _ _ _ _ _
          · exact printCallGraphRecursiveLog_erase _ _ _ _ _ _ _ _ _
        · intro t c
          show PrintFrameOK t.callgraph (if showAll = true then _ else _)
          split
          · exact printCallGraphRecursive_frame _ _ _ _ _ _ _
          · exact printCallGraphRecursive_frame _ _ _ _ _ _ _
        · intro s1 c
          show PrintLogOK s1.state.callgraph _ [c] s1.visits (if showAll = true then _ else _)
          split
          · exact ih _ _ _ _ _ _ _ _
          · exact ih _ _ _ _ _ _ _ _
      · rw [if_pos (by simpa using hseen)] at h
        simp only [Outcome.ret.injEq] at h
        subst h
        have hrep : decide (decl.seen ≠ 0) = true := by simp [hseen]
        refine ⟨[{ usr := u, name := decl.displayName, ancestors := anc,
                   repeated := true }], ?_, LoopLog.leaf anc hd⟩
        show visits ++ [_] = visits ++ [_]
        rw [hrep]

/-! ## The printer from the root: output and log -/

theorem renderFrom_eq_concat (showAll : Bool) (p : Option String) (vs : List Visit) :
    ∀ out, renderFrom showAll p out vs = out ++ concatLines (vs.map (lineOf showAll p)) := by
  induction vs with
  | nil => intro out; simp [renderFrom, concatLines]
  | cons v rest ih =>
    intro out
    show renderFrom showAll p (out ++ lineOf showAll p v) rest = _
    rw [ih, String.append_assoc]
    rfl

theorem lineOf_ne_empty_iff (showAll : Bool) (p : Option String) (v : Visit) :
    lineOf showAll p v ≠ "" ↔ displayed showAll p v.name = true := by
  unfold lineOf
  cases hd : displayed showAll p v.name
  · simp
  · simp only [if_true, ne_eq, iff_true]
    intro h
    have := congrArg String.length h
    cases hr : v.repeated
    · simp only [hr, String.length_append, Bool.false_eq_true, if_false] at this
      have h1 : "\n".length = 1 := by decide
      have h0 : "".length = 0 := by decide
      omega
    · simp only [hr, String.length_append, if_true] at this
      have h1 : " (recursive)\n".length = 13 := by decide
      have h0 : "".length = 0 := by decide
      omega

theorem printCallGraph_seen_iff (g : List functionDecl_t) (R : String) (projectRoot : String)
    (showAll : Bool) (out : String) (s : PrintState)
    (h : printCallGraph g R projectRoot showAll out = .ret s) (v : String) :
    IsSeen s.callgraph v ↔ CallReach g R v := by
  constructor
  · intro hv
    have hinv0 : PrintInv (clearSeen g) R (clearSeen g) [] :=
      ⟨rfl, fun v hv => absurd hv (not_IsSeen_clearSeen g v),
        fun v hv => absurd hv (not_IsSeen_clearSeen g v)⟩
    have hpost := printCallGraphRecursive_inv (clearSeen g) R (g.length + 1) (clearSeen g) R 0
      (some projectRoot) showAll out [] hinv0 Relation.ReflTransGen.refl
    unfold printCallGraph at h
    rw [h] at hpost
    exact (CallReach_clearSeen g R v).1 (hpost.1.reach v hv)
  · intro hv
    have hpost := printCallGraph_post g R projectRoot showAll out
    rw [h] at hpost
    exact hpost v hv

theorem printCallGraph_returns (g : List functionDecl_t) (R : String) (projectRoot : String)
    (showAll : Bool) (out : String) (hclosed : Closed g) (hR : (HASH_FIND g R).isSome) :
    ∃ s, printCallGraph g R projectRoot showAll out = .ret s := by
  have hpost := printCallGraph_post g R projectRoot showAll out
  cases hr : printCallGraph g R projectRoot showAll out with
  | ret s => exact ⟨s, rfl⟩
  | exit code =>
    rw [hr] at hpost
    obtain ⟨_, v, hv, hn⟩ := hpost
    have := call_reach_present g R hclosed hR v hv
    rw [hn] at this
    simp at this
  | fuelOut => rw [hr] at hpost; exact absurd hpost id

theorem printCallGraph_has_log (g : List functionDecl_t) (R : String) (projectRoot : String)
    (showAll : Bool) (out : String) (t : PrintState)
    (h : printCallGraph g R projectRoot showAll out = .ret t) :
    ∃ visits, printCallGraphLog g R projectRoot showAll out = .ret ⟨t, visits⟩ := by
  have he := printCallGraphLog_erase g R projectRoot showAll out
  rw [h] at he
  obtain ⟨s, hs, hst⟩ := Outcome.ret_of_map_ret he
  refine ⟨s.visits, ?_⟩
  rw [hs, ← hst]

/-- What the log of a returning print from the root records, in terms of the
table the print was called on. -/
theorem printCallGraphLog_spec (g : List functionDecl_t) (R : String) (projectRoot : String)
    (showAll : Bool) (out : String) (s : LoggedPrint)
    (h : printCallGraphLog g R projectRoot showAll out = .ret s) :
    s.state.stdout =
        out ++ concatLines (s.visits.map (lineOf showAll (some projectRoot))) ∧
      (expansions s.visits).Nodup ∧
      (∀ x, x ∈ expansions s.visits ↔ CallReach g R x) ∧
      s.visits.length = 1 + callsTotal g s.visits ∧
      (∀ v ∈ s.visits.head?, v.usr = R ∧ v.ancestors = []) ∧
      NoDescendantsAfterRepeat s.visits ∧
      (∀ v ∈ s.visits, ∃ d, HASH_FIND g v.usr = some d ∧ v.name = d.displayName) ∧
      (∀ v ∈ s.visits, (v.ancestors = [] ∧ v.usr = R) ∨
        ∃ w ∈ s.visits, w.repeated = false ∧ v.ancestors = w.ancestors ++ [w.name] ∧
          v.usr ∈ callsOf g w.usr) := by
  have he := printCallGraphLog_erase g R projectRoot showAll out
  rw [Outcome.map_eq_ret h] at he
  have hseen := printCallGraph_seen_iff g R projectRoot showAll out s.state he.symm
  obtain ⟨new, hv, hl⟩ := printCallGraphRecursiveLog_log _ _ _ _ _ _ _ _ _ s h
  obtain ⟨new2, hv2, ho⟩ := printCallGraphRecursiveLog_render (g.length + 1) (clearSeen g) R 0
    (some projectRoot) showAll out [] [] rfl s h
  rw [List.nil_append] at hv hv2
  rw [← hv] at hl
  rw [← hv2] at ho
  have hsame := map_forgetSeen_clearSeen g
  refine ⟨?_, hl.nodup, ?_, ?_, ?_, hl.chain, ?_, ?_⟩
  · rw [ho, renderFrom_eq_concat]
  · intro x
    rw [hl.marked x, ← hseen x]
    exact ⟨fun hx => hx.2, fun hx => ⟨not_IsSeen_clearSeen g x, hx⟩⟩
  · have := hl.count
    rw [callsTotal_congr hsame] at this
    rw [this]
    rfl
  · intro v hv
    have hne := hl.ne_nil
    cases hs : s.visits with
    | nil => exact absurd hs hne
    | cons a r =>
      rw [hs] at hv
      simp only [List.head?_cons, Option.mem_def, Option.some.injEq] at hv
      subst hv
      have ha : a ∈ s.visits := by rw [hs]; exact List.mem_cons_self _ _
      have hhead := hl.head a (by rw [hs]; rfl)
      rcases hl.parent a ha with ⟨_, hc⟩ | ⟨w, hw, _, hanc, _⟩
      · exact ⟨List.mem_singleton.1 hc, hhead⟩
      · rw [hhead] at hanc
        simp at hanc
  · intro v hv
    obtain ⟨d1, hd1, hn⟩ := hl.names v hv
    obtain ⟨d, hd, hdn⟩ := HASH_FIND_same_name hsame hd1
    exact ⟨d, hd, by rw [hn, hdn]⟩
  · intro v hv
    rcases hl.parent v hv with ⟨ha, hc⟩ | ⟨w, hw, hr, ha, hc⟩
    · exact Or.inl ⟨ha, List.mem_singleton.1 hc⟩
    · refine Or.inr ⟨w, hw, hr, ha, ?_⟩
      rw [← callsOf_clearSeen g]
      exact hc

theorem lineOf_eq (showAll : Bool) (filterPrefix : String) (v : Visit) :
    lineOf showAll (some filterPrefix) v =
      if (showAll || strstr v.name filterPrefix) = true then
        String.mk (List.replicate
            (2 * (v.ancestors.filter (fun a => showAll || strstr a filterPrefix)).length) ' ') ++
          v.name ++ (if v.repeated = true then " (recursive)\n" else "\n")
      else "" :=
  rfl

theorem lineOf_all (p : Option String) (v : Visit) :
    lineOf true p v =
      String.mk (List.replicate (2 * v.ancestors.length) ' ') ++ v.name ++
        (if v.repeated = true then " (recursive)\n" else "\n") := by
  unfold lineOf
  rw [displayed_showAll, filter_displayed_showAll, if_pos rfl]

theorem CallReach_of_no_calls (g : List functionDecl_t) (R x : String)
    (hcalls : callsOf g R = []) (h : CallReach g R x) : x = R := by
  rcases Relation.ReflTransGen.cases_head h with h1 | ⟨c, hc, _⟩
  · exact h1.symm
  · rw [hcalls] at hc
    simp at hc

theorem mem_expansions {vs : List Visit} {x : String} :
    x ∈ expansions vs ↔ ∃ v ∈ vs, v.repeated = false ∧ v.usr = x := by
  simp [expansions, and_assoc]

theorem CallReach_of_visit (g : List functionDecl_t) (R : String) (visits : List Visit)
    (hexp : ∀ x, x ∈ expansions visits → CallReach g R x)
    (hparent : ∀ v ∈ visits, (v.ancestors = [] ∧ v.usr = R) ∨
      ∃ w ∈ visits, w.repeated = false ∧ v.ancestors = w.ancestors ++ [w.name] ∧
        v.usr ∈ callsOf g w.usr) :
    ∀ v ∈ visits, CallReach g R v.usr := by
  intro v hv
  rcases hparent v hv with ⟨_, hu⟩ | ⟨w, hw, hr, _, hc⟩
  · rw [hu]
    exact Relation.ReflTransGen.refl
  · exact Relation.ReflTransGen.tail (hexp w.usr (mem_expansions.2 ⟨w, hw, hr, rfl⟩)) hc

theorem printCallGraphLog_leaf_root (g : List functionDecl_t) (R : String) (projectRoot : String)
    (out : String) (s : LoggedPrint) (d : functionDecl_t)
    (h : printCallGraphLog g R projectRoot true out = .ret s)
    (hcalls : callsOf g R = []) (hd : HASH_FIND g R = some d) :
    s.visits = [{ usr := R, name := d.displayName, ancestors := [], repeated := false }] ∧
      s.state.stdout = out ++ d.displayName ++ "\n" := by
  obtain ⟨hout, _, hreach, hcount, hhead, _, hnames, _⟩ :=
    printCallGraphLog_spec g R projectRoot true out s h
  have hzero : callsTotal g s.visits = 0 := by
    unfold callsTotal
    apply List.sum_eq_zero
    intro n hn
    obtain ⟨x, hx, rfl⟩ := List.mem_map.1 hn
    rw [CallReach_of_no_calls g R x hcalls ((hreach x).1 hx), hcalls]
    rfl
  rw [hzero] at hcount
  obtain ⟨v, hv⟩ := List.length_eq_one.1 hcount
  have hvis : s.visits =
      [{ usr := R, name := d.displayName, ancestors := [], repeated := false }] := by
    rw [hv]
    obtain ⟨hu, ha⟩ := hhead v (by rw [hv]; rfl)
    obtain ⟨d2, hd2, hn⟩ := hnames v (by rw [hv]; exact List.mem_singleton.2 rfl)
    rw [hu, hd] at hd2
    cases hd2
    obtain ⟨w, hw, hr, _⟩ := mem_expansions.1 ((hreach R).2 Relation.ReflTransGen.refl)
    rw [hv] at hw
    have hwv := List.mem_singleton.1 hw
    subst hwv
    cases w with
    | mk usr name ancestors repeated =>
      simp only at hu ha hn hr
      rw [hu, ha, hn, hr]
  refine ⟨hvis, ?_⟩
  rw [hout, hvis]
  simp only [List.map_cons, List.map_nil, concatLines, List.foldr_cons, List.foldr_nil,
    lineOf_all, List.length_nil, Nat.mul_zero, List.replicate_zero, Bool.false_eq_true,
    if_false, String.append_empty]
  have he : String.mk [] = "" := rfl
  rw [he, String.empty_append, String.append_assoc]

/-- Claim C15 (display and indentation rule): every returning run of
`printCallGraph` has a log of the nodes its traversal reached (the first is
the root with no ancestors, every other one is a callee of an expanded node and
has that node's ancestors followed by that node), and its output is the lines
of the reached nodes in order.  A node has a line exactly when `showAll` is
true or its display name contains the filter prefix, and the line is two
spaces for every displayed proper ancestor, then the display name and the
marker.  With `showAll` true every node has a line, indented by twice its
depth; with `showAll` false ancestors whose name lacks the filter prefix are
not counted and a node whose name lacks it has no line. -/
theorem C15_display_and_indentation (g : List functionDecl_t) (rootUsr filterPrefix : String)
    (showAll : Bool) (out : String) (t : PrintState)
    (h : printCallGraph g rootUsr filterPrefix showAll out = .ret t) :
    ∃ visits : List Visit,
      printCallGraphLog g rootUsr filterPrefix showAll out = .ret ⟨t, visits⟩ ∧
      t.stdout = out ++ concatLines (visits.map (lineOf showAll (some filterPrefix))) ∧
      (∀ v ∈ visits.head?, v.usr = rootUsr ∧ v.ancestors = []) ∧
      (∀ v ∈ visits, ∃ d, HASH_FIND g v.usr = some d ∧ v.name = d.displayName) ∧
      (∀ v ∈ visits, (v.ancestors = [] ∧ v.usr = rootUsr) ∨
        ∃ w ∈ visits, w.repeated = false ∧ v.ancestors = w.ancestors ++ [w.name] ∧
          v.usr ∈ callsOf g w.usr) ∧
      (∀ v : Visit, lineOf showAll (some filterPrefix) v ≠ "" ↔
        (showAll = true ∨ strstr v.name filterPrefix = true)) ∧
      (∀ v : Visit, lineOf showAll (some filterPrefix) v =
        if (showAll || strstr v.name filterPrefix) = true then
          String.mk (List.replicate
              (2 * (v.ancestors.filter (fun a => showAll || strstr a filterPrefix)).length)
              ' ') ++
            v.name ++ (if v.repeated = true then " (recursive)\n" else "\n")
        else "") ∧
      (∀ v : Visit, lineOf true (some filterPrefix) v =
        String.mk (List.replicate (2 * v.ancestors.length) ' ') ++ v.name ++
          (if v.repeated = true then " (recursive)\n" else "\n")) ∧
      (∀ v : Visit, lineOf false (some filterPrefix) v =
        if strstr v.name filterPrefix = true then
          String.mk (List.replicate
              (2 * (v.ancestors.filter (fun a => strstr a filterPrefix)).length) ' ') ++
            v.name ++ (if v.repeated = true then " (recursive)\n" else "\n")
        else "") := by
  obtain ⟨visits, hlog⟩ := printCallGraph_has_log g rootUsr filterPrefix showAll out t h
  obtain ⟨hout, _, _, _, hhead, _, hnames, hparent⟩ :=
    printCallGraphLog_spec g rootUsr filterPrefix showAll out _ hlog
  refine ⟨visits, hlog, hout, hhead, hnames, hparent, ?_, lineOf_eq showAll filterPrefix,
    lineOf_all (some filterPrefix), fun v => rfl⟩
  intro v
  rw [lineOf_ne_empty_iff]
  show (showAll || strstr v.name filterPrefix) = true ↔ _
  rw [Bool.or_eq_true]

set_option maxRecDepth 100000 in
theorem C15_display_and_indentation_witness :
    printCallGraph filterStore "app_main" "app" false "" =
        .ret ⟨filterStore.map (fun d => { d with seen := 1 }),
          "app_main:demo.c:1\n  app_cb:demo.c:1\n"⟩ ∧
      ∃ visits : List Visit,
        printCallGraphLog filterStore "app_main" "app" false "" =
          .ret ⟨⟨filterStore.map (fun d => { d with seen := 1 }),
            "app_main:demo.c:1\n  app_cb:demo.c:1\n"⟩, visits⟩ ∧
        "app_main:demo.c:1\n  app_cb:demo.c:1\n" =
          "" ++ concatLines (visits.map (lineOf false (some "app"))) :=
  ⟨by decide,
    (C15_display_and_indentation filterStore "app_main" "app" false ""
      ⟨filterStore.map (fun d => { d with seen := 1 }),
        "app_main:demo.c:1\n  app_cb:demo.c:1\n"⟩ (by decide)).imp
      (fun _ hv => ⟨hv.1, hv.2.1⟩)⟩

/-- Claim C16 (expand-once policy): on a closed store with the root present
`printCallGraph` returns; in the log of the nodes reached, every function
reachable from the root along calls edges is expanded exactly once and nothing
else is expanded, every node reached is a reachable function, a node reached
with the marker set is followed by no descendant of its own, and the number of
nodes reached is 1 plus the sum of the calls-list lengths of the reachable
functions.  With `showAll` true the output has one line per node reached, in
order, carrying ` (recursive)` exactly for the nodes reached with the marker
set; so a root with an empty calls list prints exactly one line, its display
name. -/
theorem C16_expand_once (g : List functionDecl_t) (rootUsr filterPrefix : String)
    (showAll : Bool) (out : String)
    (hclosed : Closed g) (hroot : (HASH_FIND g rootUsr).isSome) :
    ∃ (t : PrintState) (visits : List Visit),
      printCallGraph g rootUsr filterPrefix showAll out = .ret t ∧
      printCallGraphLog g rootUsr filterPrefix showAll out = .ret ⟨t, visits⟩ ∧
      (∀ x, CallReach g rootUsr x → (expansions visits).count x = 1) ∧
      (∀ x, x ∈ expansions visits → CallReach g rootUsr x) ∧
      (∀ v ∈ visits, CallReach g rootUsr v.usr ∧
        ∃ d, HASH_FIND g v.usr = some d ∧ v.name = d.displayName) ∧
      NoDescendantsAfterRepeat visits ∧
      visits.length = 1 + ((expansions visits).map (fun x => (callsOf g x).length)).sum ∧
      (showAll = true →
        t.stdout = out ++ concatLines (visits.map (fun v =>
          String.mk (List.replicate (2 * v.ancestors.length) ' ') ++ v.name ++
            (if v.repeated = true then " (recursive)\n" else "\n")))) ∧
      (showAll = true → callsOf g rootUsr = [] → ∀ d, HASH_FIND g rootUsr = some d →
        visits = [{ usr := rootUsr, name := d.displayName, ancestors := [],
                    repeated := false }] ∧
          t.stdout = out ++ d.displayName ++ "\n") := by
  obtain ⟨t, ht⟩ := printCallGraph_returns g rootUsr filterPrefix showAll out hclosed hroot
  obtain ⟨visits, hlog⟩ := printCallGraph_has_log g rootUsr filterPrefix showAll out t ht
  obtain ⟨hout, hnodup, hreach, hcount, _, hchain, hnames, hparent⟩ :=
    printCallGraphLog_spec g rootUsr filterPrefix showAll out _ hlog
  refine ⟨t, visits, ht, hlog, ?_, fun x hx => (hreach x).1 hx, ?_, hchain, hcount, ?_, ?_⟩
  · intro x hx
    exact List.count_eq_one_of_mem hnodup ((hreach x).2 hx)
  · intro v hv
    exact ⟨CallReach_of_visit g rootUsr visits (fun x hx => (hreach x).1 hx) hparent v hv,
      hnames v hv⟩
  · intro hall
    subst hall
    have hfun : (fun v : Visit =>
        String.mk (List.replicate (2 * v.ancestors.length) ' ') ++ v.name ++
          (if v.repeated = true then " (recursive)\n" else "\n")) =
        lineOf true (some filterPrefix) := by
      funext v
      rw [lineOf_all]
    rw [hfun]
    exact hout
  · intro hall hcalls d hd
    subst hall
    exact printCallGraphLog_leaf_root g rootUsr filterPrefix out _ d hlog hcalls hd

set_option maxRecDepth 100000 in
theorem C16_expand_once_witness :
    (Closed diamondStore ∧ (HASH_FIND diamondStore "D").isSome = true) ∧
      ∃ (t : PrintState) (visits : List Visit),
        printCallGraph diamondStore "D" "" true "" = .ret t ∧
        visits.length = 1 + ((expansions visits).map
          (fun x => (callsOf diamondStore x).length)).sum ∧
        (∀ x, CallReach diamondStore "D" x → (expansions visits).count x = 1) :=
  ⟨⟨by decide, by decide⟩,
    (C16_expand_once diamondStore "D" "" true "" (by decide) (by decide)).imp
      (fun _ ht => ht.imp (fun _ hv => ⟨hv.1, hv.2.2.2.2.2.2.1, hv.2.2.1⟩))⟩

/-! ## Path finder on a diamond -/

theorem len_ne_zero_of_toList {a : dynArray} {x : String} {l : List String}
    (h : a.toList = x :: l) : a.len ≠ 0 := by
  intro h0
  unfold dynArray.toList at h
  rw [h0] at h
  simp at h

theorem callersOf_cons {g : List functionDecl_t} {k x : String} {l : List String}
    (h : callersOf g k = x :: l) :
    ∃ d, HASH_FIND g k = some d ∧ d.callers.toList = x :: l := by
  unfold callersOf at h
  cases hd : HASH_FIND g k with
  | none => rw [hd] at h; simp at h
  | some d => rw [hd] at h; exact ⟨d, rfl, h⟩

/-- A call on an entity that is not yet seen and has callers: the entity is
marked, appended to the walk, and the loop over its callers runs. -/
theorem findCallpathsHelper_inner (fuel : Nat) (g : List functionDecl_t) (u : String)
    (p : dynArray) (cp : callpaths_t) (d : functionDecl_t)
    (hd : HASH_FIND g u = some d) (hs : d.seen = 0) (hc : d.callers.len ≠ 0) :
    findCallpathsHelper (fuel + 1) g u p cp =
      forCallers (fun s c => findCallpathsHelper fuel s.callgraph c s.pathSoFar s.callpathsOut)
        (arrayAppend p u).len d.callers.toList
        ⟨updateDecl g u (fun d => { d with seen := 1 }), arrayAppend p u, cp⟩ := by
  rw [findCallpathsHelper, hd]
  simp only
  rw [if_neg (fun h => h hs), if_neg hc]

/-- A call on a root that is not yet seen, below the cap: the entity is
marked and the reversed walk is emitted. -/
theorem findCallpathsHelper_root (fuel : Nat) (g : List functionDecl_t) (u : String)
    (p : dynArray) (cp : callpaths_t) (d : functionDecl_t)
    (hd : HASH_FIND g u = some d) (hs : d.seen = 0) (hc : d.callers.len = 0)
    (hcap : cp.len < MAX_CALLPATH) :
    findCallpathsHelper (fuel + 1) g u p cp =
      .ret ⟨updateDecl g u (fun d => { d with seen := 1 }), arrayAppend p u,
        { len := cp.len + 1
          paths := setSlot cp.paths cp.len (reversedPath (arrayAppend p u)) }⟩ := by
  rw [findCallpathsHelper, hd]
  simp only
  rw [if_neg (fun h => h hs), if_pos hc, if_neg (Nat.not_le.2 hcap)]

/-- A call on an unseen entity whose only caller is an unseen root. -/
theorem findCallpathsHelper_via_root (fuel : Nat) (g : List functionDecl_t) (u r : String)
    (p : dynArray) (cp : callpaths_t) (d dr : functionDecl_t)
    (hd : HASH_FIND g u = some d) (hs : d.seen = 0) (hc : d.callers.toList = [r])
    (hr : HASH_FIND g r = some dr) (hru : r ≠ u) (hrs : dr.seen = 0)
    (hrl : dr.callers.len = 0) (hcap : cp.len < MAX_CALLPATH) :
    findCallpathsHelper (fuel + 2) g u p cp =
      .ret ⟨updateDecl (updateDecl g u (fun d => { d with seen := 1 })) r
          (fun d => { d with seen := 1 }),
        arrayAppend (arrayAppend p u) r,
        { len := cp.len + 1
          paths := setSlot cp.paths cp.len
            (reversedPath (arrayAppend (arrayAppend p u) r)) }⟩ := by
  have hr2 : HASH_FIND (updateDecl g u (fun d => { d with seen := 1 })) r = some dr := by
    rw [HASH_FIND_updateDecl g u r (fun d => { d with seen := 1 }) (fun _ => rfl),
      if_neg hru, hr]
  rw [findCallpathsHelper_inner (fuel + 1) g u p cp d hd hs (len_ne_zero_of_toList hc), hc]
  rw [forCallers]
  simp only
  rw [findCallpathsHelper_root fuel _ r _ cp dr hr2 hrs hrl hcap]
  rfl

/-- A call on an unseen entity whose only caller is already seen: the entity
is marked and nothing is emitted. -/
theorem findCallpathsHelper_via_seen (fuel : Nat) (g : List functionDecl_t) (u r : String)
    (p : dynArray) (cp : callpaths_t) (d : functionDecl_t)
    (hd : HASH_FIND g u = some d) (hs : d.seen = 0) (hc : d.callers.toList = [r])
    (hr : IsSeen g r) :
    findCallpathsHelper (fuel + 2) g u p cp =
      .ret ⟨updateDecl g u (fun d => { d with seen := 1 }), arrayAppend p u, cp⟩ := by
  have hr2 : IsSeen (updateDecl g u (fun d => { d with seen := 1 })) r :=
    (IsSeen_mark g u r d hd).2 (Or.inr hr)
  rw [findCallpathsHelper_inner (fuel + 1) g u p cp d hd hs (len_ne_zero_of_toList hc), hc]
  rw [forCallers]
  simp only
  rw [findCallpathsHelper_of_seen fuel _ r _ cp hr2]
  rfl

/-- The helper on a diamond: `A` is called by `B` and then `C`, both are called
by the root `D` only, and none of them is seen yet.  One path is emitted, the
walk through `B`; the call on `C` marks `C` and emits nothing. -/
theorem findCallpathsHelper_diamond (fuel : Nat) (g : List functionDecl_t) (A B C D : String)
    (p : dynArray) (cp : callpaths_t) (dA dB dC dD : functionDecl_t)
    (hA : HASH_FIND g A = some dA) (hAs : dA.seen = 0) (hAc : dA.callers.toList = [B, C])
    (hB : HASH_FIND g B = some dB) (hBs : dB.seen = 0) (hBc : dB.callers.toList = [D])
    (hC : HASH_FIND g C = some dC) (hCs : dC.seen = 0) (hCc : dC.callers.toList = [D])
    (hD : HASH_FIND g D = some dD) (hDs : dD.seen = 0) (hDl : dD.callers.len = 0)
    (hcap : cp.len < MAX_CALLPATH) :
    ∃ s, findCallpathsHelper (fuel + 3) g A p cp = .ret s ∧
      s.callpathsOut =
        { len := cp.len + 1
          paths := setSlot cp.paths cp.len
            (reversedPath (arrayAppend (arrayAppend (arrayAppend p A) B) D)) } ∧
      IsSeen s.callgraph C ∧ IsSeen s.callgraph D := by
  have hBA : B ≠ A := by
    intro h
    rw [h, hA] at hB
    cases hB
    rw [hAc] at hBc
    simp at hBc
  have hCA : C ≠ A := by
    intro h
    rw [h, hA] at hC
    cases hC
    rw [hAc] at hCc
    simp at hCc
  have hDA : D ≠ A := by
    intro h
    rw [h, hA] at hD
    cases hD
    exact len_ne_zero_of_toList hAc hDl
  have hDB : D ≠ B := by
    intro h
    rw [h, hB] at hD
    cases hD
    exact len_ne_zero_of_toList hBc hDl
  have hDC : D ≠ C := by
    intro h
    rw [h, hC] at hD
    cases hD
    exact len_ne_zero_of_toList hCc hDl
  have hmark := fun (g : List functionDecl_t) (u v : String) (h : v ≠ u) =>
    (HASH_FIND_updateDecl g u v (fun d => { d with seen := 1 }) (fun _ => rfl)).trans
      (if_neg h)
  have hB1 : HASH_FIND (updateDecl g A (fun d => { d with seen := 1 })) B = some dB := by
    rw [hmark g A B hBA, hB]
  have hD1 : HASH_FIND (updateDecl g A (fun d => { d with seen := 1 })) D = some dD := by
    rw [hmark g A D hDA, hD]
  rw [findCallpathsHelper_inner (fuel + 2) g A p cp dA hA hAs (len_ne_zero_of_toList hAc), hAc]
  rw [forCallers]
  simp only
  rw [findCallpathsHelper_via_root fuel _ B D _ cp dB dD hB1 hBs hBc hD1 hDB hDs hDl hcap]
  simp only
  rw [forCallers]
  simp only
  have hseenD : ∀ g0 : List functionDecl_t, (HASH_FIND g0 D).isSome →
      IsSeen (updateDecl g0 D (fun d => { d with seen := 1 })) D := by
    intro g0 h0
    obtain ⟨d0, hd0⟩ := Option.isSome_iff_exists.1 h0
    exact (IsSeen_mark g0 D D d0 hd0).2 (Or.inl rfl)
  have hD2 : (HASH_FIND (updateDecl (updateDecl g A (fun d => { d with seen := 1 })) B
      (fun d => { d with seen := 1 })) D).isSome := by
    rw [hmark _ B D hDB, hD1]
    rfl
  have hD3 := hseenD _ hD2
  by_cases hCB : C = B
  · subst hCB
    have hC3 : IsSeen (updateDecl (updateDecl (updateDecl g A (fun d => { d with seen := 1 })) C
        (fun d => { d with seen := 1 })) D (fun d => { d with seen := 1 })) C := by
      obtain ⟨d0, hd0⟩ := Option.isSome_iff_exists.1 hD2
      refine (IsSeen_mark _ D C d0 hd0).2 (Or.inr ?_)
      exact (IsSeen_mark _ C C dB hB1).2 (Or.inl rfl)
    rw [findCallpathsHelper_of_seen (fuel + 1) _ C _ _ hC3]
    simp only [forCallers]
    exact ⟨_, rfl, rfl, hC3, hD3⟩
  · have hC3 : HASH_FIND (updateDecl (updateDecl (updateDecl g A
        (fun d => { d with seen := 1 })) B (fun d => { d with seen := 1 })) D
        (fun d => { d with seen := 1 })) C = some dC := by
      rw [hmark _ D C (fun h => hDC h.symm), hmark _ B C hCB, hmark g A C hCA, hC]
    rw [findCallpathsHelper_via_seen fuel _ C D _ _ dC hC3 hCs hCc hD3]
    simp only [forCallers]
    refine ⟨_, rfl, rfl, (IsSeen_mark _ C C dC hC3).2 (Or.inl rfl),
      (IsSeen_mark _ C D dC hC3).2 (Or.inr hD3)⟩

/-- The diamond in any store: when the callers list of `A` is `[B, C]`, the
callers lists of `B` and of `C` are `[D]`, and `D` has no callers, the query
for `A` returns the single path `[D, B, A]`, whatever the order of the
entities in the table; `C` is visited and emits nothing. -/
theorem findCallPaths_diamond (g : List functionDecl_t) (A B C D : String) (cp0 : callpaths_t)
    (hA : callersOf g A = [B, C]) (hB : callersOf g B = [D]) (hC : callersOf g C = [D])
    (hD : IsRoot g D) :
    ∃ s, findCallPaths g A cp0 = .ret s ∧ s.callpathsOut.toList = [[D, B, A]] ∧
      s.callpathsOut.len = 1 ∧ IsSeen s.callgraph C ∧ IsSeen s.callgraph D := by
  obtain ⟨dA, hdA, hAc⟩ := callersOf_cons hA
  obtain ⟨dB, hdB, hBc⟩ := callersOf_cons hB
  obtain ⟨dC, hdC, hCc⟩ := callersOf_cons hC
  obtain ⟨dD, hdD, hDl⟩ := hD
  have h0 : ∀ (k : String) (d : functionDecl_t), HASH_FIND g k = some d →
      HASH_FIND (clearSeen g) k = some (forgetSeen d) := by
    intro k d h
    rw [HASH_FIND_clearSeen, h]
    rfl
  have hne := findCallPaths_ne_fuelOut g A cp0
  unfold findCallPaths at hne ⊢
  have hfuel := findCallpathsHelper_fuel_le (g.length + 1) (g.length + 1 + 3) (by omega)
    (clearSeen g) A initDynArray { cp0 with len := 0 } hne
  obtain ⟨s, hs, hout, hsC, hsD⟩ := findCallpathsHelper_diamond (g.length + 1) (clearSeen g)
    A B C D initDynArray { cp0 with len := 0 } (forgetSeen dA) (forgetSeen dB) (forgetSeen dC)
    (forgetSeen dD) (h0 A dA hdA) rfl hAc (h0 B dB hdB) rfl hBc (h0 C dC hdC) rfl hCc
    (h0 D dD hdD) rfl hDl (by simp [MAX_CALLPATH])
  rw [← hfuel, hs]
  refine ⟨s, rfl, ?_, by rw [hout], hsC, hsD⟩
  rw [hout, toList_setSlot_paths, toList_reversedPath, toList_arrayAppend, toList_arrayAppend,
    toList_arrayAppend, toList_initDynArray]
  simp [callpaths_t.toList]

/-- Claim C4 (diamond case): in every store in which the callers list of `A`
is `[B, C]`, the callers lists of `B` and of `C` are `[D]`, and `D` has no
callers, the query for `A` returns exactly one path, `[D, B, A]`, through the
caller that comes first in the callers list of `A`, whatever the order of the
entities in the table; the other caller `C` is visited, finds `D` already
visited, and emits nothing.  With the two callers exchanged the statement
gives `[[D, C, A]]` for the callers list `[C, B]`. -/
theorem C4_findCallPaths_diamond (g : List functionDecl_t) (A B C D : String)
    (cp0 : callpaths_t)
    (hA : callersOf g A = [B, C]) (hB : callersOf g B = [D]) (hC : callersOf g C = [D])
    (hD : IsRoot g D) :
    queryResult (findCallPaths g A cp0) = .ret [[D, B, A]] ∧
      ∃ s, findCallPaths g A cp0 = .ret s ∧ s.callpathsOut.toList = [[D, B, A]] ∧
        s.callpathsOut.len = 1 ∧ IsSeen s.callgraph C ∧ IsSeen s.callgraph D := by
  obtain ⟨s, hs, hout, hrest⟩ := findCallPaths_diamond g A B C D cp0 hA hB hC hD
  refine ⟨?_, s, hs, hout, hrest⟩
  rw [hs]
  show Outcome.ret s.callpathsOut.toList = _
  rw [hout]

theorem C4_findCallPaths_diamond_witness :
    ((callersOf diamondStore "A" = ["B", "C"] ∧ callersOf diamondStore "B" = ["D"] ∧
        callersOf diamondStore "C" = ["D"] ∧ IsRoot diamondStore "D") ∧
      queryResult (findCallPaths diamondStore "A" ⟨0, []⟩) = .ret [["D", "B", "A"]]) ∧
    ((callersOf diamondStoreCB "A" = ["C", "B"] ∧ callersOf diamondStoreCB "C" = ["D"] ∧
        callersOf diamondStoreCB "B" = ["D"] ∧ IsRoot diamondStoreCB "D") ∧
      queryResult (findCallPaths diamondStoreCB "A" ⟨0, []⟩) = .ret [["D", "C", "A"]]) ∧
    ((storeKeys diamondStoreDC = ["D", "C", "B", "A"] ∧
        callersOf diamondStoreDC "A" = ["B", "C"] ∧ callersOf diamondStoreDC "B" = ["D"] ∧
        callersOf diamondStoreDC "C" = ["D"] ∧ IsRoot diamondStoreDC "D") ∧
      queryResult (findCallPaths diamondStoreDC "A" ⟨0, []⟩) = .ret [["D", "B", "A"]]) :=
  ⟨⟨⟨by decide, by decide, by decide, ⟨_, rfl, rfl⟩⟩,
      (C4_findCallPaths_diamond diamondStore "A" "B" "C" "D" ⟨0, []⟩ (by decide) (by decide)
        (by decide) ⟨_, rfl, rfl⟩).1⟩,
    ⟨⟨by decide, by decide, by decide, ⟨_, rfl, rfl⟩⟩,
      (C4_findCallPaths_diamond diamondStoreCB "A" "C" "B" "D" ⟨0, []⟩ (by decide) (by decide)
        (by decide) ⟨_, rfl, rfl⟩).1⟩,
    ⟨⟨by decide, by decide, by decide, by decide, ⟨_, rfl, rfl⟩⟩,
      (C4_findCallPaths_diamond diamondStoreDC "A" "B" "C" "D" ⟨0, []⟩ (by decide) (by decide)
        (by decide) ⟨_, rfl, rfl⟩).1⟩⟩

end Callgraph
